import Mathlib

/-!
# Gantt timeline and CSV transcoder (`app.js`): shallow embedding

Pure functions of `app.js` are Lean functions. Code that mutates the global
`project` takes the project as an argument and returns the new one. The parts of
the JavaScript runtime the code calls (strings, `Date`, `parseInt`, `Map`,
`Array.prototype.sort`) are modelled in the first sections; what the language
leaves to the host (time zone, non-ISO date parsing, case mapping, collation,
random ids) is a field of `Runtime`.
-/

namespace Gantt

/-! ## JavaScript strings -/

/-- A JavaScript string, as its list of characters (a string with an unpaired
surrogate code unit has no counterpart here). -/
abbrev Str := List Char

/-- The UTF-16 code units of one character (`charCodeAt` sees these). -/
def utf16 (c : Char) : List Nat :=
  if c.toNat < 65536 then [c.toNat]
  else [55296 + (c.toNat - 65536) / 1024, 56320 + (c.toNat - 65536) % 1024]

/-- The code units of a string. -/
def codeUnits (s : Str) : List Nat := s.flatMap utf16

/-- Lexicographic order on code-unit sequences. -/
def lexLt : List Nat → List Nat → Bool
  | [], [] => false
  | [], _ :: _ => true
  | _ :: _, [] => false
  | a :: as, b :: bs => decide (a < b) || (a == b && lexLt as bs)

/-- The `<` of JavaScript on two strings: code-unit lexicographic order. -/
def strLt (a b : Str) : Bool := lexLt (codeUnits a) (codeUnits b)

/-- WhiteSpace and LineTerminator code points of ECMAScript: what `trim()`
strips and what `\s` matches. -/
def isJsSpace (c : Char) : Bool :=
  let n := c.toNat
  (decide (9 ≤ n) && decide (n ≤ 13)) || n == 32 || n == 160 || n == 5760 ||
  (decide (8192 ≤ n) && decide (n ≤ 8202)) || n == 8232 || n == 8233 || n == 8239 ||
  n == 8287 || n == 12288 || n == 65279

/-- The `String.prototype.trimStart`. -/
def trimStart (s : Str) : Str := s.dropWhile isJsSpace

/-- The `String.prototype.trimEnd`. -/
def trimEnd (s : Str) : Str := (s.reverse.dropWhile isJsSpace).reverse

/-- The `String.prototype.trim`. -/
def trim (s : Str) : Str := trimEnd (trimStart s)

/-- The `a || b` of JavaScript on strings: `a` unless it is empty. -/
def strOr (a b : Str) : Str := if a.isEmpty then b else a

/-- The `s.replaceAll(p, rep)` for a one-character pattern `p`. -/
def replaceAll (p : Char) (rep : Str) : Str → Str
  | [] => []
  | c :: cs => if c = p then rep ++ replaceAll p rep cs else c :: replaceAll p rep cs

/-- The `s.replace(/\s+/g, rep)`: every maximal run of white space becomes `rep`. -/
def replaceSpaceRuns (rep : Str) : Str → Str
  | [] => []
  | c :: cs =>
    if isJsSpace c then
      match cs with
      | [] => rep
      | d :: _ => if isJsSpace d then replaceSpaceRuns rep cs else rep ++ replaceSpaceRuns rep cs
    else c :: replaceSpaceRuns rep cs

/-- The `parts.join(sep)`. -/
def join (sep : Str) : List Str → Str
  | [] => []
  | [a] => a
  | a :: b :: rest => a ++ sep ++ join sep (b :: rest)

/-- The character of a decimal digit. -/
def digitChar (n : Nat) : Char := Char.ofNat (48 + n)

/-- Decimal digits of `n`, most significant first, exactly `k` of them
(`n` taken modulo `10 ^ k`). -/
def padDigits : Nat → Nat → Str
  | 0, _ => []
  | k + 1, n => padDigits k (n / 10) ++ [digitChar (n % 10)]

/-- The `String(n)` for a natural number. -/
def natToStr (n : Nat) : Str := (Nat.toDigits 10 n)

/-- The `String(n)` for an integer. -/
def intToStr : Int → Str
  | Int.ofNat n => natToStr n
  | Int.negSucc n => '-' :: natToStr (n + 1)

/-- Value of a decimal digit character. -/
def digitVal (c : Char) : Option Nat :=
  if 48 ≤ c.toNat ∧ c.toNat ≤ 57 then some (c.toNat - 48) else none

/-- Value of the longest prefix of decimal digits, read after `acc`; the
boolean tells whether a digit was read. -/
def readDigits : Str → Nat → Bool → Nat × Bool
  | [], acc, seen => (acc, seen)
  | c :: cs, acc, seen =>
    match digitVal c with
    | some d => readDigits cs (acc * 10 + d) true
    | none => (acc, seen)

/-- Mathematical value read by `parseInt(s, 10)`: `none` is `NaN`. Leading white
space is skipped, one sign is accepted, then the longest run of digits is read. -/
def parseIntValue (s : Str) : Option Int :=
  match trimStart s with
  | [] => none
  | c :: cs =>
    if c = '-' then
      match readDigits cs 0 false with
      | (v, true) => some (-(v : Int))
      | (_, false) => none
    else
      match readDigits (if c = '+' then cs else c :: cs) 0 false with
      | (v, true) => some (v : Int)
      | (_, false) => none

/-- Magnitudes from which a decimal numeral rounds to `Infinity` as a Number:
`2^1024 - 2^970`, half way between the largest double and `2^1024`. -/
def doubleOverflow : Nat :=
  179769313486231580793728971405303415079934132710037826936173778980444968292764750946649017977587207096330286416692887910946555547851940402630657488671505820681908902000708383676273854845817711531764475730270069855571366959622842914819860834936475292719074168444365510704342711559699508093042880177904174497792

/-- The `Number.isFinite(v)` for the value read by `parseInt`. -/
def numberIsFinite : Option Int → Bool
  | none => false
  | some v => decide (v.natAbs < doubleOverflow)

/-! ## Calendar and `Date` -/

/-- Milliseconds in a day. -/
def msPerDay : Int := 86400000

/-- Gregorian leap years. -/
def isLeapYear (y : Int) : Bool := y % 4 == 0 && (y % 100 != 0 || y % 400 == 0)

/-- Days of month `m` (1 to 12) of year `y`. -/
def daysInMonth (y m : Int) : Int :=
  if m = 2 then (if isLeapYear y then 29 else 28)
  else if m = 4 ∨ m = 6 ∨ m = 9 ∨ m = 11 then 30 else 31

/-- Day number (days since 1970-01-01, proleptic Gregorian calendar) of day `d`
of month `m` of year `y`. It is linear in `d`, so a day of month outside the
month rolls over as `MakeDay` does. -/
def daysFromCivil (y m d : Int) : Int :=
  let y1 := if m ≤ 2 then y - 1 else y
  let era := y1 / 400
  let yoe := y1 % 400
  let mp := if m > 2 then m - 3 else m + 9
  let doy := (153 * mp + 2) / 5 + d - 1
  let doe := yoe * 365 + yoe / 4 - yoe / 100 + doy
  era * 146097 + doe - 719468

/-- Year of the 400-year era (counted from 1 March) and day of that year, for a
day `doe` of the era. -/
def yearDayOfEra (doe : Int) : Int × Int :=
  let c := min (doe / 36524) 3
  let doc := doe - c * 36524
  let q := doc / 1461
  let doq := doc % 1461
  let yy := min (doq / 365) 3
  (c * 100 + q * 4 + yy, doq - yy * 365)

/-- Month (1 to 12) and day of month for a day of a year counted from 1 March. -/
def monthDayOfYearDay (doy : Int) : Int × Int :=
  let mp := (5 * doy + 2) / 153
  (if mp < 10 then mp + 3 else mp - 9, doy - (153 * mp + 2) / 5 + 1)

/-- Year, month, day of month of a day number: `YearFromTime`, `MonthFromTime`
(plus one) and `DateFromTime`. -/
def civilFromDays (z0 : Int) : Int × Int × Int :=
  let z := z0 + 719468
  let era := z / 146097
  let yd := yearDayOfEra (z % 146097)
  let md := monthDayOfYearDay yd.2
  let y := era * 400 + yd.1
  (if md.1 ≤ 2 then y + 1 else y, md.1, md.2)

/-- Time value of a `Date` object: milliseconds since the epoch in UTC, `none`
for the Invalid Date (`NaN`). -/
abbrev JSDate := Option Int

/-- Largest magnitude of a time value. -/
def maxTime : Int := 8640000000000000

/-- The `TimeClip`: a time value out of range is the Invalid Date. -/
def timeClip (t : Int) : JSDate := if -maxTime ≤ t ∧ t ≤ maxTime then some t else none

/-- What the host decides. `localTZA` is the offset of local time from UTC in
milliseconds (a zone with a fixed offset); `dateParseOther` is `Date.parse` on a
string that is not a plain `YYYY-MM-DD` calendar date; `toLowerCase` is the
Unicode lower-casing; `localeCompare` the host collation; `randomUUID n` the
result of the `n`-th call of `crypto.randomUUID()`. -/
structure Runtime where
  localTZA : Int
  dateParseOther : Str → JSDate
  toLowerCase : Str → Str
  localeCompare : Str → Str → Int
  randomUUID : Nat → Str

/-- Day number of a string of the exact form `YYYY-MM-DD` that names a day of
the calendar. -/
def parseCalendarDate : Str → Option Int
  | [y3, y2, y1, y0, s1, m1, m0, s2, d1, d0] =>
    match digitVal y3, digitVal y2, digitVal y1, digitVal y0,
          digitVal m1, digitVal m0, digitVal d1, digitVal d0 with
    | some a, some b, some c, some d, some e, some f, some g, some h =>
      let y : Int := ((1000 * a + 100 * b + 10 * c + d : Nat) : Int)
      let m : Int := ((10 * e + f : Nat) : Int)
      let dd : Int := ((10 * g + h : Nat) : Int)
      if s1 = '-' ∧ s2 = '-' ∧ 1 ≤ m ∧ m ≤ 12 ∧ 1 ≤ dd ∧ dd ≤ daysInMonth y m then
        some (daysFromCivil y m dd)
      else none
    | _, _, _, _, _, _, _, _ => none
  | _ => none

/-- The `new Date(s)` for a string: a date-only ISO string is midnight UTC of that
day; anything else is left to the host. -/
def newDate (rt : Runtime) (s : Str) : JSDate :=
  match parseCalendarDate s with
  | some day => timeClip (day * msPerDay)
  | none => rt.dateParseOther s

/-- The `Day(LocalTime(t))`: the day number of `t` in local time. -/
def localDay (rt : Runtime) (t : Int) : Int := (t + rt.localTZA) / msPerDay

/-- The `d.setHours(0,0,0,0)`: midnight, local time, of the local day of `d`. -/
def setHours0 (rt : Runtime) : JSDate → JSDate
  | none => none
  | some t => timeClip (localDay rt t * msPerDay - rt.localTZA)

/-- The `d.getDate()`: day of the month in local time (`none` is `NaN`). -/
def getDate (rt : Runtime) : JSDate → Option Int
  | none => none
  | some t => some (civilFromDays (localDay rt t)).2.2

/-- The `d.setDate(dt)`: the day of month is replaced in local time, the time within
the day is kept. -/
def setDate (rt : Runtime) (d : JSDate) (dt : Option Int) : JSDate :=
  match d, dt with
  | some t, some n =>
    let lt := t + rt.localTZA
    let ymd := civilFromDays (lt / msPerDay)
    timeClip (daysFromCivil ymd.1 ymd.2.1 n * msPerDay + lt % msPerDay - rt.localTZA)
  | _, _ => none

/-- Year field of `toISOString`: four digits, or a sign and six digits outside
0..9999. -/
def isoYear (y : Int) : Str :=
  if 0 ≤ y ∧ y ≤ 9999 then padDigits 4 y.toNat
  else (if y < 0 then '-' else '+') :: padDigits 6 y.natAbs

/-- The `d.toISOString()` of a valid time value (UTC). -/
def toISOString (t : Int) : Str :=
  let ymd := civilFromDays (t / msPerDay)
  let ms := (t % msPerDay).toNat
  isoYear ymd.1 ++ '-' :: padDigits 2 ymd.2.1.toNat ++ '-' :: padDigits 2 ymd.2.2.toNat ++
    'T' :: padDigits 2 (ms / 3600000) ++ ':' :: padDigits 2 (ms / 60000 % 60) ++
    ':' :: padDigits 2 (ms / 1000 % 60) ++ '.' :: padDigits 3 (ms % 1000) ++ ['Z']

/-- The `Math.round(a / b)` for integers, `b > 0`: halves go up. -/
def roundDiv (a b : Int) : Int := (2 * a + b) / (2 * b)

/-! ## Utilities of `app.js` -/

/-- The `clamp` of `app.js`: `Math.max(a, Math.min(b, v))`. -/
def clamp (v a b : Int) : Int := max a (min b v)

/-- Argument of `toISODate`: a `Date` object or a string. -/
inductive DateArg where
  | ofDate (d : JSDate)
  | ofString (s : Str)

/-- The `toISODate` of `app.js`; `none` when `toISOString` throws a RangeError
(Invalid Date). -/
def toISODate (rt : Runtime) (d : DateArg) : Option Str :=
  let dt : JSDate := match d with
    | DateArg.ofDate x => x
    | DateArg.ofString s => newDate rt s
  match setHours0 rt dt with
  | none => none
  | some t => some ((toISOString t).take 10)

/-- The `parseISODate` of `app.js`. -/
def parseISODate (rt : Runtime) (s : Str) : JSDate := setHours0 rt (newDate rt s)

/-- The `addDays` of `app.js`; `none` when it throws. -/
def addDays (rt : Runtime) (dateISO : Str) (days : Int) : Option Str :=
  let d := parseISODate rt dateISO
  let d1 := setDate rt d ((getDate rt d).map (fun x => x + days))
  toISODate rt (DateArg.ofDate d1)

/-- The `diffDays` of `app.js`; `none` is `NaN`. -/
def diffDays (rt : Runtime) (startISO endISO : Str) : Option Int :=
  match parseISODate rt startISO, parseISODate rt endISO with
  | some s, some e => some (roundDiv (e - s) msPerDay)
  | _, _ => none

/-! ## Data model -/

/-- A topic: `{id, name, color}`. -/
structure Topic where
  id : Str
  name : Str
  color : Str
  deriving DecidableEq, Repr

/-- A task: `{id, topicId, title, desc, start, end}`. -/
structure Task where
  id : Str
  topicId : Str
  title : Str
  desc : Str
  start : Str
  end_ : Str
  deriving DecidableEq, Repr

/-- The in-memory project. -/
structure Project where
  name : Str
  topics : List Topic
  tasks : List Task
  deriving DecidableEq, Repr

/-- A record returned by `parseCSV`. -/
structure Row where
  topic : Str
  title : Str
  start : Str
  end_ : Str
  duration_days : Str
  desc : Str
  deriving DecidableEq, Repr

/-- The sentinel topic `DEFAULT_TOPIC` of `app.js`. -/
def DEFAULT_TOPIC : Topic :=
  ⟨"unassigned".toList, "לא משויך".toList, "#9aa4b2".toList⟩

/-- A JavaScript `Map` with string keys: its entries in insertion order. -/
abbrev JSMap (β : Type) := List (Str × β)

/-- The `m.has(k)`. -/
def JSMap.has {β : Type} (m : JSMap β) (k : Str) : Bool := m.any (fun e => e.1 == k)

/-- The `m.get(k)`; `none` is `undefined`. -/
def JSMap.get {β : Type} (m : JSMap β) (k : Str) : Option β := (m.find? (fun e => e.1 == k)).map Prod.snd

/-- The `m.set(k, v)`: an existing key keeps its place. -/
def JSMap.set {β : Type} : JSMap β → Str → β → JSMap β
  | [], k, v => [(k, v)]
  | e :: m, k, v => if e.1 == k then (k, v) :: m else e :: JSMap.set m k v

/-- The `new Map(entries)`. -/
def JSMap.ofEntries {β : Type} (entries : List (Str × β)) : JSMap β :=
  entries.foldl (fun m e => JSMap.set m e.1 e.2) []

/-! ## CSV export and import -/

/-- The `CSV_COLUMNS` of `app.js`. -/
def CSV_COLUMNS : List Str :=
  ["topic".toList, "title".toList, "start".toList, "end".toList,
   "duration_days".toList, "desc".toList]

/-- The test `/[",\n\r]/.test(s)`. -/
def needsQuoting (s : Str) : Bool :=
  s.any (fun c => c == '"' || c == ',' || c == '\n' || c == '\r')

/-- The `csvEscape` of `app.js`, on a string. -/
def csvEscape (s : Str) : Str :=
  if needsQuoting s then '"' :: (replaceAll '"' ['"', '"'] s ++ ['"']) else s

/-- The `dur` cell of `buildCSV` after `String(...)`: empty when a date is
missing, else `diffDays(start, end) + 1`. -/
def durationCell (rt : Runtime) (t : Task) : Str :=
  if !t.start.isEmpty && !t.end_.isEmpty then
    match diffDays rt t.start t.end_ with
    | some n => intToStr (n + 1)
    | none => "NaN".toList
  else []

/-- The `topicsMap` of `buildCSV`: `new Map(proj.topics.map(t=>[t.id,t]))`. -/
def topicsMapOf (topics : List Topic) : JSMap Topic :=
  JSMap.ofEntries (topics.map (fun t => (t.id, t)))

/-- The name `buildCSV` writes for a topic id:
`(topicsMap.get(topicId) || DEFAULT_TOPIC).name`. -/
def topicNameOf (topics : List Topic) (topicId : Str) : Str :=
  (((topicsMapOf topics).get topicId).getD DEFAULT_TOPIC).name

/-- The six values of the line of a task, before `csvEscape`. -/
def csvValues (rt : Runtime) (topics : List Topic) (t : Task) : List Str :=
  [topicNameOf topics t.topicId, t.title, t.start, t.end_, durationCell rt t, strOr t.desc []]

/-- The line `buildCSV` writes for one task. -/
def csvLine (rt : Runtime) (topics : List Topic) (t : Task) : Str :=
  join [','] ((csvValues rt topics t).map csvEscape)

/-- The `buildCSV` of `app.js`. -/
def buildCSV (rt : Runtime) (proj : Project) : Str :=
  let rows := join [','] CSV_COLUMNS :: proj.tasks.map (csvLine rt proj.topics)
  '\uFEFF' :: join ['\n'] rows

/-- State of the scanning loop of `parseCSV`. -/
structure ScanState where
  field : Str
  row : List Str
  rows : List (List Str)
  inQuotes : Bool
  deriving DecidableEq, Repr

/-- One turn of the `while` loop of `parseCSV` that consumes one character `c`
(every branch but the doubled quote inside quotes). -/
def scanStep (c : Char) (st : ScanState) : ScanState :=
  if st.inQuotes then
    if c = '"' then { st with inQuotes := false }
    else { st with field := st.field ++ [c] }
  else
    if c = '"' then { st with inQuotes := true }
    else if c = ',' then { st with field := [], row := st.row ++ [st.field] }
    else if c = '\n' then
      { st with field := [], row := [], rows := st.rows ++ [st.row ++ [st.field]] }
    else if c = '\r' then st
    else { st with field := st.field ++ [c] }

/-- The `while` loop of `parseCSV` over the rest of the text: inside quotes a
quote followed by a quote is one quote of the field (`i += 2`); every other
turn consumes one character. -/
def scanCSV : Str → ScanState → ScanState
  | [], st => st
  | [c], st => scanStep c st
  | c :: c2 :: cs, st =>
    if st.inQuotes ∧ c = '"' ∧ c2 = '"' then scanCSV cs { st with field := st.field ++ ['"'] }
    else scanCSV (c2 :: cs) (scanStep c st)

/-- The rows of cells read by `parseCSV`, before the blank rows at the end are
removed: the loop, then `pushField(); pushRow()`. -/
def csvCells (text : Str) : List (List Str) :=
  let st := scanCSV text ⟨[], [], [], false⟩
  st.rows ++ [st.row ++ [st.field]]

/-- A row whose cells are all blank. -/
def isBlankRow (r : List Str) : Bool := r.all (fun x => (trim x).isEmpty)

/-- The loop `while(rows.length && last row is blank) rows.pop()`. -/
def dropBlankTail (rows : List (List Str)) : List (List Str) :=
  (rows.reverse.dropWhile isBlankRow).reverse

/-- The `idx[key]` of `parseCSV`: the last column whose trimmed header is `key`. -/
def headerIndex (header : List Str) (key : Str) : Option Nat :=
  (List.range header.length).foldl
    (fun found j => if trim (header.getD j []) == key then some j else found) none

/-- The `get(r, key)` of `parseCSV`. -/
def getCell (header : List Str) (r : List Str) (key : Str) : Str :=
  match headerIndex header key with
  | none => []
  | some j => r.getD j []

/-- The cell `(get(r, en) || get(r, he) || "").trim()`. -/
def cellOf (header : List Str) (r : List Str) (en he : Str) : Str :=
  trim (strOr (strOr (getCell header r en) (getCell header r he)) [])

/-- The record `parseCSV` builds from one data row. -/
def rowOfCells (header : List Str) (r : List Str) : Row :=
  { topic := cellOf header r "topic".toList "נושא".toList
    title := cellOf header r "title".toList "כותרת".toList
    start := cellOf header r "start".toList "תאריך התחלה".toList
    end_ := cellOf header r "end".toList "תאריך סיום".toList
    duration_days := cellOf header r "duration_days".toList "משך (ימים)".toList
    desc := cellOf header r "desc".toList "תיאור".toList }

/-- The `parseCSV` of `app.js`. -/
def parseCSV (text : Str) : List Row :=
  match dropBlankTail (csvCells text) with
  | [] => []
  | header :: rows => rows.map (rowOfCells header)

/-- The `s` of `slugId`: `name.trim().toLowerCase().replace(/\s+/g,'-')`. -/
def slugText (rt : Runtime) (name : Str) : Str :=
  replaceSpaceRuns ['-'] (rt.toLowerCase (trim name))

/-- The `slugId` of `app.js`, with the number of `randomUUID` calls made so far;
it returns the id and the new count. -/
def slugId (rt : Runtime) (name : Str) (uuids : Nat) : Str × Nat :=
  if (slugText rt name).isEmpty then (rt.randomUUID uuids, uuids + 1) else (slugText rt name, uuids)

/-- The `randomColorFromName` of `app.js`. -/
def randomColorFromName (name : Str) : Str :=
  let h := (codeUnits name).foldl (fun h c => (h * 31 + c) % 4294967296) 0
  "hsl(".toList ++ natToStr (h % 360) ++ " 70% 60%)".toList

/-- What `applyImportedTasks` works on: the project, the `nameToId` map and the
number of `randomUUID` calls made so far. -/
structure ImportState where
  project : Project
  nameToId : JSMap Str
  uuids : Nat

/-- The topic part of the `forEach` callback of `applyImportedTasks`: the state
after it and the `topicId` of the row. -/
def resolveTopic (rt : Runtime) (st : ImportState) (row : Row) : ImportState × Str :=
  if row.topic.isEmpty then (st, DEFAULT_TOPIC.id)
  else if st.nameToId.has row.topic then (st, (st.nameToId.get row.topic).getD [])
  else
    let slug := slugId rt row.topic st.uuids
    let topics :=
      if st.project.topics.any (fun t => t.id == slug.1) then st.project.topics
      else st.project.topics ++ [⟨slug.1, row.topic, randomColorFromName row.topic⟩]
    ({ project := { st.project with topics := topics }
       nameToId := st.nameToId.set row.topic slug.1
       uuids := slug.2 }, slug.1)

/-- The `end` of a row after the line "If duration exists and end missing =>
compute"; the outer `none` is a thrown RangeError. -/
def resolveEnd (rt : Runtime) (row : Row) : Option Str :=
  let dur := parseIntValue row.duration_days
  if !row.start.isEmpty && row.end_.isEmpty && numberIsFinite dur && decide (0 < dur.getD 0) then
    addDays rt row.start (dur.getD 0 - 1)
  else some row.end_

/-- One call of the `forEach` callback of `applyImportedTasks`: the state it
leaves, and whether it threw. -/
def importRow (rt : Runtime) (st : ImportState) (row : Row) : ImportState × Bool :=
  if row.title.isEmpty then (st, false)
  else
    let st1 := (resolveTopic rt st row).1
    let topicId := (resolveTopic rt st row).2
    match resolveEnd rt row with
    | none => (st1, true)
    | some end1 =>
      if row.start.isEmpty || end1.isEmpty then (st1, false)
      else
        match toISODate rt (DateArg.ofString row.start) with
        | none => (st1, true)
        | some start2 =>
          match toISODate rt (DateArg.ofString end1) with
          | none => (st1, true)
          | some end2 =>
            let task : Task :=
              { id := rt.randomUUID st1.uuids, topicId := topicId, title := row.title,
                desc := strOr row.desc [], start := start2, end_ := end2 }
            ({ st1 with
                project := { st1.project with tasks := st1.project.tasks ++ [task] }
                uuids := st1.uuids + 1 }, false)

/-- The `imported.forEach(...)` of `applyImportedTasks`: rows in order, stopping
at the first row that throws. -/
def importRows (rt : Runtime) : ImportState → List Row → ImportState × Bool
  | st, [] => (st, false)
  | st, row :: rows =>
    match importRow rt st row with
    | (st1, true) => (st1, true)
    | (st1, false) => importRows rt st1 rows

/-- Outcome of an import: the project and the count of `randomUUID` calls left
behind, and whether an error was thrown. -/
structure ImportResult where
  project : Project
  uuids : Nat
  threw : Bool

/-- The `applyImportedTasks` of `app.js` on an open project. -/
def applyImportedTasks (rt : Runtime) (project : Project) (uuids : Nat) (imported : List Row) :
    ImportResult :=
  let nameToId : JSMap Str := JSMap.ofEntries (project.topics.map (fun t => (t.name, t.id)))
  let r := importRows rt ⟨project, nameToId, uuids⟩ imported
  ⟨r.1.project, r.1.uuids, r.2⟩

/-- The body of the `try` of the `csvFile` change handler, up to the import:
`parseCSV(text)` then `applyImportedTasks(imported)`. -/
def importCSV (rt : Runtime) (project : Project) (uuids : Nat) (text : Str) : ImportResult :=
  applyImportedTasks rt project uuids (parseCSV text)

/-! ## Date range and day grid -/

/-- The `forEach` of `computeDateRange`: least non-empty `start` and greatest
non-empty `end`, by string comparison, from the given `min` and `max`. -/
def scanMinMax (tasks : List Task) (min max : Str) : Str × Str :=
  tasks.foldl
    (fun mm t =>
      (if !t.start.isEmpty && strLt t.start mm.1 then t.start else mm.1,
       if !t.end_.isEmpty && strLt mm.2 t.end_ then t.end_ else mm.2))
    (min, max)

/-- The `Math.max(30, Math.ceil(viewportW / pxDay))` for a width and a day width in
whole pixels, `pxDay > 0` (`setPxDay` keeps it in 16..48). -/
def minDaysToFill (viewportW pxDay : Nat) : Int :=
  max 30 (((viewportW + pxDay - 1) / pxDay : Nat) : Int)

/-- The `computeDateRange` of `app.js`: `project` is the open project if any,
`now` the time value of `new Date()`, `viewportW` the `clientWidth` of the date
column (0 without it). The result is `(min, max)`, or `none` when a RangeError
is thrown. -/
def computeDateRange (rt : Runtime) (project : Option Project) (now : Int)
    (viewportW pxDay : Nat) : Option (Str × Str) :=
  match project.map (fun p => p.tasks) with
  | some (t0 :: ts) =>
    let mm := scanMinMax (t0 :: ts) t0.start t0.end_
    match addDays rt mm.1 (-2), addDays rt mm.2 2 with
    | some min, some max =>
      match diffDays rt min max with
      | some diff =>
        let spanDays := diff + 1
        if spanDays < minDaysToFill viewportW pxDay then
          (addDays rt max (minDaysToFill viewportW pxDay - spanDays)).map (fun max1 => (min, max1))
        else some (min, max)
      | none => some (min, max)
    | _, _ => none
  | _ =>
    let today := setHours0 rt (some now)
    let start := setDate rt today ((getDate rt today).map (fun x => x - 15))
    let end1 := setDate rt today ((getDate rt today).map (fun x => x + 45))
    match toISODate rt (DateArg.ofDate start), toISODate rt (DateArg.ofDate end1) with
    | some min, some max => some (min, max)
    | _, _ => none

/-- How a loop run with a bound on its turns ends. -/
inductive Outcome (α : Type) where
  | done (a : α)
  | threw
  | outOfFuel
  deriving DecidableEq, Repr

/-- The `while(d <= end)` loop of `buildDATES`, at most `fuel` turns.
`toISODate(d)` sets `d` to local midnight before it is formatted. -/
def buildDATESLoop (rt : Runtime) : Nat → JSDate → JSDate → List Str → Outcome (List Str)
  | 0, d, end1, out =>
    match d, end1 with
    | some dv, some ev => if dv ≤ ev then Outcome.outOfFuel else Outcome.done out
    | _, _ => Outcome.done out
  | fuel + 1, d, end1, out =>
    match d, end1 with
    | some dv, some ev =>
      if dv ≤ ev then
        match setHours0 rt d with
        | none => Outcome.threw
        | some t =>
          buildDATESLoop rt fuel
            (setDate rt (some t) ((getDate rt (some t)).map (fun x => x + 1))) end1
            (out ++ [(toISOString t).take 10])
      else Outcome.done out
    | _, _ => Outcome.done out

/-- Turns that `buildDATES` needs at most: one for each day from `d` to `end`. -/
def buildDATESFuel (d end1 : JSDate) : Nat :=
  match d, end1 with
  | some dv, some ev => ((ev - dv) / msPerDay + 1).toNat
  | _, _ => 0

/-- The `buildDATES` of `app.js`. -/
def buildDATES (rt : Runtime) (minISO maxISO : Str) : Outcome (List Str) :=
  let d := parseISODate rt minISO
  let end1 := parseISODate rt maxISO
  buildDATESLoop rt (buildDATESFuel d end1) d end1 []

/-! ## Task groups and block layout -/

/-- The comparator `(a,b) => (a.start||"").localeCompare(b.start||"")` is not
positive: `a` may stay before `b`. -/
def startLe (rt : Runtime) (a b : Task) : Prop := rt.localeCompare (strOr a.start []) (strOr b.start []) ≤ 0

instance (rt : Runtime) : DecidableRel (startLe rt) := fun a b =>
  inferInstanceAs (Decidable (rt.localeCompare (strOr a.start []) (strOr b.start []) ≤ 0))

/-- The `buildTaskGroups` of `app.js`: a `Map` from topic id to its tasks, each
group sorted by `Array.prototype.sort` (a stable sort). -/
def buildTaskGroups (rt : Runtime) (project : Project) : JSMap (List Task) :=
  let g0 : JSMap (List Task) := project.topics.foldl (fun g t => JSMap.set g t.id []) []
  let g1 := project.tasks.foldl
    (fun g task =>
      let tid := if JSMap.has g task.topicId then task.topicId else DEFAULT_TOPIC.id
      let g2 := if JSMap.has g tid then g else JSMap.set g tid []
      JSMap.set g2 tid ((JSMap.get g2 tid).getD [] ++ [task]))
    g0
  g1.map (fun e => (e.1, List.insertionSort (startLe rt) e.2))

/-- The search of `indexOf` from position `i` on. -/
def indexOfFrom (x : Str) : List Str → Nat → Int
  | [], _ => -1
  | y :: ys, i => if y = x then (i : Int) else indexOfFrom x ys (i + 1)

/-- The `DATES.indexOf(x)`: the first position of `x`, or -1. -/
def indexOf (xs : List Str) (x : Str) : Int := indexOfFrom x xs 0

/-- The `daysCount` of `app.js`. -/
def daysCount (DATES : List Str) : Int := (DATES.length : Int)

/-- The index `renderBlocks` lays a date out at:
`clamp(DATES.indexOf(date), 0, daysCount()-1)`. -/
def blockIndex (DATES : List Str) (date : Str) : Int :=
  clamp (indexOf DATES date) 0 (daysCount DATES - 1)

/-! ## Vocabulary of the statements -/

/-- The `YYYY-MM-DD` string of a year, a month and a day of month. -/
def isoDate (y m d : Nat) : Str := padDigits 4 y ++ '-' :: (padDigits 2 m ++ '-' :: padDigits 2 d)

/-- The `YYYY-MM-DD` string of a day number (years 0 to 9999). -/
def isoOfDay (z : Int) : Str :=
  isoDate (civilFromDays z).1.toNat (civilFromDays z).2.1.toNat (civilFromDays z).2.2.toNat

/-- Day number of 0000-01-01. -/
def minCanonicalDay : Int := -719528

/-- Day number of 9999-12-31. -/
def maxCanonicalDay : Int := 2932896

/-- A canonical date: a string `YYYY-MM-DD` that names a day of the calendar. -/
def isCanonicalDate (s : Str) : Bool := (parseCalendarDate s).isSome

/-- Day number of a canonical date (0 for any other string). -/
def dayOf (s : Str) : Int := (parseCalendarDate s).getD 0

/-- A host whose local time is less than a day away from UTC. -/
def zoneOk (rt : Runtime) : Prop := -msPerDay < rt.localTZA ∧ rt.localTZA < msPerDay

instance (rt : Runtime) : Decidable (zoneOk rt) :=
  inferInstanceAs (Decidable (-msPerDay < rt.localTZA ∧ rt.localTZA < msPerDay))

/-- Days by which the UTC date of a local midnight is behind the local date:
none when local time is UTC, one day in every other zone. -/
def zoneLag (rt : Runtime) : Int := if rt.localTZA = 0 then 0 else 1

/-- Lower-casing of the ASCII letters: `toLowerCase` on a string whose other
characters have no case. -/
def asciiLower (s : Str) : Str :=
  s.map (fun c => if 65 ≤ c.toNat ∧ c.toNat ≤ 90 then Char.ofNat (c.toNat + 32) else c)

/-- Comparison by code units, as a `localeCompare`. -/
def codeUnitCompare (a b : Str) : Int := if strLt a b then -1 else if strLt b a then 1 else 0

/-- An example host: local time is UTC, only `YYYY-MM-DD` strings are dates. -/
def utcHost : Runtime :=
  { localTZA := 0
    dateParseOther := fun _ => none
    toLowerCase := asciiLower
    localeCompare := codeUnitCompare
    randomUUID := fun n => "uuid-".toList ++ natToStr n }

/-- An example host two hours east of UTC (Asia/Jerusalem in winter). -/
def utcPlus2Host : Runtime := { utcHost with localTZA := 7200000 }

/-- A row `applyImportedTasks` can make a task of: a title, a start, and an end
or a duration that parses to a positive integer. -/
def rowResolvable (row : Row) : Bool :=
  !row.title.isEmpty && !row.start.isEmpty &&
    (!row.end_.isEmpty ||
      (numberIsFinite (parseIntValue row.duration_days) &&
        decide (0 < (parseIntValue row.duration_days).getD 0)))

/-- The dates a row needs are valid: computing its end and normalising its
start and end throw no RangeError. -/
def rowDatesValid (rt : Runtime) (row : Row) : Bool :=
  match resolveEnd rt row with
  | none => false
  | some e =>
    (toISODate rt (DateArg.ofString row.start)).isSome && (toISODate rt (DateArg.ofString e)).isSome

/-- The topics of a project that had the sentinel topic alone, after an import
that synthesized topics for the names `seen`, in this order. -/
def importedTopics (rt : Runtime) (seen : List Str) : List Topic :=
  DEFAULT_TOPIC :: seen.map (fun n => (⟨slugText rt n, n, randomColorFromName n⟩ : Topic))

/-- The `nameToId` map of that import. -/
def importedNameToId (rt : Runtime) (seen : List Str) : JSMap Str :=
  (DEFAULT_TOPIC.name, DEFAULT_TOPIC.id) :: seen.map (fun n => (n, slugText rt n))

/-- The topic id that import gives a row with topic name `n`. -/
def importedTopicId (rt : Runtime) (n : Str) : Str :=
  if n = DEFAULT_TOPIC.name then DEFAULT_TOPIC.id else slugText rt n

/-- What the CSV round trip compares of a task: the name of its topic, its
title, start, end and description. -/
def taskTuple (topics : List Topic) (t : Task) : Str × Str × Str × Str × Str :=
  (topicNameOf topics t.topicId, t.title, t.start, t.end_, t.desc)

/-- An example project: the sentinel and two more topics; three tasks, one with
a comma and quotes in its title and a line break in its description, one whose
topic id names no topic. -/
def sampleProject : Project :=
  { name := "Sample".toList
    topics := [DEFAULT_TOPIC, ⟨"work-items".toList, "Work Items".toList, "#1f77b4".toList⟩,
      ⟨"home".toList, "Home".toList, "#ff0000".toList⟩]
    tasks := [
      ⟨"t1".toList, "work-items".toList, "Plan, \"phase 1\"".toList, "first\nsecond".toList,
        "2024-01-10".toList, "2024-01-12".toList⟩,
      ⟨"t2".toList, "gone".toList, "Orphan".toList, [], "2024-02-28".toList,
        "2024-03-01".toList⟩,
      ⟨"t3".toList, "home".toList, "Paint".toList, "blue".toList, "2023-12-31".toList,
        "2024-01-01".toList⟩] }

/-- An example of an empty project: no task, the sentinel topic alone. -/
def emptyProject : Project := { name := "Empty".toList, topics := [DEFAULT_TOPIC], tasks := [] }

/-! ## More of `Date` -/

/-- The `WeekDay` of a day number: 0 is Sunday, 1 is Monday (day 0, 1970-01-01,
was a Thursday). -/
def weekDay (z : Int) : Int := (z + 4) % 7

/-- The `d.getDay()`: day of the week in local time (`none` is `NaN`). -/
def getDay (rt : Runtime) : JSDate → Option Int
  | none => none
  | some t => some (weekDay (localDay rt t))

/-- The `d.getFullYear()`: the year in local time. -/
def getFullYear (rt : Runtime) : JSDate → Option Int
  | none => none
  | some t => some (civilFromDays (localDay rt t)).1

/-- The `d.getMonth()`: the month in local time, 0 to 11. -/
def getMonth (rt : Runtime) : JSDate → Option Int
  | none => none
  | some t => some ((civilFromDays (localDay rt t)).2.1 - 1)

/-- The `new Date(Date.UTC(year, month, date))`: midnight UTC of that day. A year
from 0 to 99 stands for 1900 + year; a month outside 0..11 carries into the
year. -/
def dateUTC (year month date : Option Int) : JSDate :=
  match year, month, date with
  | some y, some m, some dt =>
    let yr := if 0 ≤ y ∧ y ≤ 99 then 1900 + y else y
    timeClip (daysFromCivil (yr + m / 12) (m % 12 + 1) dt * msPerDay)
  | _, _, _ => none

/-- The `d.getUTCDay()`. -/
def getUTCDay : JSDate → Option Int
  | none => none
  | some t => some (weekDay (t / msPerDay))

/-- The `d.getUTCDate()`. -/
def getUTCDate : JSDate → Option Int
  | none => none
  | some t => some (civilFromDays (t / msPerDay)).2.2

/-- The `d.getUTCFullYear()`. -/
def getUTCFullYear : JSDate → Option Int
  | none => none
  | some t => some (civilFromDays (t / msPerDay)).1

/-- The `d.setUTCDate(dt)`: the day of month is replaced in UTC, the time within the
day is kept. -/
def setUTCDate (d : JSDate) (dt : Option Int) : JSDate :=
  match d, dt with
  | some t, some n =>
    let ymd := civilFromDays (t / msPerDay)
    timeClip (daysFromCivil ymd.1 ymd.2.1 n * msPerDay + t % msPerDay)
  | _, _ => none

/-- The `Math.ceil(a / b)` for integers, `b > 0`. -/
def ceilDiv (a b : Int) : Int := -((-a) / b)

/-- The `a < b` of JavaScript on two `Date` objects: false when one of them is
the Invalid Date. -/
def dateLt : JSDate → JSDate → Bool
  | some a, some b => decide (a < b)
  | _, _ => false

/-! ## Week segments -/

/-- The `weekNum` of `buildWEEKS`: the week number of the local date of `date`
(`none` is `NaN`). The local date is taken to midnight UTC, moved to the
Thursday of its week, and the days from 1 January of the year of that Thursday
are counted: `Math.ceil((((d - yearStart) / 86400000) + 1) / 7)`. -/
def weekNum (rt : Runtime) (date : JSDate) : Option Int :=
  let d := dateUTC (getFullYear rt date) (getMonth rt date) (getDate rt date)
  let dayNum : Int :=
    match getUTCDay d with
    | none => 7
    | some k => if k = 0 then 7 else k
  let d1 := setUTCDate d ((getUTCDate d).map (fun x => x + 4 - dayNum))
  let yearStart := dateUTC (getUTCFullYear d1) (some 0) (some 1)
  match d1, yearStart with
  | some a, some b => some (ceilDiv (a - b + msPerDay) (7 * msPerDay))
  | _, _ => none

/-- A week segment `{week, start, end}`; `week` is `none` for `NaN`. -/
structure WeekSeg where
  week : Option Int
  start : Nat
  end_ : Nat
  deriving DecidableEq, Repr

/-- The variables of the loop of `buildWEEKS`. -/
structure WeekScan where
  segs : List WeekSeg
  segStart : Nat
  curWeek : Option Int
  deriving DecidableEq, Repr

/-- One turn of the `for` loop of `buildWEEKS`, at index `i` with `DATES[i]`. -/
def weekStep (rt : Runtime) (st : WeekScan) (i : Nat) (date : Str) : WeekScan :=
  let dt := parseISODate rt date
  let w := weekNum rt dt
  let isMonday := getDay rt dt == some 1
  if i = 0 then { st with curWeek := w, segStart := 0 }
  else if isMonday then
    { segs := st.segs ++ [⟨st.curWeek, st.segStart, i⟩], segStart := i, curWeek := w }
  else st

/-- The `for` loop of `buildWEEKS` over the rest of `DATES`, from index `i`. -/
def buildWEEKSLoop (rt : Runtime) : List Str → Nat → WeekScan → WeekScan
  | [], _, st => st
  | date :: rest, i, st => buildWEEKSLoop rt rest (i + 1) (weekStep rt st i date)

/-- The `buildWEEKS` of `app.js`, on the list `DATES`. -/
def buildWEEKS (rt : Runtime) (DATES : List Str) : List WeekSeg :=
  if DATES.length = 0 then []
  else
    let st := buildWEEKSLoop rt DATES 0 ⟨[], 0, none⟩
    st.segs ++ [⟨st.curWeek, st.segStart, DATES.length⟩]

/-! ## Pixel coordinates -/

/-- The `leftPx` of `app.js`, with the day width `pxDay`. -/
def leftPx (pxDay : Int) (dayIdx : Int) : Int := dayIdx * pxDay

/-- The `totalW` of `app.js`. -/
def totalW (DATES : List Str) (pxDay : Int) : Int := leftPx pxDay (daysCount DATES)

/-- The `cellLeft` of `app.js`: the axis runs from right to left. -/
def cellLeft (DATES : List Str) (pxDay : Int) (i : Int) : Int :=
  totalW DATES pxDay - (i + 1) * pxDay

/-! ## Loading and editing a project -/

/-- A field of a stored document, as `normalizeProject` sees it: absent
(`undefined` or `null`), a string, or any other value, of which only its truth
value and its `String(...)` matter. -/
inductive Stored where
  | missing
  | str (s : Str)
  | other (truthy : Bool) (text : Str)
  deriving DecidableEq, Repr

/-- Whether a stored value is truthy. -/
def Stored.truthy : Stored → Bool
  | Stored.missing => false
  | Stored.str s => !s.isEmpty
  | Stored.other truthy _ => truthy

/-- The `String(v || fallback)`. -/
def Stored.orString (v : Stored) (fallback : Str) : Str :=
  match v with
  | Stored.missing => fallback
  | Stored.str s => strOr s fallback
  | Stored.other truthy text => if truthy then text else fallback

/-- An element of the stored `topics` array. -/
structure StoredTopic where
  id : Stored
  name : Stored
  color : Stored
  deriving DecidableEq, Repr

/-- An element of the stored `tasks` array. -/
structure StoredTask where
  id : Stored
  topicId : Stored
  title : Stored
  desc : Stored
  start : Stored
  end_ : Stored
  deriving DecidableEq, Repr

/-- A stored project document; `topics` and `tasks` are `none` when the field
is not an array. -/
structure StoredProject where
  name : Stored
  topics : Option (List StoredTopic)
  tasks : Option (List StoredTask)
  deriving DecidableEq, Repr

/-- The sentinel topic as an element of a stored array. -/
def storedDefaultTopic : StoredTopic :=
  ⟨Stored.str DEFAULT_TOPIC.id, Stored.str DEFAULT_TOPIC.name, Stored.str DEFAULT_TOPIC.color⟩

/-- The `tasks.map(...)` of `normalizeProject`; a task without an id takes the next
`randomUUID`. -/
def normalizeTasks (rt : Runtime) : List StoredTask → Nat → List Task × Nat
  | [], uuids => ([], uuids)
  | t :: ts, uuids =>
    let id := if t.id.truthy then t.id.orString [] else rt.randomUUID uuids
    let rest := normalizeTasks rt ts (if t.id.truthy then uuids else uuids + 1)
    (⟨id, t.topicId.orString DEFAULT_TOPIC.id, t.title.orString [], t.desc.orString [],
      t.start.orString [], t.end_.orString []⟩ :: rest.1, rest.2)

/-- The `normalizeProject` of `app.js` (the name as text), with the number of
`randomUUID` calls made so far. -/
def normalizeProject (rt : Runtime) (p : StoredProject) (uuids : Nat) : Project × Nat :=
  let topics := p.topics.getD []
  let tasks := p.tasks.getD []
  let hasUn := topics.any (fun t => t.id == Stored.str DEFAULT_TOPIC.id)
  let t2 := if hasUn then topics else storedDefaultTopic :: topics
  let tasks2 := normalizeTasks rt tasks uuids
  ({ name := p.name.orString "פרויקט".toList
     topics := t2.map (fun t =>
       (⟨t.id.orString [], t.name.orString [], t.color.orString "#9aa4b2".toList⟩ : Topic))
     tasks := tasks2.1 }, tasks2.2)

/-- The `topicById` of `app.js` on an open project; `none` is `null`. -/
def topicById (project : Project) (id : Str) : Option Topic :=
  project.topics.find? (fun t => t.id == id)

/-- The first element that satisfies `p` is replaced by `f` of it: an assignment
to the fields of the object that `find` returned. -/
def updateFirst {α : Type} (p : α → Bool) (f : α → α) : List α → List α
  | [] => []
  | x :: xs => if p x then f x :: xs else x :: updateFirst p f xs

/-- The click handler of `btnAddTopic` on an open project: `nameInput` and
`colorInput` are the values of the two form fields. -/
def addTopic (rt : Runtime) (project : Project) (uuids : Nat) (nameInput colorInput : Str) :
    Project × Nat :=
  let name := trim nameInput
  let color := strOr colorInput "#1f77b4".toList
  if name.isEmpty then (project, uuids)
  else
    let slug := slugId rt name uuids
    if project.topics.any (fun t => t.id == slug.1) then (project, slug.2)
    else ({ project with topics := project.topics ++ [⟨slug.1, name, color⟩] }, slug.2)

/-- The click handler of `btnUpdateTopic` on an open project: `id` is the value
of `topicSelect`. -/
def updateTopic (project : Project) (id nameInput colorInput : Str) : Project :=
  match topicById project id with
  | none => project
  | some t =>
    if id = DEFAULT_TOPIC.id then project
    else
      let name := trim nameInput
      let color := strOr colorInput t.color
      if name.isEmpty then project
      else
        { project with
          topics := updateFirst (fun x => x.id == id)
            (fun x => { x with name := name, color := color }) project.topics }

/-- The click handler of `btnDeleteTopic` on an open project: `id` is the value
of `topicSelect`, `confirmed` the answer to `confirm(...)`. -/
def deleteTopic (project : Project) (id : Str) (confirmed : Bool) : Project :=
  if id = DEFAULT_TOPIC.id then project
  else
    match topicById project id with
    | none => project
    | some _ =>
      if !confirmed then project
      else
        { project with
          tasks := project.tasks.map
            (fun tsk => if tsk.topicId = id then { tsk with topicId := DEFAULT_TOPIC.id } else tsk)
          topics := project.topics.filter (fun x => x.id != id) }

/-- The values of the fields of the task form. -/
structure TaskForm where
  taskTopic : Str
  taskTitle : Str
  taskDesc : Str
  taskStart : Str
  taskEnd : Str
  taskDuration : Str
  deriving DecidableEq, Repr

/-- The `end` of the click handler of `btnAddTask` after the lines "If end
missing but duration exists => compute"; the outer `none` is a thrown
RangeError. -/
def formEnd (rt : Runtime) (f : TaskForm) : Option Str :=
  let dur := parseIntValue f.taskDuration
  if f.taskEnd.isEmpty && numberIsFinite dur && decide (0 < dur.getD 0) then
    addDays rt f.taskStart (dur.getD 0 - 1)
  else some f.taskEnd

/-- The click handler of `btnAddTask` on an open project. -/
def addTask (rt : Runtime) (project : Project) (uuids : Nat) (f : TaskForm) : Project × Nat :=
  let topicId := strOr f.taskTopic DEFAULT_TOPIC.id
  let title := trim f.taskTitle
  let desc := trim f.taskDesc
  let start := f.taskStart
  if title.isEmpty then (project, uuids)
  else if start.isEmpty then (project, uuids)
  else
    match formEnd rt f with
    | none => (project, uuids)
    | some end1 =>
      if end1.isEmpty then (project, uuids)
      else if dateLt (parseISODate rt end1) (parseISODate rt start) then (project, uuids)
      else
        ({ project with
           tasks := project.tasks ++ [⟨rt.randomUUID uuids, topicId, title, desc, start, end1⟩] },
         uuids + 1)

/-- The click handler of `btnUpdateTask` on an open project: `editingTaskId` is
the global of that name (`none` is `null`). -/
def updateTask (rt : Runtime) (project : Project) (editingTaskId : Option Str) (f : TaskForm) :
    Project :=
  match editingTaskId with
  | none => project
  | some tid =>
    if tid.isEmpty then project
    else
      match project.tasks.find? (fun x => x.id == tid) with
      | none => project
      | some _ =>
        let topicId := strOr f.taskTopic DEFAULT_TOPIC.id
        let title := trim f.taskTitle
        let desc := trim f.taskDesc
        let start := f.taskStart
        let end1 := f.taskEnd
        if title.isEmpty || start.isEmpty || end1.isEmpty then project
        else if dateLt (parseISODate rt end1) (parseISODate rt start) then project
        else
          { project with
            tasks := updateFirst (fun x => x.id == tid)
              (fun x => { x with topicId := topicId, title := title, desc := desc,
                                 start := start, end_ := end1 }) project.tasks }

/-- The `deleteTask` of `app.js` on an open project; `confirmed` is the answer
to `confirm(...)`. -/
def deleteTask (project : Project) (taskId : Str) (confirmed : Bool) : Project :=
  match project.tasks.find? (fun x => x.id == taskId) with
  | none => project
  | some _ =>
    if !confirmed then project
    else { project with tasks := project.tasks.filter (fun x => x.id != taskId) }

/-! ## Vocabulary of the statements, continued -/

/-- An example host five hours west of UTC (America/New_York in winter). -/
def utcMinus5Host : Runtime := { utcHost with localTZA := -18000000 }

/-- Monday of the week, Monday to Sunday, of a day number. -/
def isoWeekMonday (z : Int) : Int := z - (z + 3) % 7

/-- The ISO 8601 week-numbering year of a day: the calendar year of the Thursday
of its week. -/
def isoWeekYear (z : Int) : Int := (civilFromDays (isoWeekMonday z + 3)).1

/-- Monday of week 1 of a week-numbering year: the week of 4 January. -/
def isoWeek1Monday (y : Int) : Int := isoWeekMonday (daysFromCivil y 1 4)

/-- The ISO 8601 week number of a day: its week counted from week 1 of its
week-numbering year. -/
def isoWeekNumber (z : Int) : Int := (isoWeekMonday z - isoWeek1Monday (isoWeekYear z)) / 7 + 1

/-- The list of the `n` consecutive calendar days from day number `z` on. -/
def consecutiveDays (z : Int) (n : Nat) : List Str :=
  (List.range n).map (fun i : Nat => isoOfDay (z + (i : Int)))

/-- The Hebrew names that `parseCSV` accepts for the six columns, in the order
of `CSV_COLUMNS`. -/
def HEBREW_COLUMNS : List Str :=
  ["נושא".toList, "כותרת".toList, "תאריך התחלה".toList, "תאריך סיום".toList,
   "משך (ימים)".toList, "תיאור".toList]

/-- A column of a header row: which of the six columns it is (0 to 5), whether
it is named in Hebrew, and the white space around the name. -/
structure HeaderColumn where
  column : Nat
  hebrew : Bool
  padLeft : Str
  padRight : Str
  deriving DecidableEq, Repr

/-- The name of a header column. -/
def HeaderColumn.name (c : HeaderColumn) : Str :=
  if c.hebrew then HEBREW_COLUMNS.getD c.column [] else CSV_COLUMNS.getD c.column []

/-- The header cell of a column: its name with the white space around it. -/
def HeaderColumn.cell (c : HeaderColumn) : Str := c.padLeft ++ c.name ++ c.padRight

/-- The cells of a data row, given in the canonical order, in the order of the
columns `cols`. -/
def permuteRow (cols : List HeaderColumn) (r : List Str) : List Str :=
  cols.map (fun c => r.getD c.column [])

/-- The project holds a topic whose id is that of the sentinel. -/
def hasSentinel (project : Project) : Prop := ∃ t ∈ project.topics, t.id = DEFAULT_TOPIC.id

instance (project : Project) : Decidable (hasSentinel project) :=
  inferInstanceAs (Decidable (∃ t ∈ project.topics, t.id = DEFAULT_TOPIC.id))

/-- The end of a task is not before its start, both canonical dates. -/
def taskOrdered (t : Task) : Prop :=
  isCanonicalDate t.start = true ∧ isCanonicalDate t.end_ = true ∧ dayOf t.start ≤ dayOf t.end_

instance (t : Task) : Decidable (taskOrdered t) :=
  inferInstanceAs (Decidable (isCanonicalDate t.start = true ∧ isCanonicalDate t.end_ = true ∧
    dayOf t.start ≤ dayOf t.end_))

/-- Days by which the UTC date of a local midnight is behind its local date: one
day east of UTC, none at UTC and west of it. -/
def eastLag (rt : Runtime) : Int := if 0 < rt.localTZA then 1 else 0

/-- Days by which the local date of a midnight UTC is behind its UTC date: one
day west of UTC, none at UTC and east of it. -/
def westLag (rt : Runtime) : Int := if rt.localTZA < 0 then 1 else 0

/-- An operation that changes the open project, with what the user entered. -/
inductive EditOp where
  | addTopic (nameInput colorInput : Str)
  | updateTopic (id nameInput colorInput : Str)
  | deleteTopic (id : Str) (confirmed : Bool)
  | addTask (form : TaskForm)
  | updateTask (editingTaskId : Option Str) (form : TaskForm)
  | deleteTask (taskId : Str) (confirmed : Bool)
  | importCSV (text : Str)

/-- The project and the count of `randomUUID` calls after an operation. -/
def applyOp (rt : Runtime) (project : Project) (uuids : Nat) : EditOp → Project × Nat
  | EditOp.addTopic nameInput colorInput => addTopic rt project uuids nameInput colorInput
  | EditOp.updateTopic id nameInput colorInput => (updateTopic project id nameInput colorInput, uuids)
  | EditOp.deleteTopic id confirmed => (deleteTopic project id confirmed, uuids)
  | EditOp.addTask form => addTask rt project uuids form
  | EditOp.updateTask editingTaskId form => (updateTask rt project editingTaskId form, uuids)
  | EditOp.deleteTask taskId confirmed => (deleteTask project taskId confirmed, uuids)
  | EditOp.importCSV text =>
    ((importCSV rt project uuids text).project, (importCSV rt project uuids text).uuids)

/-- The project and the count of `randomUUID` calls after a sequence of
operations. -/
def applyOps (rt : Runtime) : Project × Nat → List EditOp → Project × Nat
  | st, [] => st
  | st, op :: ops => applyOps rt (applyOp rt st.1 st.2 op) ops

/-! ## Vocabulary for week segments -/

/-- Segments that follow one another from index `a` to index `b`: the first
starts at `a`, each ends where the next starts, the last ends at `b`. -/
def segChain : List WeekSeg → Nat → Nat → Prop
  | [], a, b => a = b
  | s :: rest, a, b => s.start = a ∧ segChain rest s.end_ b

/-- A segment of a window whose day at index `i` has the day number `z + i`: it
is not empty, it starts on a Monday unless it starts at index 0, no Monday lies
strictly inside it, its week is the ISO week number of its first day, and all
its days are of the ISO week of its first day. -/
def weekSegOk (z : Int) (s : WeekSeg) : Prop :=
  s.start < s.end_ ∧
  (s.start ≠ 0 → weekDay (z + (s.start : Int)) = 1) ∧
  (∀ i : Nat, s.start < i → i < s.end_ → weekDay (z + (i : Int)) ≠ 1) ∧
  s.week = some (isoWeekNumber (z + (s.start : Int))) ∧
  (∀ i : Nat, s.start ≤ i → i < s.end_ →
    isoWeekMonday (z + (i : Int)) = isoWeekMonday (z + (s.start : Int)))

/-- The dates of a row lie in the range of canonical dates: its start is a
canonical `YYYY-MM-DD` date of the years 0001 to 9999; its end, when it has one,
is such a date too; when it has none, the date `duration_days - 1` days after
its start is not after 9999-12-31. -/
def rowDatesInRange (row : Row) : Bool :=
  isCanonicalDate row.start && decide (daysFromCivil 1 1 1 ≤ dayOf row.start) &&
    (if row.end_.isEmpty then
      decide (dayOf row.start + (parseIntValue row.duration_days).getD 0 - 1 ≤ maxCanonicalDay)
    else isCanonicalDate row.end_ && decide (daysFromCivil 1 1 1 ≤ dayOf row.end_))

/-! ## Calendar arithmetic -/

/-- Known days: the epoch, the day before it, two leap days and 10 January 2024
(time value 1704844800000). -/
theorem calendar_anchors :
    daysFromCivil 1970 1 1 = 0 ∧ daysFromCivil 2000 2 29 = 11016 ∧
    daysFromCivil 2024 1 10 = 19732 ∧ 19732 * msPerDay = 1704844800000 ∧
    civilFromDays 0 = (1970, 1, 1) ∧ civilFromDays (-1) = (1969, 12, 31) ∧
    civilFromDays 19782 = (2024, 2, 29) ∧ civilFromDays 11017 = (2000, 3, 1) := by
  decide

theorem yearDayOfEra_spec (doe : Int) (h0 : 0 ≤ doe) (h1 : doe < 146097) :
    0 ≤ (yearDayOfEra doe).1 ∧ (yearDayOfEra doe).1 ≤ 399 ∧
    0 ≤ (yearDayOfEra doe).2 ∧ (yearDayOfEra doe).2 ≤ 365 ∧
    (yearDayOfEra doe).1 * 365 + (yearDayOfEra doe).1 / 4 - (yearDayOfEra doe).1 / 100
      + (yearDayOfEra doe).2 = doe ∧
    ((yearDayOfEra doe).2 = 365 →
      ((yearDayOfEra doe).1 % 4 = 3 ∧
        ((yearDayOfEra doe).1 % 100 ≠ 99 ∨ (yearDayOfEra doe).1 = 399))) := by
  simp only [yearDayOfEra]
  have hc : 0 ≤ min (doe / 36524) 3 ∧ min (doe / 36524) 3 ≤ 3 := by omega
  generalize hcd : min (doe / 36524) 3 = c at *
  have hdoc : 0 ≤ doe - c * 36524 ∧ doe - c * 36524 ≤ 36524 ∧
      (doe - c * 36524 = 36524 → c = 3) := by omega
  generalize hdd : doe - c * 36524 = doc at *
  have hq : 0 ≤ doc / 1461 ∧ doc / 1461 ≤ 24 ∧ 0 ≤ doc % 1461 ∧ doc % 1461 ≤ 1460 ∧
      doc = 1461 * (doc / 1461) + doc % 1461 := by omega
  generalize doc / 1461 = q at *
  generalize doc % 1461 = doq at *
  have hy : 0 ≤ min (doq / 365) 3 ∧ min (doq / 365) 3 ≤ 3 ∧
      0 ≤ doq - min (doq / 365) 3 * 365 ∧ doq - min (doq / 365) 3 * 365 ≤ 365 ∧
      (doq - min (doq / 365) 3 * 365 = 365 → min (doq / 365) 3 = 3) := by omega
  generalize min (doq / 365) 3 = yy at *
  have e4 : (c * 100 + q * 4 + yy) / 4 = 25 * c + q := by omega
  have e100 : (c * 100 + q * 4 + yy) / 100 = c := by omega
  refine ⟨by omega, by omega, by omega, by omega, by omega, ?_⟩
  intro h
  omega

theorem monthDayOfYearDay_spec (doy : Int) (h0 : 0 ≤ doy) (h1 : doy ≤ 365) :
    1 ≤ (monthDayOfYearDay doy).1 ∧ (monthDayOfYearDay doy).1 ≤ 12 ∧
    1 ≤ (monthDayOfYearDay doy).2 ∧ (monthDayOfYearDay doy).2 ≤ 31 ∧
    ((monthDayOfYearDay doy).1 = 2 → (monthDayOfYearDay doy).2 ≤ 29) ∧
    ((monthDayOfYearDay doy).1 = 2 → (monthDayOfYearDay doy).2 = 29 → doy = 365) ∧
    ((monthDayOfYearDay doy).1 = 4 ∨ (monthDayOfYearDay doy).1 = 6 ∨
      (monthDayOfYearDay doy).1 = 9 ∨ (monthDayOfYearDay doy).1 = 11 →
      (monthDayOfYearDay doy).2 ≤ 30) ∧
    (153 * (if (monthDayOfYearDay doy).1 > 2 then (monthDayOfYearDay doy).1 - 3
        else (monthDayOfYearDay doy).1 + 9) + 2) / 5 + (monthDayOfYearDay doy).2 - 1 = doy := by
  simp only [monthDayOfYearDay]
  have hmp : 0 ≤ (5 * doy + 2) / 153 ∧ (5 * doy + 2) / 153 ≤ 11 := by omega
  generalize hm : (5 * doy + 2) / 153 = mp at *
  have : mp = 0 ∨ mp = 1 ∨ mp = 2 ∨ mp = 3 ∨ mp = 4 ∨ mp = 5 ∨ mp = 6 ∨ mp = 7 ∨ mp = 8 ∨
      mp = 9 ∨ mp = 10 ∨ mp = 11 := by omega
  rcases this with h | h | h | h | h | h | h | h | h | h | h | h <;> subst h <;> simp <;> omega

/-- The day number of the calendar date of a day number is that day number. -/
theorem daysFromCivil_civilFromDays (z : Int) :
    daysFromCivil (civilFromDays z).1 (civilFromDays z).2.1 (civilFromDays z).2.2 = z := by
  have hdoe : 0 ≤ (z + 719468) % 146097 ∧ (z + 719468) % 146097 < 146097 := by omega
  have hz : z + 719468 = 146097 * ((z + 719468) / 146097) + (z + 719468) % 146097 := by omega
  obtain ⟨a1, a2, a3, a4, a5, -⟩ := yearDayOfEra_spec _ hdoe.1 hdoe.2
  obtain ⟨b1, b2, b3, b4, -, -, -, b5⟩ := monthDayOfYearDay_spec _ a3 a4
  simp only [civilFromDays, daysFromCivil] at *
  generalize (z + 719468) / 146097 = era at *
  generalize yearDayOfEra ((z + 719468) % 146097) = yd at *
  generalize monthDayOfYearDay yd.2 = md at *
  obtain ⟨y, doy⟩ := yd
  obtain ⟨m, d⟩ := md
  simp only at *
  have e1 : (if m ≤ 2 then (if m ≤ 2 then era * 400 + y + 1 else era * 400 + y) - 1
      else if m ≤ 2 then era * 400 + y + 1 else era * 400 + y) = era * 400 + y := by
    split_ifs <;> omega
  rw [e1]
  have e2 : (era * 400 + y) / 400 = era := by omega
  have e3 : (era * 400 + y) % 400 = y := by omega
  rw [e2, e3]
  omega

/-- The calendar date of a day number is a day of the calendar. -/
theorem civilFromDays_valid (z : Int) :
    1 ≤ (civilFromDays z).2.1 ∧ (civilFromDays z).2.1 ≤ 12 ∧ 1 ≤ (civilFromDays z).2.2 ∧
    (civilFromDays z).2.2 ≤ daysInMonth (civilFromDays z).1 (civilFromDays z).2.1 := by
  have hdoe : 0 ≤ (z + 719468) % 146097 ∧ (z + 719468) % 146097 < 146097 := by omega
  obtain ⟨a1, a2, a3, a4, a5, a6⟩ := yearDayOfEra_spec _ hdoe.1 hdoe.2
  obtain ⟨b1, b2, b3, b4, b5, b6, b7, b8⟩ := monthDayOfYearDay_spec _ a3 a4
  simp only [civilFromDays] at *
  generalize (z + 719468) / 146097 = era at *
  generalize yearDayOfEra ((z + 719468) % 146097) = yd at *
  generalize monthDayOfYearDay yd.2 = md at *
  obtain ⟨y, doy⟩ := yd
  obtain ⟨m, d⟩ := md
  simp only at *
  refine ⟨b1, b2, b3, ?_⟩
  by_cases hm : m = 2
  · subst hm
    have h29 := b5 rfl
    simp only [daysInMonth, if_true, (by decide : (2 : Int) ≤ 2)]
    split_ifs with hl
    · exact h29
    · by_contra hc
      have hd : d = 29 := by omega
      have := a6 (b6 rfl hd)
      apply hl
      simp only [isLeapYear, Bool.and_eq_true, beq_iff_eq, Bool.or_eq_true, bne_iff_ne, ne_eq]
      omega
  · simp only [daysInMonth, hm, if_false]
    split_ifs with h3
    · exact b7 h3
    · exact b4

theorem yearDayOfEra_inv (yoe doy : Int) (h0 : 0 ≤ yoe) (h1 : yoe ≤ 399) (h2 : 0 ≤ doy)
    (h3 : doy ≤ 365) (h4 : doy = 365 → (yoe % 4 = 3 ∧ (yoe % 100 ≠ 99 ∨ yoe = 399))) :
    yearDayOfEra (yoe * 365 + yoe / 4 - yoe / 100 + doy) = (yoe, doy) := by
  obtain ⟨c, q, yy, rfl, hc0, hc3, hq0, hq, hy0, hy3⟩ : ∃ c q yy : Int,
      yoe = c * 100 + q * 4 + yy ∧ 0 ≤ c ∧ c ≤ 3 ∧ 0 ≤ q ∧ q ≤ 24 ∧ 0 ≤ yy ∧ yy ≤ 3 :=
    ⟨yoe / 100, yoe % 100 / 4, yoe % 4, by omega, by omega, by omega, by omega, by omega,
      by omega, by omega⟩
  have e4 : (c * 100 + q * 4 + yy) / 4 = 25 * c + q := by omega
  have e100 : (c * 100 + q * 4 + yy) / 100 = c := by omega
  rw [e4, e100]
  have hdoe : (c * 100 + q * 4 + yy) * 365 + (25 * c + q) - c + doy
      = 36524 * c + 1461 * q + 365 * yy + doy := by ring
  rw [hdoe]
  simp only [yearDayOfEra]
  have k1 : min ((36524 * c + 1461 * q + 365 * yy + doy) / 36524) 3 = c := by omega
  rw [k1]
  have k2 : 36524 * c + 1461 * q + 365 * yy + doy - c * 36524
      = 1461 * q + (365 * yy + doy) := by ring
  rw [k2]
  have k3 : (1461 * q + (365 * yy + doy)) / 1461 = q := by omega
  have k4 : (1461 * q + (365 * yy + doy)) % 1461 = 365 * yy + doy := by omega
  rw [k3, k4]
  have k5 : min ((365 * yy + doy) / 365) 3 = yy := by omega
  rw [k5]
  congr 1
  omega

theorem daysInMonth_le (y m : Int) : daysInMonth y m ≤ 31 := by
  unfold daysInMonth; split_ifs <;> omega

theorem monthDayOfYearDay_inv (y m d : Int) (hm1 : 1 ≤ m) (hm2 : m ≤ 12) (hd1 : 1 ≤ d)
    (hd2 : d ≤ daysInMonth y m) :
    monthDayOfYearDay ((153 * (if m > 2 then m - 3 else m + 9) + 2) / 5 + d - 1) = (m, d) := by
  have : m = 1 ∨ m = 2 ∨ m = 3 ∨ m = 4 ∨ m = 5 ∨ m = 6 ∨ m = 7 ∨ m = 8 ∨ m = 9 ∨ m = 10 ∨
      m = 11 ∨ m = 12 := by omega
  have hd3 : d ≤ 31 := le_trans hd2 (daysInMonth_le y m)
  rcases this with h | h | h | h | h | h | h | h | h | h | h | h <;> subst h <;>
    simp [daysInMonth] at hd2 <;> simp [monthDayOfYearDay] <;> (try split_ifs at hd2) <;>
    (constructor <;> omega)

/-- Day of the March-based year of a valid date: at most 365, and 365 only on
29 February. -/
theorem dayOfYear_bounds (y m d : Int) (hm1 : 1 ≤ m) (hm2 : m ≤ 12) (hd1 : 1 ≤ d)
    (hd2 : d ≤ daysInMonth y m) :
    0 ≤ (153 * (if m > 2 then m - 3 else m + 9) + 2) / 5 + d - 1 ∧
    (153 * (if m > 2 then m - 3 else m + 9) + 2) / 5 + d - 1 ≤ 365 ∧
    ((153 * (if m > 2 then m - 3 else m + 9) + 2) / 5 + d - 1 = 365 → m = 2 ∧ d = 29) := by
  have hd3 : d ≤ 31 := le_trans hd2 (daysInMonth_le y m)
  have : m = 1 ∨ m = 2 ∨ m = 3 ∨ m = 4 ∨ m = 5 ∨ m = 6 ∨ m = 7 ∨ m = 8 ∨ m = 9 ∨ m = 10 ∨
      m = 11 ∨ m = 12 := by omega
  rcases this with h | h | h | h | h | h | h | h | h | h | h | h <;> subst h <;>
    simp [daysInMonth] at hd2 <;> simp <;> (try split_ifs at hd2) <;> omega

/-- The calendar date of the day number of a day of the calendar is that day. -/
theorem civilFromDays_daysFromCivil (y m d : Int) (hm1 : 1 ≤ m) (hm2 : m ≤ 12) (hd1 : 1 ≤ d)
    (hd2 : d ≤ daysInMonth y m) : civilFromDays (daysFromCivil y m d) = (y, m, d) := by
  have hmd := monthDayOfYearDay_inv y m d hm1 hm2 hd1 hd2
  have hdoy0 := dayOfYear_bounds y m d hm1 hm2 hd1 hd2
  simp only [civilFromDays, daysFromCivil]
  generalize hy1 : (if m ≤ 2 then y - 1 else y) = y1
  generalize hdoy : (153 * (if m > 2 then m - 3 else m + 9) + 2) / 5 + d - 1 = doy at *
  have hleap : doy = 365 →
      ((y1 % 400) % 4 = 3 ∧ ((y1 % 400) % 100 ≠ 99 ∨ y1 % 400 = 399)) := by
    intro h
    obtain ⟨hm, hd⟩ := hdoy0.2.2 h
    subst hm hd
    simp [daysInMonth, isLeapYear] at hd2
    split_ifs at hd2 with hl
    · simp at hy1
      omega
    · omega
  have hyd := yearDayOfEra_inv (y1 % 400) doy (by omega) (by omega) hdoy0.1 hdoy0.2.1 hleap
  generalize hdoe : y1 % 400 * 365 + y1 % 400 / 4 - y1 % 400 / 100 + doy = doe at *
  have hb : 0 ≤ doe ∧ doe < 146097 := by omega
  have q1 : (y1 / 400 * 146097 + doe - 719468 + 719468) / 146097 = y1 / 400 := by omega
  have q2 : (y1 / 400 * 146097 + doe - 719468 + 719468) % 146097 = doe := by omega
  rw [q1, q2, hyd]
  simp only [hmd]
  have : (if m ≤ 2 then y1 / 400 * 400 + y1 % 400 + 1 else y1 / 400 * 400 + y1 % 400) = y := by
    split_ifs at hy1 ⊢ <;> omega
  rw [this]

/-- A day number is the day number of 1 March of its March-based year plus the
day within that year. -/
theorem daysFromCivil_eq_march (y m d : Int) :
    daysFromCivil y m d = daysFromCivil (if m ≤ 2 then y - 1 else y) 3 1
      + ((153 * (if m > 2 then m - 3 else m + 9) + 2) / 5 + d - 1) := by
  simp only [daysFromCivil]
  split_ifs <;> omega

theorem daysFromCivil_march_succ (y : Int) :
    daysFromCivil (y + 1) 3 1 = daysFromCivil y 3 1 + 365 + (if isLeapYear (y + 1) then 1 else 0) := by
  simp only [daysFromCivil, isLeapYear, Bool.and_eq_true, beq_iff_eq, Bool.or_eq_true,
    bne_iff_ne, ne_eq]
  split_ifs <;> omega

theorem daysFromCivil_march_strictMono : StrictMono (fun y : Int => daysFromCivil y 3 1) := by
  apply strictMono_int_of_lt_succ
  intro y
  have := daysFromCivil_march_succ y
  show daysFromCivil y 3 1 < daysFromCivil (y + 1) 3 1
  split_ifs at this <;> omega

/-- Within a month of a valid date, the day of the March-based year stays
below the start of the next month. -/
theorem dayOfYear_lt_next (y m d : Int) (hm1 : 1 ≤ m) (hm2 : m ≤ 12) (hd1 : 1 ≤ d)
    (hd2 : d ≤ daysInMonth y m) :
    (153 * (if m > 2 then m - 3 else m + 9) + 2) / 5 + d - 1
      < (153 * ((if m > 2 then m - 3 else m + 9) + 1) + 2) / 5 := by
  have hd3 : d ≤ 31 := le_trans hd2 (daysInMonth_le y m)
  have : m = 1 ∨ m = 2 ∨ m = 3 ∨ m = 4 ∨ m = 5 ∨ m = 6 ∨ m = 7 ∨ m = 8 ∨ m = 9 ∨ m = 10 ∨
      m = 11 ∨ m = 12 := by omega
  rcases this with h | h | h | h | h | h | h | h | h | h | h | h <;> subst h <;>
    simp [daysInMonth] at hd2 <;> simp <;> (try split_ifs at hd2) <;> omega

/-- Decimal key of a date: the order of `YYYY-MM-DD` strings. -/
theorem daysFromCivil_lt_of_key_lt (y m d y' m' d' : Int)
    (hm1 : 1 ≤ m) (hm2 : m ≤ 12) (hd1 : 1 ≤ d) (hd2 : d ≤ daysInMonth y m)
    (hm1' : 1 ≤ m') (hm2' : m' ≤ 12) (hd1' : 1 ≤ d') (hd2' : d' ≤ daysInMonth y' m')
    (hk : y * 10000 + m * 100 + d < y' * 10000 + m' * 100 + d') :
    daysFromCivil y m d < daysFromCivil y' m' d' := by
  have hd3 : d ≤ 31 := le_trans hd2 (daysInMonth_le y m)
  have hd3' : d' ≤ 31 := le_trans hd2' (daysInMonth_le y' m')
  rw [daysFromCivil_eq_march y m d, daysFromCivil_eq_march y' m' d']
  have bA := dayOfYear_bounds y m d hm1 hm2 hd1 hd2
  have bB := dayOfYear_bounds y' m' d' hm1' hm2' hd1' hd2'
  have nA := dayOfYear_lt_next y m d hm1 hm2 hd1 hd2
  generalize hy1 : (if m ≤ 2 then y - 1 else y) = y1 at *
  generalize hy1' : (if m' ≤ 2 then y' - 1 else y') = y1' at *
  generalize hmp : (if m > 2 then m - 3 else m + 9) = mp at *
  generalize hmp' : (if m' > 2 then m' - 3 else m' + 9) = mp' at *
  have hK : 12 * y + m - 3 = 12 * y1 + mp := by split_ifs at hy1 hmp <;> omega
  have hK' : 12 * y' + m' - 3 = 12 * y1' + mp' := by split_ifs at hy1' hmp' <;> omega
  have hmpb : 0 ≤ mp ∧ mp ≤ 11 := by split_ifs at hmp <;> omega
  have hmpb' : 0 ≤ mp' ∧ mp' ≤ 11 := by split_ifs at hmp' <;> omega
  rcases lt_trichotomy y1 y1' with hlt | heq | hgt
  · -- an earlier March-based year
    have hmono : daysFromCivil (y1 + 1) 3 1 ≤ daysFromCivil y1' 3 1 :=
      daysFromCivil_march_strictMono.monotone (by omega : y1 + 1 ≤ y1')
    have hsucc := daysFromCivil_march_succ y1
    have hleap : (153 * mp + 2) / 5 + d - 1 = 365 → isLeapYear (y1 + 1) = true := by
      intro h
      obtain ⟨hm, hd⟩ := bA.2.2 h
      subst hm hd
      simp only [daysInMonth, if_true] at hd2
      have hy : y1 + 1 = y := by simp at hy1; omega
      rw [hy]
      by_contra hc
      simp only [hc, if_false] at hd2
      omega
    split_ifs at hsucc with hl
    · omega
    · have := mt hleap hl
      omega
  · subst heq
    have hlex : mp < mp' ∨ (mp = mp' ∧ d < d') := by omega
    rcases hlex with h | ⟨h1, h2⟩
    · have : (153 * (mp + 1) + 2) / 5 ≤ (153 * mp' + 2) / 5 := by omega
      omega
    · subst h1
      omega
  · omega

theorem daysFromCivil_lt_iff (y m d y' m' d' : Int)
    (hm1 : 1 ≤ m) (hm2 : m ≤ 12) (hd1 : 1 ≤ d) (hd2 : d ≤ daysInMonth y m)
    (hm1' : 1 ≤ m') (hm2' : m' ≤ 12) (hd1' : 1 ≤ d') (hd2' : d' ≤ daysInMonth y' m') :
    daysFromCivil y m d < daysFromCivil y' m' d' ↔
      y * 10000 + m * 100 + d < y' * 10000 + m' * 100 + d' := by
  have hd3 : d ≤ 31 := le_trans hd2 (daysInMonth_le y m)
  have hd3' : d' ≤ 31 := le_trans hd2' (daysInMonth_le y' m')
  constructor
  · intro h
    by_contra hc
    rcases lt_or_eq_of_le (not_lt.mp hc) with h1 | h1
    · have := daysFromCivil_lt_of_key_lt y' m' d' y m d hm1' hm2' hd1' hd2' hm1 hm2 hd1 hd2 h1
      omega
    · have hy : y = y' := by omega
      have hm : m = m' := by omega
      have hd : d = d' := by omega
      subst hy hm hd
      omega
  · exact daysFromCivil_lt_of_key_lt y m d y' m' d' hm1 hm2 hd1 hd2 hm1' hm2' hd1' hd2'

theorem civilFromDays_year_bounds (z : Int) (h0 : minCanonicalDay ≤ z) (h1 : z ≤ maxCanonicalDay) :
    0 ≤ (civilFromDays z).1 ∧ (civilFromDays z).1 ≤ 9999 := by
  obtain ⟨v1, v2, v3, v4⟩ := civilFromDays_valid z
  have hv4 := le_trans v4 (daysInMonth_le _ _)
  have hz := daysFromCivil_civilFromDays z
  have e0 : daysFromCivil 0 1 1 = minCanonicalDay := by decide
  have e1 : daysFromCivil 9999 12 31 = maxCanonicalDay := by decide
  generalize (civilFromDays z).1 = y at *
  generalize (civilFromDays z).2.1 = m at *
  generalize (civilFromDays z).2.2 = d at *
  constructor
  · by_contra hc
    have := daysFromCivil_lt_of_key_lt y m d 0 1 1 v1 v2 v3 v4 (by decide) (by decide) (by decide)
      (by decide) (by omega)
    omega
  · by_contra hc
    have := daysFromCivil_lt_of_key_lt 9999 12 31 y m d (by decide) (by decide) (by decide)
      (by decide) v1 v2 v3 v4 (by omega)
    omega

/-! ## Dates as strings -/

theorem digitChar_toNat (n : Nat) (h : n < 10) : (digitChar n).toNat = 48 + n := by
  interval_cases n <;> rfl

theorem digitVal_digitChar (n : Nat) (h : n < 10) : digitVal (digitChar n) = some n := by
  interval_cases n <;> rfl

theorem digitVal_eq_some {c : Char} {n : Nat} (h : digitVal c = some n) :
    n < 10 ∧ digitChar n = c := by
  unfold digitVal at h
  split_ifs at h with hc
  simp only [Option.some.injEq] at h
  subst h
  refine ⟨by omega, ?_⟩
  unfold digitChar
  have : 48 + (c.toNat - 48) = c.toNat := by omega
  rw [this, Char.ofNat_toNat]

theorem utf16_digitChar (n : Nat) (h : n < 10) : utf16 (digitChar n) = [48 + n] := by
  interval_cases n <;> rfl

theorem padDigits_two (n : Nat) : padDigits 2 n = [digitChar (n / 10 % 10), digitChar (n % 10)] := by
  simp [padDigits]

theorem padDigits_four (n : Nat) :
    padDigits 4 n = [digitChar (n / 1000 % 10), digitChar (n / 100 % 10), digitChar (n / 10 % 10),
      digitChar (n % 10)] := by
  simp [padDigits, Nat.div_div_eq_div_mul]

theorem isoDate_eq (y m d : Nat) :
    isoDate y m d = [digitChar (y / 1000 % 10), digitChar (y / 100 % 10), digitChar (y / 10 % 10),
      digitChar (y % 10), '-', digitChar (m / 10 % 10), digitChar (m % 10), '-',
      digitChar (d / 10 % 10), digitChar (d % 10)] := by
  simp [isoDate, padDigits_two, padDigits_four]

theorem codeUnits_isoDate (y m d : Nat) :
    codeUnits (isoDate y m d) = [48 + y / 1000 % 10, 48 + y / 100 % 10, 48 + y / 10 % 10,
      48 + y % 10, 45, 48 + m / 10 % 10, 48 + m % 10, 45, 48 + d / 10 % 10, 48 + d % 10] := by
  have u : ∀ n, utf16 (digitChar (n % 10)) = [48 + n % 10] :=
    fun n => utf16_digitChar _ (Nat.mod_lt _ (by decide))
  have hd : utf16 '-' = [45] := by decide
  simp [isoDate_eq, codeUnits, List.flatMap_cons, u, hd]

theorem lexLt_date_digits (a b c e f g h i a' b' c' e' f' g' h' i' : Nat)
    (hb : b < 10) (hc : c < 10) (he : e < 10) (hf : f < 10) (hg : g < 10)
    (hh : h < 10) (hi : i < 10) (hb' : b' < 10) (hc' : c' < 10) (he' : e' < 10)
    (hf' : f' < 10) (hg' : g' < 10) (hh' : h' < 10) (hi' : i' < 10) :
    lexLt [48 + a, 48 + b, 48 + c, 48 + e, 45, 48 + f, 48 + g, 45, 48 + h, 48 + i]
      [48 + a', 48 + b', 48 + c', 48 + e', 45, 48 + f', 48 + g', 45, 48 + h', 48 + i'] = true ↔
    (1000 * a + 100 * b + 10 * c + e) * 10000 + (10 * f + g) * 100 + (10 * h + i)
      < (1000 * a' + 100 * b' + 10 * c' + e') * 10000 + (10 * f' + g') * 100 + (10 * h' + i') := by
  simp only [lexLt, Bool.or_eq_true, Bool.and_eq_true,
    decide_eq_true_eq, beq_iff_eq, Nat.lt_irrefl, false_or, true_and, Nat.add_lt_add_iff_left,
    Nat.add_left_cancel_iff, Bool.or_false, Bool.and_false, or_false, and_false]
  omega

/-- On `YYYY-MM-DD` strings the string order is the order of the dates. -/
theorem strLt_isoDate (y m d y' m' d' : Nat) (hy : y < 10000) (hm : m < 100) (hd : d < 100)
    (hy' : y' < 10000) (hm' : m' < 100) (hd' : d' < 100) :
    strLt (isoDate y m d) (isoDate y' m' d') = true ↔
      y * 10000 + m * 100 + d < y' * 10000 + m' * 100 + d' := by
  simp only [strLt, codeUnits_isoDate]
  rw [lexLt_date_digits _ _ _ _ _ _ _ _ _ _ _ _ _ _ _ _
    (Nat.mod_lt _ (by decide)) (Nat.mod_lt _ (by decide)) (Nat.mod_lt _ (by decide))
    (Nat.mod_lt _ (by decide)) (Nat.mod_lt _ (by decide)) (Nat.mod_lt _ (by decide))
    (Nat.mod_lt _ (by decide)) (Nat.mod_lt _ (by decide)) (Nat.mod_lt _ (by decide))
    (Nat.mod_lt _ (by decide)) (Nat.mod_lt _ (by decide)) (Nat.mod_lt _ (by decide))
    (Nat.mod_lt _ (by decide)) (Nat.mod_lt _ (by decide))]
  have e1 : ∀ n : Nat, n < 10000 →
      1000 * (n / 1000 % 10) + 100 * (n / 100 % 10) + 10 * (n / 10 % 10) + n % 10 = n := by
    intro n hn; omega
  have e2 : ∀ n : Nat, n < 100 → 10 * (n / 10 % 10) + n % 10 = n := by
    intro n hn; omega
  rw [e1 y hy, e1 y' hy', e2 m hm, e2 m' hm', e2 d hd, e2 d' hd']

theorem daysInMonth_pos_bounds (y m : Int) : 28 ≤ daysInMonth y m := by
  unfold daysInMonth; split_ifs <;> omega

/-- Parsing the `YYYY-MM-DD` string of a day of the calendar gives its day
number. -/
theorem parseCalendarDate_isoDate (y m d : Nat) (hy : y < 10000) (hm1 : 1 ≤ m) (hm2 : m ≤ 12)
    (hd1 : 1 ≤ d) (hd2 : (d : Int) ≤ daysInMonth y m) :
    parseCalendarDate (isoDate y m d) = some (daysFromCivil y m d) := by
  have hd3 : (d : Int) ≤ 31 := le_trans hd2 (daysInMonth_le _ _)
  have e1 : 1000 * (y / 1000 % 10) + 100 * (y / 100 % 10) + 10 * (y / 10 % 10) + y % 10 = y := by
    omega
  have e2 : 10 * (m / 10 % 10) + m % 10 = m := by omega
  have e3 : 10 * (d / 10 % 10) + d % 10 = d := by omega
  rw [isoDate_eq]
  simp only [parseCalendarDate, digitVal_digitChar _ (Nat.mod_lt _ (by decide : 10 > 0)), e1, e2, e3]
  rw [if_pos]
  refine ⟨trivial, trivial, ?_, ?_, ?_, hd2⟩ <;> omega

/-- A string that parses as a calendar date is the `YYYY-MM-DD` string of a day
of the calendar. -/
theorem parseCalendarDate_eq_some {s : Str} {z : Int} (h : parseCalendarDate s = some z) :
    ∃ y m d : Nat, s = isoDate y m d ∧ y < 10000 ∧ 1 ≤ m ∧ m ≤ 12 ∧ 1 ≤ d ∧
      (d : Int) ≤ daysInMonth y m ∧ z = daysFromCivil y m d := by
  unfold parseCalendarDate at h
  split at h
  · rename_i y3 y2 y1 y0 s1 m1 m0 s2 d1 d0
    split at h
    · rename_i a b c d e f g i ha hb hc hd he hf hg hi
      obtain ⟨ha1, ha2⟩ := digitVal_eq_some ha
      obtain ⟨hb1, hb2⟩ := digitVal_eq_some hb
      obtain ⟨hc1, hc2⟩ := digitVal_eq_some hc
      obtain ⟨hd1, hd2⟩ := digitVal_eq_some hd
      obtain ⟨he1, he2⟩ := digitVal_eq_some he
      obtain ⟨hf1, hf2⟩ := digitVal_eq_some hf
      obtain ⟨hg1, hg2⟩ := digitVal_eq_some hg
      obtain ⟨hi1, hi2⟩ := digitVal_eq_some hi
      simp only at h
      split_ifs at h with hv
      obtain ⟨hs1, hs2, v1, v2, v3, v4⟩ := hv
      simp only [Option.some.injEq] at h
      refine ⟨1000 * a + 100 * b + 10 * c + d, 10 * e + f, 10 * g + i, ?_, by omega, by omega,
        by omega, by omega, v4, h.symm⟩
      rw [isoDate_eq]
      have q1 : (1000 * a + 100 * b + 10 * c + d) / 1000 % 10 = a := by omega
      have q2 : (1000 * a + 100 * b + 10 * c + d) / 100 % 10 = b := by omega
      have q3 : (1000 * a + 100 * b + 10 * c + d) / 10 % 10 = c := by omega
      have q4 : (1000 * a + 100 * b + 10 * c + d) % 10 = d := by omega
      have q5 : (10 * e + f) / 10 % 10 = e := by omega
      have q6 : (10 * e + f) % 10 = f := by omega
      have q7 : (10 * g + i) / 10 % 10 = g := by omega
      have q8 : (10 * g + i) % 10 = i := by omega
      rw [q1, q2, q3, q4, q5, q6, q7, q8, ha2, hb2, hc2, hd2, he2, hf2, hg2, hi2, hs1, hs2]
    · exact absurd h (by simp)
  · exact absurd h (by simp)

/-- The `YYYY-MM-DD` string of a day number between 0000-01-01 and 9999-12-31
parses back to that day number. -/
theorem parseCalendarDate_isoOfDay (z : Int) (h0 : minCanonicalDay ≤ z) (h1 : z ≤ maxCanonicalDay) :
    parseCalendarDate (isoOfDay z) = some z := by
  obtain ⟨v1, v2, v3, v4⟩ := civilFromDays_valid z
  obtain ⟨y0, y1⟩ := civilFromDays_year_bounds z h0 h1
  have hz := daysFromCivil_civilFromDays z
  unfold isoOfDay
  generalize (civilFromDays z).1 = y at *
  generalize (civilFromDays z).2.1 = m at *
  generalize (civilFromDays z).2.2 = d at *
  have ey : ((y.toNat : Nat) : Int) = y := Int.toNat_of_nonneg y0
  have em : ((m.toNat : Nat) : Int) = m := Int.toNat_of_nonneg (by omega)
  have ed : ((d.toNat : Nat) : Int) = d := Int.toNat_of_nonneg (by omega)
  rw [parseCalendarDate_isoDate y.toNat m.toNat d.toNat (by omega) (by omega) (by omega) (by omega)
    (by rw [ed, ey, em]; exact v4), ey, em, ed, hz]

/-- A canonical date is the `YYYY-MM-DD` string of its day number, which lies
between 0000-01-01 and 9999-12-31. -/
theorem eq_isoOfDay_of_parse {s : Str} {z : Int} (h : parseCalendarDate s = some z) :
    s = isoOfDay z ∧ minCanonicalDay ≤ z ∧ z ≤ maxCanonicalDay := by
  obtain ⟨y, m, d, rfl, hy, hm1, hm2, hd1, hd2, rfl⟩ := parseCalendarDate_eq_some h
  have hc := civilFromDays_daysFromCivil y m d (by omega) (by omega) (by omega) hd2
  have hd3 : (d : Int) ≤ 31 := le_trans hd2 (daysInMonth_le _ _)
  refine ⟨?_, ?_, ?_⟩
  · simp [isoOfDay, hc]
  · by_contra hlt
    have e0 : daysFromCivil 0 1 1 = minCanonicalDay := by decide
    rcases Nat.eq_zero_or_pos y with hy0 | hy0
    · subst hy0
      have := (daysFromCivil_lt_iff (0 : Nat) m d 0 1 1 (by omega) (by omega) (by omega) hd2
        (by decide) (by decide) (by decide) (by decide)).mp (by omega)
      omega
    · have := (daysFromCivil_lt_iff y m d 0 1 1 (by omega) (by omega) (by omega) hd2
        (by decide) (by decide) (by decide) (by decide)).mp (by omega)
      omega
  · by_contra hlt
    have e0 : daysFromCivil 9999 12 31 = maxCanonicalDay := by decide
    have := (daysFromCivil_lt_iff 9999 12 31 y m d (by decide) (by decide) (by decide) (by decide)
      (by omega) (by omega) (by omega) hd2).mp (by omega)
    omega

/-- On canonical dates the string order is the order of the days. -/
theorem strLt_isoOfDay (a b : Int) (ha0 : minCanonicalDay ≤ a) (ha1 : a ≤ maxCanonicalDay)
    (hb0 : minCanonicalDay ≤ b) (hb1 : b ≤ maxCanonicalDay) :
    strLt (isoOfDay a) (isoOfDay b) = true ↔ a < b := by
  obtain ⟨v1, v2, v3, v4⟩ := civilFromDays_valid a
  obtain ⟨w1, w2, w3, w4⟩ := civilFromDays_valid b
  obtain ⟨y0, y1⟩ := civilFromDays_year_bounds a ha0 ha1
  obtain ⟨z0, z1⟩ := civilFromDays_year_bounds b hb0 hb1
  have hv4 := le_trans v4 (daysInMonth_le _ _)
  have hw4 := le_trans w4 (daysInMonth_le _ _)
  have hlt := daysFromCivil_lt_iff _ _ _ _ _ _ v1 v2 v3 v4 w1 w2 w3 w4
  rw [daysFromCivil_civilFromDays, daysFromCivil_civilFromDays] at hlt
  unfold isoOfDay
  rw [strLt_isoDate _ _ _ _ _ _ (by omega) (by omega) (by omega) (by omega) (by omega) (by omega),
    hlt]
  generalize (civilFromDays a).1 = y at *
  generalize (civilFromDays a).2.1 = m at *
  generalize (civilFromDays a).2.2 = d at *
  generalize (civilFromDays b).1 = y' at *
  generalize (civilFromDays b).2.1 = m' at *
  generalize (civilFromDays b).2.2 = d' at *
  omega

/-- The first ten characters of `toISOString` are the `YYYY-MM-DD` string of
the UTC day, for years 0 to 9999. -/
theorem take_toISOString (t : Int) (h0 : minCanonicalDay ≤ t / msPerDay)
    (h1 : t / msPerDay ≤ maxCanonicalDay) : (toISOString t).take 10 = isoOfDay (t / msPerDay) := by
  obtain ⟨y0, y1⟩ := civilFromDays_year_bounds _ h0 h1
  simp only [toISOString, isoOfDay, isoYear, y0, y1, and_self, if_true, isoDate_eq, padDigits_four,
    padDigits_two]
  simp

/-! ## The date functions of `app.js` on canonical dates -/

theorem timeClip_of_day (z r : Int) (h0 : -100000000 < z) (h1 : z < 100000000 - 1)
    (hr0 : -msPerDay ≤ r) (hr1 : r ≤ msPerDay) : timeClip (z * msPerDay + r) = some (z * msPerDay + r) := by
  unfold timeClip
  rw [if_pos]
  simp only [maxTime, msPerDay] at *
  constructor <;> omega

theorem newDate_isoOfDay (rt : Runtime) (z : Int) (h0 : minCanonicalDay ≤ z)
    (h1 : z ≤ maxCanonicalDay) : newDate rt (isoOfDay z) = some (z * msPerDay) := by
  unfold newDate
  rw [parseCalendarDate_isoOfDay z h0 h1]
  simp only [minCanonicalDay, maxCanonicalDay] at h0 h1
  have := timeClip_of_day z 0 (by omega) (by omega) (by simp [msPerDay]) (by simp [msPerDay])
  simpa using this

/-- The `setDate(getDate() + n)` moves a date by `n` days. -/
theorem setDate_getDate_add (rt : Runtime) (t n : Int) :
    setDate rt (some t) ((getDate rt (some t)).map (fun x => x + n)) = timeClip (t + n * msPerDay) := by
  simp only [setDate, getDate, localDay, Option.map_some']
  have hz := daysFromCivil_civilFromDays ((t + rt.localTZA) / msPerDay)
  generalize civilFromDays ((t + rt.localTZA) / msPerDay) = c at *
  have hlin : daysFromCivil c.1 c.2.1 (c.2.2 + n) = daysFromCivil c.1 c.2.1 c.2.2 + n := by
    simp only [daysFromCivil]; omega
  rw [hlin, hz]
  congr 1
  simp only [msPerDay]
  omega

/-- The local midnight that `parseISODate` returns for a canonical date: its
UTC day is the date less the lag of the zone. -/
theorem parseISODate_isoOfDay (rt : Runtime) (hz : zoneOk rt) (z : Int) (h0 : minCanonicalDay ≤ z)
    (h1 : z ≤ maxCanonicalDay) :
    ∃ t, parseISODate rt (isoOfDay z) = some t ∧ (t + rt.localTZA) % msPerDay = 0 ∧
      t / msPerDay = z - zoneLag rt ∧ t = (z - zoneLag rt) * msPerDay + t % msPerDay := by
  unfold parseISODate
  rw [newDate_isoOfDay rt z h0 h1]
  simp only [setHours0, localDay]
  obtain ⟨hz0, hz1⟩ := hz
  simp only [minCanonicalDay, maxCanonicalDay] at h0 h1
  have hclip : timeClip ((z * msPerDay + rt.localTZA) / msPerDay * msPerDay - rt.localTZA)
      = some ((z * msPerDay + rt.localTZA) / msPerDay * msPerDay - rt.localTZA) := by
    unfold timeClip
    rw [if_pos]
    simp only [maxTime, msPerDay] at *
    constructor <;> omega
  rw [hclip]
  refine ⟨_, rfl, ?_, ?_, ?_⟩
  · simp only [msPerDay] at *; omega
  · simp only [zoneLag, msPerDay] at *
    split_ifs <;> omega
  · simp only [zoneLag, msPerDay] at *
    split_ifs <;> omega

/-- The `toISODate` of a `Date` at a local midnight is the `YYYY-MM-DD` string of
its UTC day. -/
theorem toISODate_ofDate_midnight (rt : Runtime) (t : Int)
    (hm : (t + rt.localTZA) % msPerDay = 0) (h0 : minCanonicalDay ≤ t / msPerDay)
    (h1 : t / msPerDay ≤ maxCanonicalDay) :
    toISODate rt (DateArg.ofDate (some t)) = some (isoOfDay (t / msPerDay)) := by
  simp only [toISODate, setHours0, localDay]
  have e : (t + rt.localTZA) / msPerDay * msPerDay - rt.localTZA = t := by
    simp only [msPerDay] at *; omega
  rw [e]
  have hclip : timeClip t = some t := by
    unfold timeClip
    rw [if_pos]
    simp only [maxTime, msPerDay, minCanonicalDay, maxCanonicalDay] at *
    constructor <;> omega
  rw [hclip]
  simp only [take_toISOString t h0 h1]

/-- The `toISODate` of a canonical date: the date itself when local time is UTC, the
day before in every other zone. -/
theorem toISODate_isoOfDay (rt : Runtime) (hz : zoneOk rt) (z : Int)
    (h0 : minCanonicalDay ≤ z - zoneLag rt) (h1 : z ≤ maxCanonicalDay) :
    toISODate rt (DateArg.ofString (isoOfDay z)) = some (isoOfDay (z - zoneLag rt)) := by
  have hl : 0 ≤ zoneLag rt ∧ zoneLag rt ≤ 1 := by unfold zoneLag; split_ifs <;> omega
  obtain ⟨t, ht, hmid, hday, -⟩ := parseISODate_isoOfDay rt hz z (by omega) h1
  have h := toISODate_ofDate_midnight rt t hmid (by omega) (by omega)
  simp only [toISODate, parseISODate] at h ht ⊢
  rw [ht]
  have e : setHours0 rt (some t) = some t := by
    simp only [setHours0, localDay]
    have e : (t + rt.localTZA) / msPerDay * msPerDay - rt.localTZA = t := by
      simp only [msPerDay] at *; omega
    rw [e]
    unfold timeClip
    rw [if_pos]
    simp only [maxTime, msPerDay, minCanonicalDay, maxCanonicalDay] at *
    constructor <;> omega
  rw [e] at h
  simp only at h ⊢
  rw [← hday]
  exact h

/-- The `addDays` on a canonical date: `days` days later when local time is UTC, one
day less in every other zone. -/
theorem addDays_isoOfDay (rt : Runtime) (hz : zoneOk rt) (z n : Int) (h0 : minCanonicalDay ≤ z)
    (h1 : z ≤ maxCanonicalDay) (hn0 : minCanonicalDay ≤ z + n - zoneLag rt)
    (hn1 : z + n - zoneLag rt ≤ maxCanonicalDay) :
    addDays rt (isoOfDay z) n = some (isoOfDay (z + n - zoneLag rt)) := by
  obtain ⟨t, ht, hmid, hday, hrem⟩ := parseISODate_isoOfDay rt hz z h0 h1
  unfold addDays
  simp only [ht, setDate_getDate_add]
  have hclip : timeClip (t + n * msPerDay) = some (t + n * msPerDay) := by
    unfold timeClip
    rw [if_pos]
    simp only [maxTime, msPerDay, minCanonicalDay, maxCanonicalDay] at *
    constructor <;> omega
  rw [hclip]
  have hd : (t + n * msPerDay) / msPerDay = z + n - zoneLag rt := by
    simp only [msPerDay] at *; omega
  rw [toISODate_ofDate_midnight rt _ (by simp only [msPerDay] at *; omega) (by omega) (by omega),
    hd]

/-- The `diffDays` on canonical dates is the number of days between them, in every
zone. -/
theorem diffDays_isoOfDay (rt : Runtime) (hz : zoneOk rt) (a b : Int) (ha0 : minCanonicalDay ≤ a)
    (ha1 : a ≤ maxCanonicalDay) (hb0 : minCanonicalDay ≤ b) (hb1 : b ≤ maxCanonicalDay) :
    diffDays rt (isoOfDay a) (isoOfDay b) = some (b - a) := by
  obtain ⟨s, hs, hsm, hsd, -⟩ := parseISODate_isoOfDay rt hz a ha0 ha1
  obtain ⟨e, he, hem, hed, -⟩ := parseISODate_isoOfDay rt hz b hb0 hb1
  simp only [diffDays, hs, he, roundDiv]
  congr 1
  simp only [msPerDay] at *
  omega

/-! ## CSV quoting -/

theorem replaceAll_eq_flatMap (p : Char) (rep s : Str) :
    replaceAll p rep s = s.flatMap (fun c => if c = p then rep else [c]) := by
  induction s with
  | nil => rfl
  | cons c cs ih =>
    simp only [replaceAll, List.flatMap_cons, ih]
    split_ifs <;> rfl

theorem needsQuoting_eq_false_iff (s : Str) :
    needsQuoting s = false ↔ ∀ c ∈ s, c ≠ ',' ∧ c ≠ '"' ∧ c ≠ '\n' ∧ c ≠ '\r' := by
  simp only [needsQuoting, List.any_eq_false, Bool.or_eq_true, beq_iff_eq, not_or, ne_eq]
  constructor
  · intro h c hc
    obtain ⟨⟨⟨h1, h2⟩, h3⟩, h4⟩ := h c hc
    exact ⟨h2, h1, h3, h4⟩
  · intro h c hc
    obtain ⟨h1, h2, h3, h4⟩ := h c hc
    exact ⟨⟨⟨h2, h1⟩, h3⟩, h4⟩

/-- C2: `csvEscape` returns a string that holds no comma, no double quote, no
line feed and no carriage return unchanged; any other string comes back with
every double quote doubled, between one leading and one trailing double quote. -/
theorem csvEscape_spec (s : Str) :
    ((∀ c ∈ s, c ≠ ',' ∧ c ≠ '"' ∧ c ≠ '\n' ∧ c ≠ '\r') → csvEscape s = s) ∧
    ((∃ c ∈ s, c = ',' ∨ c = '"' ∨ c = '\n' ∨ c = '\r') →
      csvEscape s = ['"'] ++ s.flatMap (fun c => if c = '"' then ['"', '"'] else [c]) ++ ['"']) := by
  constructor
  · intro h
    have := (needsQuoting_eq_false_iff s).mpr h
    simp [csvEscape, this]
  · rintro ⟨c, hc, h⟩
    have hq : needsQuoting s = true := by
      by_contra hn
      have := (needsQuoting_eq_false_iff s).mp (by simpa using hn) c hc
      rcases h with h | h | h | h <;> simp_all
    simp [csvEscape, hq, replaceAll_eq_flatMap]

/-! ## Block layout index -/

theorem indexOfFrom_not_mem (x : Str) (xs : List Str) (i : Nat) (h : x ∉ xs) :
    indexOfFrom x xs i = -1 := by
  induction xs generalizing i with
  | nil => rfl
  | cons y ys ih =>
    simp only [List.mem_cons, not_or] at h
    simp only [indexOfFrom, if_neg (Ne.symm h.1), ih (i + 1) h.2]

theorem indexOfFrom_first (x : Str) (xs : List Str) (i k : Nat) (hk : xs[k]? = some x)
    (hfirst : ∀ j < k, xs[j]? ≠ some x) : indexOfFrom x xs i = ((i + k : Nat) : Int) := by
  induction xs generalizing i k with
  | nil => simp at hk
  | cons y ys ih =>
    cases k with
    | zero =>
      simp only [List.getElem?_cons_zero, Option.some.injEq] at hk
      simp [indexOfFrom, hk]
    | succ k =>
      have hy : y ≠ x := by
        intro h
        exact hfirst 0 (Nat.succ_pos k) (by simp [h])
      simp only [List.getElem?_cons_succ] at hk
      have := ih (i + 1) k hk (fun j hj => by
        have := hfirst (j + 1) (by omega)
        simpa using this)
      simp only [indexOfFrom, if_neg hy, this]
      congr 1
      omega

theorem indexOfFrom_bounds (x : Str) (xs : List Str) (i : Nat) :
    indexOfFrom x xs i = -1 ∨ ((i : Int) ≤ indexOfFrom x xs i ∧
      indexOfFrom x xs i < (i : Int) + xs.length) := by
  induction xs generalizing i with
  | nil => left; rfl
  | cons y ys ih =>
    simp only [indexOfFrom]
    split_ifs with h
    · right
      simp only [List.length_cons]
      omega
    · rcases ih (i + 1) with h1 | ⟨h1, h2⟩
      · left; exact h1
      · right
        simp only [List.length_cons]
        push_cast at h1 h2 ⊢
        omega

/-- C9 (counterexample): in the window 2024-01-10 .. 2024-01-12, which is what
`buildDATES` returns for these bounds when local time is UTC, the date 2024-01-20
lies after the last day, and `renderBlocks` lays it out at index 0, not at the
last index 2. -/
theorem blockIndex_after_window_is_zero :
    buildDATES utcHost "2024-01-10".toList "2024-01-12".toList
      = Outcome.done ["2024-01-10".toList, "2024-01-11".toList, "2024-01-12".toList] ∧
    strLt "2024-01-12".toList "2024-01-20".toList = true ∧
    blockIndex ["2024-01-10".toList, "2024-01-11".toList, "2024-01-12".toList]
      "2024-01-20".toList = 0 ∧
    daysCount ["2024-01-10".toList, "2024-01-11".toList, "2024-01-12".toList] - 1 = 2 := by
  decide

/-- C9 (as amended): for a window `DATES` of at least one day, the index
`renderBlocks` uses lies in `[0, dayCount-1]`; it is the first position of the
date in `DATES` when the date is there, and 0 when the date is not in `DATES`,
whether it lies before or after the window. -/
theorem blockIndex_spec (DATES : List Str) (date : Str) (hne : DATES ≠ []) :
    0 ≤ blockIndex DATES date ∧ blockIndex DATES date ≤ daysCount DATES - 1 ∧
    (∀ k : Nat, DATES[k]? = some date → (∀ j < k, DATES[j]? ≠ some date) →
      blockIndex DATES date = (k : Int)) ∧
    (date ∉ DATES → blockIndex DATES date = 0) := by
  have hlen : 0 < DATES.length := List.length_pos.mpr hne
  have hb := indexOfFrom_bounds date DATES 0
  simp only [blockIndex, clamp, indexOf, daysCount]
  refine ⟨by omega, ?_, ?_, ?_⟩
  · rcases hb with h | ⟨h1, h2⟩
    · rw [h]; omega
    · push_cast at h1 h2; omega
  · intro k hk hfirst
    have hi := indexOfFrom_first date DATES 0 k hk hfirst
    have hklt : k < DATES.length := by
      by_contra hc
      rw [List.getElem?_eq_none (by omega)] at hk
      exact absurd hk (by simp)
    rw [hi]
    push_cast
    omega
  · intro hnot
    rw [indexOfFrom_not_mem date DATES 0 hnot]
    omega

/-- C9 (witness): the amended statement at a three-day window. -/
theorem blockIndex_spec_witness :
    ["2024-01-10".toList, "2024-01-11".toList, "2024-01-12".toList] ≠ [] ∧
    blockIndex ["2024-01-10".toList, "2024-01-11".toList, "2024-01-12".toList]
      "2024-01-11".toList = 1 :=
  ⟨by decide,
    (blockIndex_spec ["2024-01-10".toList, "2024-01-11".toList, "2024-01-12".toList]
      "2024-01-11".toList (by decide)).2.2.1 1 (by decide) (by decide)⟩

/-! ## `applyImportedTasks`: which rows become tasks -/

theorem strOr_nil (s : Str) : strOr s [] = s := by
  cases s <;> rfl

theorem resolveTopic_tasks (rt : Runtime) (st : ImportState) (row : Row) :
    (resolveTopic rt st row).1.project.tasks = st.project.tasks := by
  unfold resolveTopic
  split_ifs <;> rfl

theorem resolveTopic_topics_keeps (rt : Runtime) (st : ImportState) (row : Row) :
    st.project.topics <+: (resolveTopic rt st row).1.project.topics := by
  unfold resolveTopic
  split_ifs
  · exact List.prefix_refl _
  · exact List.prefix_refl _
  · simp only
    split_ifs
    · exact List.prefix_refl _
    · exact List.prefix_append _ _

theorem take_toISOString_ne_nil (t : Int) : (toISOString t).take 10 ≠ [] := by
  simp only [toISOString, isoYear]
  split_ifs
  · simp [padDigits]
  · simp
  · simp

theorem toISODate_ne_nil {rt : Runtime} {d : DateArg} {s : Str} (h : toISODate rt d = some s) :
    s ≠ [] := by
  unfold toISODate at h
  simp only at h
  split at h
  · exact absurd h (by simp)
  · simp only [Option.some.injEq] at h
    subst h
    exact take_toISOString_ne_nil _

theorem addDays_ne_nil {rt : Runtime} {s e : Str} {n : Int} (h : addDays rt s n = some e) :
    e ≠ [] := by
  unfold addDays at h
  exact toISODate_ne_nil h

/-- A row that is not resolvable is skipped without an error and without a
task. -/
theorem importRow_skip (rt : Runtime) (st : ImportState) (row : Row)
    (h : rowResolvable row = false) :
    (importRow rt st row).2 = false ∧
      (importRow rt st row).1.project.tasks = st.project.tasks ∧
      st.project.topics <+: (importRow rt st row).1.project.topics := by
  unfold importRow
  split_ifs with ht
  · exact ⟨rfl, rfl, List.prefix_refl _⟩
  · have hend : resolveEnd rt row = some row.end_ ∧ (row.start.isEmpty || row.end_.isEmpty) = true := by
      unfold resolveEnd
      simp only [rowResolvable, ht] at h
      cases hs : row.start.isEmpty <;> cases he : row.end_.isEmpty <;> simp_all
    simp only [hend.1, hend.2, if_true]
    exact ⟨trivial, resolveTopic_tasks rt st row, resolveTopic_topics_keeps rt st row⟩

/-- A resolvable row whose dates are valid appends one task. -/
theorem importRow_add (rt : Runtime) (st : ImportState) (row : Row) (e s2 e2 : Str)
    (h : rowResolvable row = true) (he : resolveEnd rt row = some e)
    (hs2 : toISODate rt (DateArg.ofString row.start) = some s2)
    (he2 : toISODate rt (DateArg.ofString e) = some e2) :
    (importRow rt st row).2 = false ∧
      (importRow rt st row).1.project.tasks = st.project.tasks ++
        [{ id := rt.randomUUID (resolveTopic rt st row).1.uuids,
           topicId := (resolveTopic rt st row).2, title := row.title, desc := row.desc,
           start := s2, end_ := e2 }] ∧
      (importRow rt st row).1.project.topics = (resolveTopic rt st row).1.project.topics ∧
      (importRow rt st row).1.nameToId = (resolveTopic rt st row).1.nameToId ∧
      (importRow rt st row).1.uuids = (resolveTopic rt st row).1.uuids + 1 := by
  have ht : row.title.isEmpty = false := by
    simp only [rowResolvable, Bool.and_eq_true, Bool.not_eq_true'] at h
    exact h.1.1
  have hst : row.start.isEmpty = false := by
    simp only [rowResolvable, Bool.and_eq_true, Bool.not_eq_true'] at h
    exact h.1.2
  have hee : e.isEmpty = false := by
    unfold resolveEnd at he
    simp only at he
    split_ifs at he with hc
    · have := addDays_ne_nil he
      cases e with
      | nil => exact absurd rfl this
      | cons _ _ => rfl
    · simp only [Option.some.injEq] at he
      subst he
      simp only [rowResolvable, ht, hst] at h
      cases hq : row.end_.isEmpty
      · rfl
      · simp [hst, hq] at hc
        simp [hq] at h
        exact absurd h.2 (by
          intro hpos
          have := hc h.1
          omega)
  unfold importRow
  simp only [ht, Bool.false_eq_true, if_false, he, hst, hee, Bool.or_self, hs2, he2,
    resolveTopic_tasks, strOr_nil]
  exact ⟨trivial, trivial, trivial, trivial, trivial⟩

/-- The rows that become tasks, under the hypothesis that the dates of every
resolvable row are valid. -/
theorem importRows_appends (rt : Runtime) (rows : List Row) (st : ImportState)
    (hvalid : ∀ row ∈ rows, rowResolvable row = true →
      ∃ e s2 e2, resolveEnd rt row = some e ∧
        toISODate rt (DateArg.ofString row.start) = some s2 ∧
        toISODate rt (DateArg.ofString e) = some e2) :
    (importRows rt st rows).2 = false ∧
    ∃ new, (importRows rt st rows).1.project.tasks = st.project.tasks ++ new ∧
      List.Forall₂ (fun (t : Task) (row : Row) =>
        t.title = row.title ∧ t.desc = row.desc ∧
        toISODate rt (DateArg.ofString row.start) = some t.start ∧
        ∃ e, resolveEnd rt row = some e ∧ toISODate rt (DateArg.ofString e) = some t.end_)
        new (rows.filter rowResolvable) := by
  induction rows generalizing st with
  | nil => exact ⟨rfl, [], by simp [importRows], by simp⟩
  | cons row rows ih =>
    have hv' : ∀ r ∈ rows, rowResolvable r = true →
        ∃ e s2 e2, resolveEnd rt r = some e ∧
          toISODate rt (DateArg.ofString r.start) = some s2 ∧
          toISODate rt (DateArg.ofString e) = some e2 :=
      fun r hr => hvalid r (List.mem_cons_of_mem _ hr)
    cases hres : rowResolvable row
    · obtain ⟨h1, h2, -⟩ := importRow_skip rt st row hres
      obtain ⟨i1, new, i2, i3⟩ := ih (importRow rt st row).1 hv'
      have hstep : importRows rt st (row :: rows) = importRows rt (importRow rt st row).1 rows := by
        rw [importRows]
        generalize importRow rt st row = r at *
        obtain ⟨a, b⟩ := r
        simp only at h1
        subst h1
        rfl
      rw [hstep]
      refine ⟨i1, new, ?_, ?_⟩
      · rw [i2, h2]
      · simpa [List.filter_cons, hres] using i3
    · obtain ⟨e, s2, e2, he, hs2, he2⟩ := hvalid row (List.mem_cons_self _ _) hres
      obtain ⟨h1, h2, -⟩ := importRow_add rt st row e s2 e2 hres he hs2 he2
      obtain ⟨i1, new, i2, i3⟩ := ih (importRow rt st row).1 hv'
      have hstep : importRows rt st (row :: rows) = importRows rt (importRow rt st row).1 rows := by
        rw [importRows]
        generalize importRow rt st row = r at *
        obtain ⟨a, b⟩ := r
        simp only at h1
        subst h1
        rfl
      rw [hstep]
      refine ⟨i1, Task.mk (rt.randomUUID (resolveTopic rt st row).1.uuids)
        (resolveTopic rt st row).2 row.title row.desc s2 e2 :: new, ?_, ?_⟩
      · rw [i2, h2, List.append_assoc, List.singleton_append]
      · simp only [List.filter_cons, hres, if_true]
        exact List.Forall₂.cons ⟨rfl, rfl, hs2, e, he, he2⟩ i3

theorem importRows_cons (rt : Runtime) (st : ImportState) (row : Row) (rows : List Row) :
    importRows rt st (row :: rows) =
      if (importRow rt st row).2 = true then ((importRow rt st row).1, true)
      else importRows rt (importRow rt st row).1 rows := by
  rw [importRows]
  generalize importRow rt st row = r
  obtain ⟨a, b⟩ := r
  cases b <;> rfl

/-- A row leaves the tasks and topics it found in place, and adds a task only
when it does not throw. -/
theorem importRow_keeps (rt : Runtime) (st : ImportState) (row : Row) :
    st.project.tasks <+: (importRow rt st row).1.project.tasks ∧
    st.project.topics <+: (importRow rt st row).1.project.topics ∧
    ((importRow rt st row).2 = true → (importRow rt st row).1.project.tasks = st.project.tasks) := by
  have ht := resolveTopic_tasks rt st row
  have hp := resolveTopic_topics_keeps rt st row
  unfold importRow
  split_ifs
  · exact ⟨List.prefix_refl _, List.prefix_refl _, fun _ => rfl⟩
  · simp only
    split
    · exact ⟨by rw [ht], hp, fun _ => ht⟩
    · split_ifs
      · exact ⟨by rw [ht], hp, fun _ => ht⟩
      · split
        · exact ⟨by rw [ht], hp, fun _ => ht⟩
        · split
          · exact ⟨by rw [ht], hp, fun _ => ht⟩
          · refine ⟨?_, hp, fun h => absurd h (by simp)⟩
            simp only [ht]
            exact List.prefix_append _ _

theorem importRows_keeps (rt : Runtime) (rows : List Row) (st : ImportState) :
    st.project.tasks <+: (importRows rt st rows).1.project.tasks ∧
    st.project.topics <+: (importRows rt st rows).1.project.topics := by
  induction rows generalizing st with
  | nil => exact ⟨List.prefix_refl _, List.prefix_refl _⟩
  | cons row rows ih =>
    obtain ⟨p1, p2, -⟩ := importRow_keeps rt st row
    rw [importRows_cons]
    split_ifs
    · exact ⟨p1, p2⟩
    · obtain ⟨q1, q2⟩ := ih (importRow rt st row).1
      exact ⟨p1.trans q1, p2.trans q2⟩

/-- An import that throws stopped at its first failing row: the rows before it
were imported without error, and the failing row added no task. -/
theorem importRows_threw_split (rt : Runtime) (rows : List Row) (st : ImportState)
    (h : (importRows rt st rows).2 = true) :
    ∃ done failing rest, rows = done ++ failing :: rest ∧
      (importRows rt st done).2 = false ∧
      (importRow rt (importRows rt st done).1 failing).2 = true ∧
      (importRows rt st rows).1 = (importRow rt (importRows rt st done).1 failing).1 ∧
      (importRows rt st rows).1.project.tasks = (importRows rt st done).1.project.tasks := by
  induction rows generalizing st with
  | nil => exact absurd h (by simp [importRows])
  | cons row rows ih =>
    rw [importRows_cons] at h ⊢
    split_ifs at h ⊢ with hrow
    · refine ⟨[], row, rows, rfl, rfl, hrow, rfl, ?_⟩
      exact (importRow_keeps rt st row).2.2 hrow
    · obtain ⟨done, failing, rest, e1, e2, e3, e4, e5⟩ := ih (importRow rt st row).1 h
      refine ⟨row :: done, failing, rest, by rw [e1]; rfl, ?_, ?_, ?_, ?_⟩
      · rw [importRows_cons, if_neg hrow]; exact e2
      · rw [importRows_cons, if_neg hrow]; exact e3
      · rw [importRows_cons, if_neg hrow]; exact e4
      · rw [importRows_cons, if_neg hrow]; exact e5

/-- C3 (counterexample): importing a file whose second row has dates that are
no dates ends with an error, and the task of the first row stays in the
project: `project.tasks` is not what it was before the import. -/
theorem importCSV_partial_commit :
    (importCSV utcHost ⟨"P".toList, [DEFAULT_TOPIC], []⟩ 0
      "title,start,end\nA,2024-01-10,2024-01-11\nB,abc,def".toList).threw = true ∧
    (importCSV utcHost ⟨"P".toList, [DEFAULT_TOPIC], []⟩ 0
      "title,start,end\nA,2024-01-10,2024-01-11\nB,abc,def".toList).project.tasks
      = [⟨"uuid-0".toList, "unassigned".toList, "A".toList, [], "2024-01-10".toList,
          "2024-01-11".toList⟩] := by
  decide

/-- C3 (as amended): an import that ends with an error stopped at its first
failing row. The tasks and topics that were in the project before are still
there, unchanged and in the same order, at the front of `project.tasks` and
`project.topics`; the rows before the failing row are committed (the tasks are
those of an import of these rows alone, which ends without error); the failing
row and the rows after it add no task. -/
theorem importCSV_failure_keeps_earlier (rt : Runtime) (project : Project) (uuids : Nat)
    (text : Str) (hthrew : (importCSV rt project uuids text).threw = true) :
    ∃ done failing rest, parseCSV text = done ++ failing :: rest ∧
      (applyImportedTasks rt project uuids done).threw = false ∧
      (importCSV rt project uuids text).project.tasks
        = (applyImportedTasks rt project uuids done).project.tasks ∧
      project.tasks <+: (importCSV rt project uuids text).project.tasks ∧
      project.topics <+: (importCSV rt project uuids text).project.topics := by
  simp only [importCSV, applyImportedTasks] at hthrew ⊢
  obtain ⟨done, failing, rest, e1, e2, -, -, e5⟩ := importRows_threw_split rt _ _ hthrew
  obtain ⟨p1, p2⟩ := importRows_keeps rt (parseCSV text)
    ⟨project, JSMap.ofEntries (project.topics.map (fun t => (t.name, t.id))), uuids⟩
  exact ⟨done, failing, rest, e1, e2, e5, p1, p2⟩

/-- C3 (witness): the amended statement at the file of the counterexample. -/
theorem importCSV_failure_keeps_earlier_witness :
    (importCSV utcHost ⟨"P".toList, [DEFAULT_TOPIC], []⟩ 0
      "title,start,end\nA,2024-01-10,2024-01-11\nB,abc,def".toList).threw = true ∧
    ∃ done failing rest,
      parseCSV "title,start,end\nA,2024-01-10,2024-01-11\nB,abc,def".toList
        = done ++ failing :: rest ∧
      (applyImportedTasks utcHost ⟨"P".toList, [DEFAULT_TOPIC], []⟩ 0 done).threw = false ∧
      (importCSV utcHost ⟨"P".toList, [DEFAULT_TOPIC], []⟩ 0
        "title,start,end\nA,2024-01-10,2024-01-11\nB,abc,def".toList).project.tasks
        = (applyImportedTasks utcHost ⟨"P".toList, [DEFAULT_TOPIC], []⟩ 0 done).project.tasks ∧
      ([] : List Task) <+: (importCSV utcHost ⟨"P".toList, [DEFAULT_TOPIC], []⟩ 0
        "title,start,end\nA,2024-01-10,2024-01-11\nB,abc,def".toList).project.tasks ∧
      [DEFAULT_TOPIC] <+: (importCSV utcHost ⟨"P".toList, [DEFAULT_TOPIC], []⟩ 0
        "title,start,end\nA,2024-01-10,2024-01-11\nB,abc,def".toList).project.topics :=
  ⟨by decide,
    importCSV_failure_keeps_earlier utcHost ⟨"P".toList, [DEFAULT_TOPIC], []⟩ 0
      "title,start,end\nA,2024-01-10,2024-01-11\nB,abc,def".toList (by decide)⟩

/-- When `resolveEnd` and `toISODate` throw no error on any resolvable row,
`applyImportedTasks`
ends without error and appends to the tasks of the project, which stay as they
were, exactly one task for each resolvable row, in row order: a row with a
title, a start, and an end or a `duration_days` that parses to a positive
integer. Every other row adds no task and raises no error. The task of a row
has its title and description and its normalised start and end. -/
theorem applyImportedTasks_appends (rt : Runtime) (project : Project) (uuids : Nat)
    (rows : List Row)
    (hvalid : ∀ row ∈ rows, rowResolvable row = true → rowDatesValid rt row = true) :
    (applyImportedTasks rt project uuids rows).threw = false ∧
    ∃ new, (applyImportedTasks rt project uuids rows).project.tasks = project.tasks ++ new ∧
      List.Forall₂ (fun (t : Task) (row : Row) =>
        t.title = row.title ∧ t.desc = row.desc ∧
        toISODate rt (DateArg.ofString row.start) = some t.start ∧
        ∃ e, resolveEnd rt row = some e ∧ toISODate rt (DateArg.ofString e) = some t.end_)
        new (rows.filter rowResolvable) := by
  have hv : ∀ row ∈ rows, rowResolvable row = true →
      ∃ e s2 e2, resolveEnd rt row = some e ∧
        toISODate rt (DateArg.ofString row.start) = some s2 ∧
        toISODate rt (DateArg.ofString e) = some e2 := by
    intro row hrow hres
    have := hvalid row hrow hres
    unfold rowDatesValid at this
    split at this
    · exact absurd this (by simp)
    · rename_i e he
      simp only [Bool.and_eq_true, Option.isSome_iff_exists] at this
      obtain ⟨⟨s2, hs2⟩, ⟨e2, he2⟩⟩ := this
      exact ⟨e, s2, e2, he, hs2, he2⟩
  exact importRows_appends rt rows
    ⟨project, JSMap.ofEntries (project.topics.map (fun t => (t.name, t.id))), uuids⟩ hv

/-- An example of it: five rows, of which the first (with an end) and the second
(with a duration) are resolvable; the others lack a title, a start, or both an
end and a duration. -/
theorem applyImportedTasks_appends_witness :
    (∀ row ∈ [(⟨[], "A".toList, "2024-01-10".toList, "2024-01-12".toList, [], []⟩ : Row),
        ⟨"X".toList, "B".toList, "2024-02-27".toList, [], "4".toList, "d".toList⟩,
        ⟨[], [], "2024-01-10".toList, "2024-01-12".toList, [], []⟩,
        ⟨[], "C".toList, [], "2024-01-12".toList, "3".toList, []⟩,
        ⟨[], "D".toList, "not a date".toList, [], "0".toList, []⟩],
      rowResolvable row = true → rowDatesValid utcHost row = true) ∧
    (applyImportedTasks utcHost ⟨"P".toList, [DEFAULT_TOPIC], []⟩ 0
      [(⟨[], "A".toList, "2024-01-10".toList, "2024-01-12".toList, [], []⟩ : Row),
        ⟨"X".toList, "B".toList, "2024-02-27".toList, [], "4".toList, "d".toList⟩,
        ⟨[], [], "2024-01-10".toList, "2024-01-12".toList, [], []⟩,
        ⟨[], "C".toList, [], "2024-01-12".toList, "3".toList, []⟩,
        ⟨[], "D".toList, "not a date".toList, [], "0".toList, []⟩]).threw = false :=
  ⟨by decide,
    (applyImportedTasks_appends utcHost ⟨"P".toList, [DEFAULT_TOPIC], []⟩ 0 _ (by decide)).1⟩

/-! ## `Map` and task groups -/

theorem JSMap.has_iff {β : Type} (m : JSMap β) (k : Str) :
    JSMap.has m k = true ↔ k ∈ m.map Prod.fst := by
  simp only [JSMap.has, List.any_eq_true, beq_iff_eq, List.mem_map]

theorem JSMap.set_of_not_mem {β : Type} (m : JSMap β) (k : Str) (v : β)
    (h : k ∉ m.map Prod.fst) : JSMap.set m k v = m ++ [(k, v)] := by
  induction m with
  | nil => rfl
  | cons e m ih =>
    simp only [List.map_cons, List.mem_cons, not_or] at h
    have hne : (e.1 == k) = false := by
      simp only [beq_eq_false_iff_ne, ne_eq]
      exact fun hc => h.1 hc.symm
    simp only [JSMap.set, hne, Bool.false_eq_true, if_false, ih h.2, List.cons_append]

/-- On a map that holds one value `f k` for each key of a duplicate-free list,
`set` changes the value of its key alone. -/
theorem JSMap.set_tabulated {β : Type} (ks : List Str) (f : Str → β) (k : Str) (v : β)
    (hnd : ks.Nodup) (hk : k ∈ ks) :
    JSMap.set (ks.map (fun x => (x, f x))) k v
      = ks.map (fun x => (x, if x = k then v else f x)) := by
  induction ks with
  | nil => exact absurd hk (by simp)
  | cons a ks ih =>
    obtain ⟨ha, hnd'⟩ := List.nodup_cons.mp hnd
    by_cases hak : a = k
    · subst hak
      simp only [List.map_cons, JSMap.set, beq_self_eq_true, if_true, List.cons.injEq, true_and]
      apply List.map_congr_left
      intro x hx
      have : x ≠ a := fun h => ha (h ▸ hx)
      simp [this]
    · have hk' : k ∈ ks := by
        rcases List.mem_cons.mp hk with h | h
        · exact absurd h.symm hak
        · exact h
      have hne : (a == k) = false := by simpa using hak
      simp only [List.map_cons, JSMap.set, hne, Bool.false_eq_true, if_false, ih hnd' hk', hak]

theorem JSMap.get_tabulated {β : Type} (ks : List Str) (f : Str → β) (k : Str) (hk : k ∈ ks) :
    JSMap.get (ks.map (fun x => (x, f x))) k = some (f k) := by
  induction ks with
  | nil => exact absurd hk (by simp)
  | cons a ks ih =>
    by_cases hak : a = k
    · subst hak
      simp [JSMap.get]
    · have hk' : k ∈ ks := by
        rcases List.mem_cons.mp hk with h | h
        · exact absurd h.symm hak
        · exact h
      have := ih hk'
      simp only [JSMap.get, List.map_cons, List.find?_cons] at this ⊢
      have hne : (a == k) = false := by simpa using hak
      simp only [hne]
      exact this

/-- The first loop of `buildTaskGroups`: one empty group for each topic id. -/
theorem initGroups_eq (topics : List Topic) (g : JSMap (List Task))
    (hnd : (g.map Prod.fst ++ topics.map Topic.id).Nodup) :
    topics.foldl (fun g t => JSMap.set g t.id []) g
      = g ++ (topics.map Topic.id).map (fun k => (k, ([] : List Task))) := by
  induction topics generalizing g with
  | nil => simp
  | cons t ts ih =>
    have hnot : t.id ∉ g.map Prod.fst := by
      intro hmem
      have := List.nodup_append.mp hnd
      exact this.2.2 hmem (by simp)
    simp only [List.foldl_cons, JSMap.set_of_not_mem g t.id [] hnot]
    rw [ih]
    · simp
    · simpa using hnd

/-- The group a task is put in: that of its `topicId` when a topic has this id,
the sentinel group otherwise. -/
theorem groupStep_eq (ks : List Str) (hnd : ks.Nodup) (hsent : DEFAULT_TOPIC.id ∈ ks)
    (home : Task → Str)
    (hhome : ∀ task, home task = if task.topicId ∈ ks then task.topicId else DEFAULT_TOPIC.id)
    (tasks pre : List Task) :
    tasks.foldl
      (fun g task =>
        let tid := if JSMap.has g task.topicId then task.topicId else DEFAULT_TOPIC.id
        let g2 := if JSMap.has g tid then g else JSMap.set g tid []
        JSMap.set g2 tid ((JSMap.get g2 tid).getD [] ++ [task]))
      (ks.map (fun k => (k, pre.filter (fun task => home task = k))))
    = ks.map (fun k => (k, (pre ++ tasks).filter (fun task => home task = k))) := by
  induction tasks generalizing pre with
  | nil => simp
  | cons task tasks ih =>
    have hkeys : (ks.map (fun k => (k, pre.filter (fun task => home task = k)))).map Prod.fst = ks := by
      simp [List.map_map, Function.comp_def]
    have hhas : ∀ k, JSMap.has (ks.map (fun k => (k, pre.filter (fun task => home task = k)))) k
        = decide (k ∈ ks) := by
      intro k
      rw [Bool.eq_iff_iff, JSMap.has_iff, hkeys]
      simp
    have htid : (if JSMap.has (ks.map (fun k => (k, pre.filter (fun task => home task = k))))
        task.topicId = true then task.topicId else DEFAULT_TOPIC.id) = home task := by
      rw [hhas, hhome]
      simp
    have hmem : home task ∈ ks := by
      rw [hhome]
      split_ifs with h
      · exact h
      · exact hsent
    simp only [List.foldl_cons, htid]
    rw [hhas (home task)]
    simp only [hmem, decide_True, if_true]
    rw [JSMap.get_tabulated ks _ _ hmem, JSMap.set_tabulated ks _ _ _ hnd hmem]
    have hstep : ks.map (fun x => (x, if x = home task then
          (some (pre.filter (fun t => home t = home task))).getD [] ++ [task]
          else pre.filter (fun t => home t = x)))
        = ks.map (fun k => (k, (pre ++ [task]).filter (fun t => home t = k))) := by
      apply List.map_congr_left
      intro x _
      by_cases hx : x = home task
      · subst hx
        simp [List.filter_append]
      · have : ¬ home task = x := fun h => hx h.symm
        simp [List.filter_append, hx, this]
    rw [hstep, ih (pre ++ [task])]
    simp

/-- What `buildTaskGroups` returns for a project with distinct topic ids that
has the sentinel topic. -/
theorem buildTaskGroups_eq (rt : Runtime) (project : Project)
    (hsent : DEFAULT_TOPIC.id ∈ project.topics.map Topic.id)
    (hnodup : (project.topics.map Topic.id).Nodup) :
    buildTaskGroups rt project = (project.topics.map Topic.id).map (fun k =>
      (k, List.insertionSort (startLe rt) (project.tasks.filter (fun task =>
        (if task.topicId ∈ project.topics.map Topic.id then task.topicId
          else DEFAULT_TOPIC.id) = k)))) := by
  unfold buildTaskGroups
  simp only
  rw [initGroups_eq project.topics [] (by simpa using hnodup)]
  have h := groupStep_eq (project.topics.map Topic.id) hnodup hsent
    (fun task => if task.topicId ∈ project.topics.map Topic.id then task.topicId
      else DEFAULT_TOPIC.id) (fun _ => rfl) project.tasks []
  simp only [List.filter_nil, List.nil_append] at h ⊢
  rw [h]
  simp [List.map_map, Function.comp_def]

theorem lexLt_asymm (a b : List Nat) (h : lexLt a b = true) : lexLt b a = false := by
  induction a generalizing b with
  | nil => cases b <;> simp_all [lexLt]
  | cons x xs ih =>
    cases b with
    | nil => simp [lexLt] at h
    | cons y ys =>
      simp only [lexLt, Bool.or_eq_true, decide_eq_true_eq, Bool.and_eq_true, beq_iff_eq] at h
      simp only [lexLt, Bool.or_eq_false_iff, decide_eq_false_iff_not, Bool.and_eq_false_iff,
        beq_eq_false_iff_ne, ne_eq]
      rcases h with h | ⟨h1, h2⟩
      · exact ⟨by omega, Or.inl (by omega)⟩
      · exact ⟨by omega, Or.inr (ih ys h2)⟩

theorem lexLt_neg_trans (c a b : List Nat) (h : lexLt c a = true) :
    lexLt c b = true ∨ lexLt b a = true := by
  induction c generalizing a b with
  | nil =>
    cases a with
    | nil => simp [lexLt] at h
    | cons x xs =>
      cases b with
      | nil => right; rfl
      | cons y ys => left; rfl
  | cons z zs ih =>
    cases a with
    | nil => simp [lexLt] at h
    | cons x xs =>
      cases b with
      | nil => right; rfl
      | cons y ys =>
        simp only [lexLt, Bool.or_eq_true, decide_eq_true_eq, Bool.and_eq_true, beq_iff_eq] at h ⊢
        rcases h with h | ⟨h1, h2⟩
        · by_cases hzy : z < y
          · left; left; exact hzy
          · right; left; omega
        · subst h1
          rcases Nat.lt_trichotomy z y with h3 | h3 | h3
          · left; left; exact h3
          · subst h3
            rcases ih xs ys h2 with h4 | h4
            · left; right; exact ⟨rfl, h4⟩
            · right; right; exact ⟨rfl, h4⟩
          · right; left; exact h3

theorem codeUnitCompare_le_iff (a b : Str) : codeUnitCompare a b ≤ 0 ↔ strLt b a = false := by
  unfold codeUnitCompare
  split_ifs with h1 h2
  · simp [strLt] at h1 ⊢
    exact lexLt_asymm _ _ h1
  · simp [h2]
  · simp at h2
    simp [h2]

theorem codeUnitCompare_total (a b : Str) : codeUnitCompare a b ≤ 0 ∨ codeUnitCompare b a ≤ 0 := by
  rw [codeUnitCompare_le_iff, codeUnitCompare_le_iff]
  cases h : strLt b a
  · left; rfl
  · right
    simp only [strLt] at h ⊢
    exact lexLt_asymm _ _ h

theorem codeUnitCompare_trans (a b c : Str) (h1 : codeUnitCompare a b ≤ 0)
    (h2 : codeUnitCompare b c ≤ 0) : codeUnitCompare a c ≤ 0 := by
  rw [codeUnitCompare_le_iff] at h1 h2 ⊢
  by_contra hc
  simp only [Bool.not_eq_false] at hc
  simp only [strLt] at h1 h2 hc
  rcases lexLt_neg_trans _ _ (codeUnits b) hc with h | h
  · rw [h] at h2; exact absurd h2 (by simp)
  · rw [h] at h1; exact absurd h1 (by simp)

/-- C10: for a project whose topic list has the sentinel (and, as the data model
requires, no two topics with the same id), when `localeCompare` is a total
preorder, `buildTaskGroups` returns one group per topic, in topic-list order.
The group of a topic holds exactly the tasks whose home is that topic (a
permutation of them), the home of a task being its `topicId` when a topic has
that id and the sentinel otherwise; so every task is in the group of its home
and in no other. Each group is in non-decreasing order of `start`, and two
tasks of a group that were in this order in `project.tasks` keep their relative
order (in particular tasks with equal `start`). -/
theorem buildTaskGroups_spec (rt : Runtime) (project : Project)
    (hsent : DEFAULT_TOPIC.id ∈ project.topics.map Topic.id)
    (hnodup : (project.topics.map Topic.id).Nodup)
    (htotal : ∀ a b, rt.localeCompare a b ≤ 0 ∨ rt.localeCompare b a ≤ 0)
    (htrans : ∀ a b c, rt.localeCompare a b ≤ 0 → rt.localeCompare b c ≤ 0 →
      rt.localeCompare a c ≤ 0) :
    (buildTaskGroups rt project).map Prod.fst = project.topics.map Topic.id ∧
    ∀ k ∈ project.topics.map Topic.id,
      ∃ grp, JSMap.get (buildTaskGroups rt project) k = some grp ∧
        List.Perm grp (project.tasks.filter (fun task =>
          (if task.topicId ∈ project.topics.map Topic.id then task.topicId
            else DEFAULT_TOPIC.id) = k)) ∧
        List.Sorted (startLe rt) grp ∧
        (∀ k2 ∈ project.topics.map Topic.id, k2 ≠ k → ∀ grp2,
          JSMap.get (buildTaskGroups rt project) k2 = some grp2 → ∀ task ∈ grp, task ∉ grp2) ∧
        ∀ a b, List.Sublist [a, b] (project.tasks.filter (fun task =>
          (if task.topicId ∈ project.topics.map Topic.id then task.topicId
            else DEFAULT_TOPIC.id) = k)) → startLe rt a b → List.Sublist [a, b] grp := by
  haveI : IsTotal Task (startLe rt) := ⟨fun a b => htotal _ _⟩
  haveI : IsTrans Task (startLe rt) := ⟨fun a b c h1 h2 => htrans _ _ _ h1 h2⟩
  rw [buildTaskGroups_eq rt project hsent hnodup]
  refine ⟨by simp [List.map_map, Function.comp_def], ?_⟩
  intro k hk
  refine ⟨_, JSMap.get_tabulated _ _ k hk, List.perm_insertionSort _ _,
    List.sorted_insertionSort _ _, ?_, ?_⟩
  · intro k2 hk2 hne grp2 hg2 task ht
    rw [JSMap.get_tabulated _ _ k2 hk2] at hg2
    simp only [Option.some.injEq] at hg2
    subst hg2
    rw [List.mem_insertionSort] at ht ⊢
    simp only [List.mem_filter, decide_eq_true_eq] at ht ⊢
    rintro ⟨-, h2⟩
    exact hne (h2.symm.trans ht.2)
  · intro a b hab hle
    exact List.pair_sublist_insertionSort hle hab

/-- C10 (witness): a project with the sentinel and one more topic, and three
tasks of which one names a topic that does not exist. -/
theorem buildTaskGroups_spec_witness :
    (buildTaskGroups utcHost ⟨"P".toList, [DEFAULT_TOPIC, ⟨"a".toList, "A".toList, []⟩],
      [⟨"1".toList, "a".toList, "T1".toList, [], "2024-01-10".toList, "2024-01-12".toList⟩,
       ⟨"2".toList, "gone".toList, "T2".toList, [], "2024-01-05".toList, "2024-01-06".toList⟩,
       ⟨"3".toList, "a".toList, "T3".toList, [], "2024-01-08".toList, "2024-01-12".toList⟩]⟩).map
      Prod.fst = ["unassigned".toList, "a".toList] :=
  (buildTaskGroups_spec utcHost ⟨"P".toList, [DEFAULT_TOPIC, ⟨"a".toList, "A".toList, []⟩],
      [⟨"1".toList, "a".toList, "T1".toList, [], "2024-01-10".toList, "2024-01-12".toList⟩,
       ⟨"2".toList, "gone".toList, "T2".toList, [], "2024-01-05".toList, "2024-01-06".toList⟩,
       ⟨"3".toList, "a".toList, "T3".toList, [], "2024-01-08".toList, "2024-01-12".toList⟩]⟩
    (by decide) (by decide) codeUnitCompare_total codeUnitCompare_trans).1

/-! ## The date claims in a zone east of UTC -/

/-- C5 (the code at the failing input): a row with start 2024-01-10, no end and
`duration_days` 3. When local time is UTC the task gets start 2024-01-10 and
end 2024-01-12; two hours east of UTC the same row gets start 2024-01-09 and
end 2024-01-10. -/
theorem import_duration_row_by_zone :
    (applyImportedTasks utcHost ⟨"P".toList, [DEFAULT_TOPIC], []⟩ 0
      [⟨[], "A".toList, "2024-01-10".toList, [], "3".toList, []⟩]).project.tasks.map
        (fun t => (t.start, t.end_)) = [("2024-01-10".toList, "2024-01-12".toList)] ∧
    (applyImportedTasks utcPlus2Host ⟨"P".toList, [DEFAULT_TOPIC], []⟩ 0
      [⟨[], "A".toList, "2024-01-10".toList, [], "3".toList, []⟩]).project.tasks.map
        (fun t => (t.start, t.end_)) = [("2024-01-09".toList, "2024-01-10".toList)] := by
  decide

/-- C6 (the code at the failing input): one task from 2024-01-10 to 2024-03-10.
When local time is UTC the window is 2024-01-08 .. 2024-03-12; two hours east of
UTC it is 2024-01-07 .. 2024-03-11: `min` is three days before the start and
`max` one day after the end. -/
theorem computeDateRange_padding_by_zone :
    computeDateRange utcHost
      (some ⟨"P".toList, [DEFAULT_TOPIC],
        [⟨[], "unassigned".toList, "A".toList, [], "2024-01-10".toList, "2024-03-10".toList⟩]⟩)
      0 0 26 = some ("2024-01-08".toList, "2024-03-12".toList) ∧
    computeDateRange utcPlus2Host
      (some ⟨"P".toList, [DEFAULT_TOPIC],
        [⟨[], "unassigned".toList, "A".toList, [], "2024-01-10".toList, "2024-03-10".toList⟩]⟩)
      0 0 26 = some ("2024-01-07".toList, "2024-03-11".toList) := by
  decide

/-- C7 (the code at the failing input): one task from 2024-01-10 to 2024-01-12,
a viewport of width 0 and a day width of 26, so that 30 days must be shown. Two
hours east of UTC the window is 2024-01-07 .. 2024-02-04, whose inclusive span
is 29 days. -/
theorem computeDateRange_span_east_of_utc :
    computeDateRange utcPlus2Host
      (some ⟨"P".toList, [DEFAULT_TOPIC],
        [⟨[], "unassigned".toList, "A".toList, [], "2024-01-10".toList, "2024-01-12".toList⟩]⟩)
      0 0 26 = some ("2024-01-07".toList, "2024-02-04".toList) ∧
    diffDays utcPlus2Host "2024-01-07".toList "2024-02-04".toList = some 28 ∧
    minDaysToFill 0 26 = 30 := by
  decide

/-- C8 (the code at the failing input): `buildDATES("2024-01-10","2024-01-12")`.
When local time is UTC the list is 2024-01-10, 2024-01-11, 2024-01-12; two hours
east of UTC it is 2024-01-09, 2024-01-10, 2024-01-11, and `addDays` of its first
element and 0 is 2024-01-08. -/
theorem buildDATES_by_zone :
    buildDATES utcHost "2024-01-10".toList "2024-01-12".toList
      = Outcome.done ["2024-01-10".toList, "2024-01-11".toList, "2024-01-12".toList] ∧
    buildDATES utcPlus2Host "2024-01-10".toList "2024-01-12".toList
      = Outcome.done ["2024-01-09".toList, "2024-01-10".toList, "2024-01-11".toList] ∧
    addDays utcPlus2Host "2024-01-09".toList 0 = some "2024-01-08".toList := by
  decide

/-! ## `parseCSV` reads back what `buildCSV` writes -/

theorem scanCSV_nil (st : ScanState) : scanCSV [] st = st := rfl

/-- A turn of the loop that is not the doubled quote consumes one character. -/
theorem scanCSV_cons (c : Char) (t : Str) (st : ScanState)
    (h : ¬ (st.inQuotes = true ∧ c = '"' ∧ t.head? = some '"')) :
    scanCSV (c :: t) st = scanCSV t (scanStep c st) := by
  cases t with
  | nil => rfl
  | cons c2 cs =>
    rw [scanCSV]
    rw [if_neg]
    simpa using h

/-- Inside quotes, the doubled text of a field followed by the closing quote
adds the field. -/
theorem scanCSV_quoted (f : Str) (acc : Str) (row : List Str) (rows : List (List Str))
    (rest : Str) (hrest : rest.head? ≠ some '"') :
    scanCSV (replaceAll '"' ['"', '"'] f ++ '"' :: rest) ⟨acc, row, rows, true⟩
      = scanCSV rest ⟨acc ++ f, row, rows, false⟩ := by
  induction f generalizing acc with
  | nil =>
    simp only [replaceAll, List.nil_append, List.append_nil]
    rw [scanCSV_cons _ _ _ (by simp [hrest])]
    simp [scanStep]
  | cons c f ih =>
    by_cases hc : c = '"'
    · subst hc
      simp only [replaceAll, if_true, List.cons_append, List.nil_append]
      rw [scanCSV]
      simp only [and_self, if_true]
      rw [ih]
      simp
    · simp only [replaceAll, if_neg hc, List.cons_append]
      rw [scanCSV_cons _ _ _ (by simp [hc])]
      simp only [scanStep, if_true, if_neg hc]
      rw [ih]
      simp

/-- Outside quotes, a field that needs no quoting is added as it is. -/
theorem scanCSV_plain (f : Str) (acc : Str) (row : List Str) (rows : List (List Str))
    (rest : Str) (hf : needsQuoting f = false) :
    scanCSV (f ++ rest) ⟨acc, row, rows, false⟩ = scanCSV rest ⟨acc ++ f, row, rows, false⟩ := by
  induction f generalizing acc with
  | nil => simp
  | cons c f ih =>
    have hc := (needsQuoting_eq_false_iff (c :: f)).mp hf c (List.mem_cons_self _ _)
    have hf' : needsQuoting f = false :=
      (needsQuoting_eq_false_iff f).mpr (fun x hx =>
        (needsQuoting_eq_false_iff (c :: f)).mp hf x (List.mem_cons_of_mem _ hx))
    simp only [List.cons_append]
    rw [scanCSV_cons _ _ _ (by simp)]
    simp only [scanStep, Bool.false_eq_true, if_false, if_neg hc.1, if_neg hc.2.1,
      if_neg hc.2.2.1, if_neg hc.2.2.2]
    rw [ih _ hf']
    simp

/-- Outside quotes, the escaped text of a field adds the field. -/
theorem scanCSV_field (f : Str) (acc : Str) (row : List Str) (rows : List (List Str))
    (rest : Str) (hrest : rest.head? ≠ some '"') :
    scanCSV (csvEscape f ++ rest) ⟨acc, row, rows, false⟩
      = scanCSV rest ⟨acc ++ f, row, rows, false⟩ := by
  unfold csvEscape
  cases hq : needsQuoting f
  · simp only [Bool.false_eq_true, if_false]
    exact scanCSV_plain f acc row rows rest hq
  · simp only [if_true, List.cons_append, List.append_assoc, List.singleton_append]
    rw [scanCSV_cons _ _ _ (by simp)]
    simp only [scanStep, Bool.false_eq_true, if_false, if_true]
    exact scanCSV_quoted f acc row rows rest hrest

/-- A line of escaped fields adds its cells to the row. -/
theorem scanCSV_line (f : Str) (fs : List Str) (acc : Str) (row : List Str)
    (rows : List (List Str)) (rest : Str) (hrest : rest.head? ≠ some '"') :
    scanCSV (join [','] ((f :: fs).map csvEscape) ++ rest) ⟨acc, row, rows, false⟩
      = scanCSV rest ⟨((acc ++ f) :: fs).getLast (by simp),
          row ++ ((acc ++ f) :: fs).dropLast, rows, false⟩ := by
  induction fs generalizing f acc row with
  | nil =>
    simp only [List.map_cons, List.map_nil, join, List.getLast_singleton, List.dropLast_single,
      List.append_nil]
    exact scanCSV_field f acc row rows rest hrest
  | cons g gs ih =>
    simp only [List.map_cons, join, List.append_assoc, List.singleton_append, List.cons_append,
      List.nil_append]
    rw [scanCSV_field _ _ _ _ _ (by simp)]
    rw [scanCSV_cons _ _ _ (by simp)]
    simp only [scanStep, Bool.false_eq_true, if_false, if_true,
      (by decide : ¬ ((',' : Char) = '"')), List.nil_append]
    have := ih g [] (row ++ [acc ++ f])
    simp only [List.map_cons, List.nil_append] at this
    rw [this]
    simp

/-- The rows of cells that the lines of a text add, the first cell of the first
line after what is already in `field`. -/
theorem scanCSV_lines (l : Str × List Str) (ls : List (Str × List Str)) (acc : Str)
    (rows : List (List Str)) :
    (scanCSV (join ['\n'] ((l :: ls).map (fun x => join [','] ((x.1 :: x.2).map csvEscape))))
        ⟨acc, [], rows, false⟩).rows ++
      [(scanCSV (join ['\n'] ((l :: ls).map (fun x => join [','] ((x.1 :: x.2).map csvEscape))))
        ⟨acc, [], rows, false⟩).row ++
       [(scanCSV (join ['\n'] ((l :: ls).map (fun x => join [','] ((x.1 :: x.2).map csvEscape))))
        ⟨acc, [], rows, false⟩).field]]
      = rows ++ ((acc ++ l.1) :: l.2) :: ls.map (fun x => x.1 :: x.2) := by
  induction ls generalizing l acc rows with
  | nil =>
    simp only [List.map_cons, List.map_nil, join]
    have := scanCSV_line l.1 l.2 acc [] rows [] (by simp)
    simp only [List.append_nil, List.map_cons] at this
    rw [this, scanCSV_nil]
    simp [List.dropLast_append_getLast]
  | cons m ms ih =>
    simp only [List.map_cons, join, List.append_assoc, List.singleton_append, List.cons_append,
      List.nil_append]
    have h1 := scanCSV_line l.1 l.2 acc [] rows
      ('\n' :: join ['\n'] ((m :: ms).map (fun x => join [','] ((x.1 :: x.2).map csvEscape))))
      (by simp)
    simp only [List.map_cons] at h1
    rw [h1]
    rw [scanCSV_cons _ _ _ (by simp)]
    simp only [scanStep, Bool.false_eq_true, if_false, List.nil_append,
      (by decide : ¬ (('\n' : Char) = '"')), (by decide : ¬ (('\n' : Char) = ',')), if_true,
      List.dropLast_append_getLast]
    have h2 := ih m [] (rows ++ [(acc ++ l.1) :: l.2])
    simp only [List.map_cons, List.nil_append] at h2
    rw [h2]
    simp

/-- The cells `parseCSV` reads in the text of `buildCSV`: the header, whose first
cell starts with the byte-order mark, then the six values of each task. -/
theorem csvCells_buildCSV (rt : Runtime) (proj : Project) :
    csvCells (buildCSV rt proj)
      = ['\uFEFF' :: "topic".toList, "title".toList, "start".toList, "end".toList,
          "duration_days".toList, "desc".toList]
        :: proj.tasks.map (csvValues rt proj.topics) := by
  have hcols : join [','] CSV_COLUMNS
      = join [','] (("topic".toList :: ["title".toList, "start".toList, "end".toList,
          "duration_days".toList, "desc".toList]).map csvEscape) := by decide
  have hlines : proj.tasks.map (csvLine rt proj.topics)
      = (proj.tasks.map (fun t => (topicNameOf proj.topics t.topicId,
          [t.title, t.start, t.end_, durationCell rt t, strOr t.desc []]))).map
          (fun x => join [','] ((x.1 :: x.2).map csvEscape)) := by
    simp [List.map_map, Function.comp_def, csvLine, csvValues]
  have h := scanCSV_lines ("topic".toList, ["title".toList, "start".toList, "end".toList,
      "duration_days".toList, "desc".toList])
    (proj.tasks.map (fun t => (topicNameOf proj.topics t.topicId,
      [t.title, t.start, t.end_, durationCell rt t, strOr t.desc []]))) ['\uFEFF'] []
  simp only [List.map_cons] at h
  unfold csvCells buildCSV
  simp only
  rw [scanCSV_cons _ _ _ (by simp)]
  rw [hcols, hlines]
  have hstep : scanStep '\uFEFF' ⟨[], [], [], false⟩ = ⟨['\uFEFF'], [], [], false⟩ := by decide
  rw [hstep]
  simp only [List.map_cons] at h ⊢
  rw [h]
  simp [List.map_map, Function.comp_def, csvValues]

theorem dropBlankTail_of_all (rows : List (List Str)) (h : ∀ r ∈ rows, isBlankRow r = false) :
    dropBlankTail rows = rows := by
  unfold dropBlankTail
  have : rows.reverse.dropWhile isBlankRow = rows.reverse := by
    cases hr : rows.reverse with
    | nil => rfl
    | cons r rs =>
      have hmem : r ∈ rows := by
        have : r ∈ rows.reverse := by rw [hr]; exact List.mem_cons_self _ _
        exact List.mem_reverse.mp this
      simp [List.dropWhile, h r hmem]
  rw [this, List.reverse_reverse]

/-- Under the header of `buildCSV`, a row of six cells is read as the record of
its trimmed cells. -/
theorem rowOfCells_header (a b c d e f : Str) :
    rowOfCells ['\uFEFF' :: "topic".toList, "title".toList, "start".toList, "end".toList,
      "duration_days".toList, "desc".toList] [a, b, c, d, e, f]
      = ⟨trim a, trim b, trim c, trim d, trim e, trim f⟩ := by
  have k1 : headerIndex ['\uFEFF' :: "topic".toList, "title".toList, "start".toList,
      "end".toList, "duration_days".toList, "desc".toList] "topic".toList = some 0 := by decide
  have k2 : headerIndex ['\uFEFF' :: "topic".toList, "title".toList, "start".toList,
      "end".toList, "duration_days".toList, "desc".toList] "title".toList = some 1 := by decide
  have k3 : headerIndex ['\uFEFF' :: "topic".toList, "title".toList, "start".toList,
      "end".toList, "duration_days".toList, "desc".toList] "start".toList = some 2 := by decide
  have k4 : headerIndex ['\uFEFF' :: "topic".toList, "title".toList, "start".toList,
      "end".toList, "duration_days".toList, "desc".toList] "end".toList = some 3 := by decide
  have k5 : headerIndex ['\uFEFF' :: "topic".toList, "title".toList, "start".toList,
      "end".toList, "duration_days".toList, "desc".toList] "duration_days".toList = some 4 := by
    decide
  have k6 : headerIndex ['\uFEFF' :: "topic".toList, "title".toList, "start".toList,
      "end".toList, "duration_days".toList, "desc".toList] "desc".toList = some 5 := by decide
  have n1 : headerIndex ['\uFEFF' :: "topic".toList, "title".toList, "start".toList,
      "end".toList, "duration_days".toList, "desc".toList] "נושא".toList = none := by decide
  have n2 : headerIndex ['\uFEFF' :: "topic".toList, "title".toList, "start".toList,
      "end".toList, "duration_days".toList, "desc".toList] "כותרת".toList = none := by decide
  have n3 : headerIndex ['\uFEFF' :: "topic".toList, "title".toList, "start".toList,
      "end".toList, "duration_days".toList, "desc".toList] "תאריך התחלה".toList = none := by
    decide
  have n4 : headerIndex ['\uFEFF' :: "topic".toList, "title".toList, "start".toList,
      "end".toList, "duration_days".toList, "desc".toList] "תאריך סיום".toList = none := by
    decide
  have n5 : headerIndex ['\uFEFF' :: "topic".toList, "title".toList, "start".toList,
      "end".toList, "duration_days".toList, "desc".toList] "משך (ימים)".toList = none := by
    decide
  have n6 : headerIndex ['\uFEFF' :: "topic".toList, "title".toList, "start".toList,
      "end".toList, "duration_days".toList, "desc".toList] "תיאור".toList = none := by decide
  simp only [rowOfCells, cellOf, getCell, k1, k2, k3, k4, k5, k6, n1, n2, n3, n4, n5, n6,
    strOr_nil, List.getD_cons_zero, List.getD_cons_succ]

/-- The `parseCSV` reads back what `buildCSV` writes: for a project whose tasks all
have a title that is not blank, one record per task, in order, holding the
trimmed values of the line of the task. -/
theorem parseCSV_buildCSV (rt : Runtime) (proj : Project)
    (htitle : ∀ t ∈ proj.tasks, trim t.title ≠ []) :
    parseCSV (buildCSV rt proj) = proj.tasks.map (fun t =>
      (⟨trim (topicNameOf proj.topics t.topicId), trim t.title, trim t.start, trim t.end_,
        trim (durationCell rt t), trim (strOr t.desc [])⟩ : Row)) := by
  unfold parseCSV
  rw [csvCells_buildCSV, dropBlankTail_of_all]
  · simp only [List.map_map]
    apply List.map_congr_left
    intro t _
    simp only [Function.comp, csvValues]
    exact rowOfCells_header _ _ _ _ _ _
  · intro r hr
    rcases List.mem_cons.mp hr with h | h
    · subst h; decide
    · obtain ⟨t, ht, rfl⟩ := List.mem_map.mp h
      have := htitle t ht
      simp only [isBlankRow, csvValues, List.all_cons, Bool.and_eq_false_iff]
      right; left
      cases hq : trim t.title with
      | nil => exact absurd hq this
      | cons _ _ => rfl

/-! ## Import of the rows of an exported project -/

theorem JSMap.ofEntries_of_nodup {β : Type} (l : List (Str × β)) (h : (l.map Prod.fst).Nodup) :
    JSMap.ofEntries l = l := by
  unfold JSMap.ofEntries
  suffices hs : ∀ (l g : List (Str × β)), (g.map Prod.fst ++ l.map Prod.fst).Nodup →
      l.foldl (fun m e => JSMap.set m e.1 e.2) g = g ++ l by
    simpa using hs l [] (by simpa using h)
  intro l
  induction l with
  | nil => intro g _; simp
  | cons e l ih =>
    intro g hnd
    have hnot : e.1 ∉ g.map Prod.fst := by
      intro hmem
      exact (List.nodup_append.mp hnd).2.2 hmem
        (List.mem_map_of_mem Prod.fst (List.mem_cons_self e l))
    simp only [List.foldl_cons, JSMap.set_of_not_mem g e.1 e.2 hnot]
    rw [ih]
    · simp
    · simpa using hnd

theorem JSMap.get_of_find {β : Type} (m : JSMap β) (k : Str) (v : β) (pre post : JSMap β)
    (hm : m = pre ++ (k, v) :: post) (hpre : k ∉ pre.map Prod.fst) : JSMap.get m k = some v := by
  subst hm
  induction pre with
  | nil => simp [JSMap.get]
  | cons e pre ih =>
    simp only [List.map_cons, List.mem_cons, not_or] at hpre
    have hne : (e.1 == k) = false := by
      simp only [beq_eq_false_iff_ne, ne_eq]
      exact fun hc => hpre.1 hc.symm
    have := ih hpre.2
    simp only [JSMap.get, List.cons_append, List.find?_cons, hne] at this ⊢
    exact this

theorem importedNameToId_keys (rt : Runtime) (seen : List Str) :
    (importedNameToId rt seen).map Prod.fst = DEFAULT_TOPIC.name :: seen := by
  simp [importedNameToId, List.map_map, Function.comp_def]

theorem importedNameToId_has (rt : Runtime) (seen : List Str) (n : Str) :
    JSMap.has (importedNameToId rt seen) n = true ↔ n = DEFAULT_TOPIC.name ∨ n ∈ seen := by
  rw [JSMap.has_iff, importedNameToId_keys]
  simp

theorem importedNameToId_get (rt : Runtime) (seen : List Str) (n : Str)
    (h : n = DEFAULT_TOPIC.name ∨ n ∈ seen) :
    JSMap.get (importedNameToId rt seen) n = some (importedTopicId rt n) := by
  unfold importedTopicId
  by_cases hn : n = DEFAULT_TOPIC.name
  · subst hn
    simp [importedNameToId, JSMap.get]
  · have hmem : n ∈ seen := h.resolve_left hn
    simp only [if_neg hn]
    have hne : (DEFAULT_TOPIC.name == n) = false := by
      simp only [beq_eq_false_iff_ne, ne_eq]
      exact fun hc => hn hc.symm
    simp only [importedNameToId, JSMap.get, List.find?_cons, hne]
    have := JSMap.get_tabulated seen (fun x => slugText rt x) n hmem
    simpa [JSMap.get] using this

theorem importedNameToId_set (rt : Runtime) (seen : List Str) (n : Str)
    (h1 : n ≠ DEFAULT_TOPIC.name) (h2 : n ∉ seen) :
    JSMap.set (importedNameToId rt seen) n (slugText rt n) = importedNameToId rt (seen ++ [n]) := by
  rw [JSMap.set_of_not_mem]
  · simp [importedNameToId]
  · rw [importedNameToId_keys]
    simp [h1, h2]

theorem importedTopics_ids (rt : Runtime) (seen : List Str) :
    (importedTopics rt seen).map Topic.id = DEFAULT_TOPIC.id :: seen.map (slugText rt) := by
  simp [importedTopics, List.map_map, Function.comp_def]

/-- The topic step of a row on the state of an import into a project that had
the sentinel topic alone. -/
theorem resolveTopic_imported (rt : Runtime) (P : Str → Prop)
    (hP1 : ∀ n, P n → n ≠ DEFAULT_TOPIC.name ∧ slugText rt n ≠ [] ∧
      slugText rt n ≠ DEFAULT_TOPIC.id)
    (hP2 : ∀ n n2, P n → P n2 → slugText rt n = slugText rt n2 → n = n2)
    (st : ImportState) (seen : List Str) (row : Row)
    (htopics : st.project.topics = importedTopics rt seen)
    (hmap : st.nameToId = importedNameToId rt seen) (hseen : ∀ n ∈ seen, P n)
    (hnd : seen.Nodup) (hne : row.topic ≠ [])
    (hrow : row.topic = DEFAULT_TOPIC.name ∨ P row.topic) :
    ∃ seen2, (resolveTopic rt st row).1.project.topics = importedTopics rt seen2 ∧
      (resolveTopic rt st row).1.nameToId = importedNameToId rt seen2 ∧
      (∀ n ∈ seen2, P n) ∧ seen2.Nodup ∧ (∀ n ∈ seen, n ∈ seen2) ∧
      (row.topic = DEFAULT_TOPIC.name ∨ row.topic ∈ seen2) ∧
      (resolveTopic rt st row).1.project.tasks = st.project.tasks ∧
      (resolveTopic rt st row).2 = importedTopicId rt row.topic := by
  have hemp : row.topic.isEmpty = false := by
    cases h : row.topic with
    | nil => exact absurd h hne
    | cons _ _ => rfl
  by_cases hknown : row.topic = DEFAULT_TOPIC.name ∨ row.topic ∈ seen
  · have hhas := (importedNameToId_has rt seen row.topic).mpr hknown
    have hget := importedNameToId_get rt seen row.topic hknown
    refine ⟨seen, ?_, ?_, hseen, hnd, fun n h => h, hknown, ?_, ?_⟩
    · simp only [resolveTopic, hemp, Bool.false_eq_true, if_false, hmap, hhas, if_true]
      exact htopics
    · simp only [resolveTopic, hemp, Bool.false_eq_true, if_false, hmap, hhas, if_true]
    · simp only [resolveTopic, hemp, Bool.false_eq_true, if_false, hmap, hhas, if_true]
    · simp only [resolveTopic, hemp, Bool.false_eq_true, if_false, hmap, hhas, if_true, hget,
        Option.getD_some]
  · have hnd1 : row.topic ≠ DEFAULT_TOPIC.name := fun h => hknown (Or.inl h)
    have hns : row.topic ∉ seen := fun h => hknown (Or.inr h)
    have hp : P row.topic := hrow.resolve_left hnd1
    obtain ⟨-, hs1, hs2⟩ := hP1 _ hp
    have hhas : JSMap.has (importedNameToId rt seen) row.topic = false := by
      rw [Bool.eq_false_iff]
      exact fun h => hknown ((importedNameToId_has rt seen row.topic).mp h)
    have hslug : slugId rt row.topic st.uuids = (slugText rt row.topic, st.uuids) := by
      unfold slugId
      cases h : slugText rt row.topic with
      | nil => exact absurd h hs1
      | cons _ _ => rfl
    have hany : (importedTopics rt seen).any (fun t => t.id == slugText rt row.topic) = false := by
      rw [Bool.eq_false_iff]
      intro h
      simp only [List.any_eq_true, beq_iff_eq] at h
      obtain ⟨t, ht, hid⟩ := h
      have hmem : t.id ∈ (importedTopics rt seen).map Topic.id := List.mem_map_of_mem _ ht
      rw [importedTopics_ids, hid] at hmem
      rcases List.mem_cons.mp hmem with h1 | h1
      · exact hs2 h1
      · obtain ⟨n, hn, hsl⟩ := List.mem_map.mp h1
        have := hP2 n row.topic (hseen n hn) hp hsl
        exact hns (this ▸ hn)
    refine ⟨seen ++ [row.topic], ?_, ?_, ?_, ?_, ?_, ?_, ?_, ?_⟩
    · simp only [resolveTopic, hemp, Bool.false_eq_true, if_false, hmap, hhas, hslug, htopics,
        hany]
      simp [importedTopics]
    · simp only [resolveTopic, hemp, Bool.false_eq_true, if_false, hmap, hhas, hslug]
      exact importedNameToId_set rt seen row.topic hnd1 hns
    · intro n hn
      rcases List.mem_append.mp hn with h | h
      · exact hseen n h
      · simp only [List.mem_singleton] at h
        exact h ▸ hp
    · exact List.Nodup.append hnd (List.nodup_singleton _) (by simpa using hns)
    · intro n hn
      exact List.mem_append_left _ hn
    · right; simp
    · exact resolveTopic_tasks rt st row
    · simp only [resolveTopic, hemp, Bool.false_eq_true, if_false, hmap, hhas, hslug,
        importedTopicId, if_neg hnd1]

theorem JSMap.get_of_mem_nodup {β : Type} (m : JSMap β) (k : Str) (v : β)
    (hnd : (m.map Prod.fst).Nodup) (hmem : (k, v) ∈ m) : JSMap.get m k = some v := by
  induction m with
  | nil => exact absurd hmem (by simp)
  | cons e m ih =>
    simp only [List.map_cons, List.nodup_cons] at hnd
    rcases List.mem_cons.mp hmem with h | h
    · subst h
      simp [JSMap.get]
    · have hne : (e.1 == k) = false := by
        simp only [beq_eq_false_iff_ne, ne_eq]
        intro hc
        exact hnd.1 (hc ▸ List.mem_map_of_mem Prod.fst h)
      have := ih hnd.2 h
      simp only [JSMap.get, List.find?_cons, hne] at this ⊢
      exact this

theorem isJsSpace_digitChar (n : Nat) (h : n < 10) : isJsSpace (digitChar n) = false := by
  interval_cases n <;> decide

/-- A canonical date has no white space to trim. -/
theorem trim_canonical {s : Str} (h : isCanonicalDate s = true) : trim s = s := by
  unfold isCanonicalDate at h
  obtain ⟨z, hz⟩ := Option.isSome_iff_exists.mp h
  obtain ⟨y, m, d, rfl, -⟩ := parseCalendarDate_eq_some hz
  rw [isoDate_eq]
  have h0 := isJsSpace_digitChar (y / 1000 % 10) (Nat.mod_lt _ (by decide))
  have h9 := isJsSpace_digitChar (d % 10) (Nat.mod_lt _ (by decide))
  simp [trim, trimStart, trimEnd, List.dropWhile, h0, h9]

theorem canonical_ne_nil {s : Str} (h : isCanonicalDate s = true) : s ≠ [] := by
  intro hs
  subst hs
  exact absurd h (by decide)

/-- When local time is UTC, `toISODate` returns a canonical date as it is. -/
theorem toISODate_canonical_utc (rt : Runtime) (hutc : rt.localTZA = 0) {s : Str}
    (h : isCanonicalDate s = true) : toISODate rt (DateArg.ofString s) = some s := by
  unfold isCanonicalDate at h
  obtain ⟨z, hz⟩ := Option.isSome_iff_exists.mp h
  obtain ⟨rfl, h0, h1⟩ := eq_isoOfDay_of_parse hz
  have hlag : zoneLag rt = 0 := by simp [zoneLag, hutc]
  have hzone : zoneOk rt := by
    unfold zoneOk
    rw [hutc]
    decide
  have := toISODate_isoOfDay rt hzone z (by rw [hlag]; simpa using h0) h1
  rw [hlag] at this
  simpa using this

/-- The step of one exported row on the state of an import into a project that
had the sentinel topic alone, when local time is UTC. -/
theorem importRow_exported (rt : Runtime) (hutc : rt.localTZA = 0) (P : Str → Prop)
    (hP1 : ∀ n, P n → n ≠ DEFAULT_TOPIC.name ∧ slugText rt n ≠ [] ∧
      slugText rt n ≠ DEFAULT_TOPIC.id)
    (hP2 : ∀ n n2, P n → P n2 → slugText rt n = slugText rt n2 → n = n2)
    (st : ImportState) (seen : List Str) (row : Row)
    (htopics : st.project.topics = importedTopics rt seen)
    (hmap : st.nameToId = importedNameToId rt seen) (hseen : ∀ n ∈ seen, P n)
    (hnd : seen.Nodup) (htitle : row.title ≠ []) (hne : row.topic ≠ [])
    (hrow : row.topic = DEFAULT_TOPIC.name ∨ P row.topic)
    (hstart : isCanonicalDate row.start = true) (hend : isCanonicalDate row.end_ = true) :
    ∃ seen2 id, (importRow rt st row).1.project.topics = importedTopics rt seen2 ∧
      (importRow rt st row).1.nameToId = importedNameToId rt seen2 ∧
      (∀ n ∈ seen2, P n) ∧ seen2.Nodup ∧ (∀ n ∈ seen, n ∈ seen2) ∧
      (row.topic = DEFAULT_TOPIC.name ∨ row.topic ∈ seen2) ∧
      (importRow rt st row).2 = false ∧
      (importRow rt st row).1.project.tasks = st.project.tasks ++
        [⟨id, importedTopicId rt row.topic, row.title, row.desc, row.start, row.end_⟩] := by
  obtain ⟨seen2, r1, r2, r3, r4, r5, r6, -, r8⟩ :=
    resolveTopic_imported rt P hP1 hP2 st seen row htopics hmap hseen hnd hne hrow
  have hs := canonical_ne_nil hstart
  have he := canonical_ne_nil hend
  have hres : rowResolvable row = true := by
    unfold rowResolvable
    cases h1 : row.title with
    | nil => exact absurd h1 htitle
    | cons _ _ =>
      cases h2 : row.start with
      | nil => exact absurd h2 hs
      | cons _ _ =>
        cases h3 : row.end_ with
        | nil => exact absurd h3 he
        | cons _ _ => rfl
  have hre : resolveEnd rt row = some row.end_ := by
    unfold resolveEnd
    cases h3 : row.end_ with
    | nil => exact absurd h3 he
    | cons _ _ => simp
  obtain ⟨a1, a2, a3, a4, -⟩ := importRow_add rt st row row.end_ row.start row.end_ hres hre
    (toISODate_canonical_utc rt hutc hstart) (toISODate_canonical_utc rt hutc hend)
  refine ⟨seen2, rt.randomUUID (resolveTopic rt st row).1.uuids, ?_, ?_, r3, r4, r5, r6, a1, ?_⟩
  · rw [a3, r1]
  · rw [a4, r2]
  · rw [a2, r8]

/-- The import of exported rows into a project that had the sentinel topic
alone, when local time is UTC: no error, one task per row in order, with the
fields of the row and the topic id of its topic name. -/
theorem importRows_exported (rt : Runtime) (hutc : rt.localTZA = 0) (P : Str → Prop)
    (hP1 : ∀ n, P n → n ≠ DEFAULT_TOPIC.name ∧ slugText rt n ≠ [] ∧
      slugText rt n ≠ DEFAULT_TOPIC.id)
    (hP2 : ∀ n n2, P n → P n2 → slugText rt n = slugText rt n2 → n = n2)
    (rows : List Row) (st : ImportState) (seen : List Str)
    (htopics : st.project.topics = importedTopics rt seen)
    (hmap : st.nameToId = importedNameToId rt seen) (hseen : ∀ n ∈ seen, P n)
    (hnd : seen.Nodup)
    (hrows : ∀ row ∈ rows, row.title ≠ [] ∧ row.topic ≠ [] ∧
      (row.topic = DEFAULT_TOPIC.name ∨ P row.topic) ∧
      isCanonicalDate row.start = true ∧ isCanonicalDate row.end_ = true) :
    ∃ seen2 new, (importRows rt st rows).1.project.topics = importedTopics rt seen2 ∧
      (∀ n ∈ seen2, P n) ∧ seen2.Nodup ∧ (∀ n ∈ seen, n ∈ seen2) ∧
      (∀ row ∈ rows, row.topic = DEFAULT_TOPIC.name ∨ row.topic ∈ seen2) ∧
      (importRows rt st rows).2 = false ∧
      (importRows rt st rows).1.project.tasks = st.project.tasks ++ new ∧
      List.Forall₂ (fun (t : Task) (row : Row) =>
        t.topicId = importedTopicId rt row.topic ∧ t.title = row.title ∧ t.desc = row.desc ∧
        t.start = row.start ∧ t.end_ = row.end_) new rows := by
  induction rows generalizing st seen with
  | nil =>
    exact ⟨seen, [], htopics, hseen, hnd, fun n h => h, by simp, rfl, by simp [importRows],
      List.Forall₂.nil⟩
  | cons row rows ih =>
    obtain ⟨g1, g2, g3, g4, g5⟩ := hrows row (List.mem_cons_self _ _)
    obtain ⟨seen1, id, b1, b2, b3, b4, b5, b6, b7, b8⟩ :=
      importRow_exported rt hutc P hP1 hP2 st seen row htopics hmap hseen hnd g1 g2 g3 g4 g5
    obtain ⟨seen2, new, c1, c2, c3, c4, c5, c6, c7, c8⟩ :=
      ih (importRow rt st row).1 seen1 b1 b2 b3 b4
        (fun r hr => hrows r (List.mem_cons_of_mem _ hr))
    rw [importRows_cons, if_neg (by simp [b7])]
    refine ⟨seen2, Task.mk id (importedTopicId rt row.topic) row.title row.desc row.start
      row.end_ :: new, c1, c2, c3, fun n hn => c4 n (b5 n hn), ?_, c6, ?_, ?_⟩
    · intro r hr
      rcases List.mem_cons.mp hr with h | h
      · subst h
        rcases b6 with h1 | h1
        · exact Or.inl h1
        · exact Or.inr (c4 _ h1)
      · exact c5 r h
    · rw [c7, b8, List.append_assoc, List.singleton_append]
    · exact List.Forall₂.cons ⟨rfl, rfl, rfl, rfl, rfl⟩ c8

/-- In the topics left by such an import, the topic id given to a name leads
back to that name. -/
theorem topicNameOf_imported (rt : Runtime) (P : Str → Prop)
    (hP1 : ∀ n, P n → n ≠ DEFAULT_TOPIC.name ∧ slugText rt n ≠ [] ∧
      slugText rt n ≠ DEFAULT_TOPIC.id)
    (hP2 : ∀ n n2, P n → P n2 → slugText rt n = slugText rt n2 → n = n2)
    (seen : List Str) (hseen : ∀ n ∈ seen, P n) (hnd : seen.Nodup) (n : Str)
    (hn : n = DEFAULT_TOPIC.name ∨ n ∈ seen) :
    topicNameOf (importedTopics rt seen) (importedTopicId rt n) = n := by
  have hkeys : ((importedTopics rt seen).map (fun t => (t.id, t))).map Prod.fst
      = DEFAULT_TOPIC.id :: seen.map (slugText rt) := by
    simp [importedTopics, List.map_map, Function.comp_def]
  have hnodup : (((importedTopics rt seen).map (fun t => (t.id, t))).map Prod.fst).Nodup := by
    rw [hkeys, List.nodup_cons]
    constructor
    · intro hmem
      obtain ⟨x, hx, hsl⟩ := List.mem_map.mp hmem
      exact (hP1 x (hseen x hx)).2.2 hsl
    · exact List.Nodup.map_on (fun x hx y hy hxy => hP2 x y (hseen x hx) (hseen y hy) hxy) hnd
  unfold topicNameOf topicsMapOf
  rw [JSMap.ofEntries_of_nodup _ hnodup]
  by_cases hd : n = DEFAULT_TOPIC.name
  · subst hd
    have : JSMap.get ((importedTopics rt seen).map (fun t => (t.id, t)))
        (importedTopicId rt DEFAULT_TOPIC.name) = some DEFAULT_TOPIC := by
      apply JSMap.get_of_mem_nodup _ _ _ hnodup
      simp [importedTopics, importedTopicId]
    rw [this]
    rfl
  · have hmem : n ∈ seen := hn.resolve_left hd
    have : JSMap.get ((importedTopics rt seen).map (fun t => (t.id, t)))
        (importedTopicId rt n) = some ⟨slugText rt n, n, randomColorFromName n⟩ := by
      apply JSMap.get_of_mem_nodup _ _ _ hnodup
      simp only [importedTopicId, if_neg hd, importedTopics, List.map_cons, List.map_map,
        List.mem_cons, List.mem_map, Function.comp]
      right
      exact ⟨n, hmem, rfl⟩
    rw [this]
    rfl

theorem map_eq_of_forall₂ {α β γ : Type} (R : α → β → Prop) (g : α → γ) (h : β → γ)
    (l1 : List α) (l2 : List β) (hrel : List.Forall₂ R l1 l2)
    (hgh : ∀ a b, b ∈ l2 → R a b → g a = h b) : l1.map g = l2.map h := by
  induction hrel with
  | nil => rfl
  | cons hab _ ih =>
    rename_i a b l1 l2 _
    simp only [List.map_cons]
    rw [hgh a b (List.mem_cons_self _ _) hab,
      ih (fun x y hy hxy => hgh x y (List.mem_cons_of_mem _ hy) hxy)]

/-- C1 (counterexample): a project with the sentinel topic and a topic whose
name is "unassigned" (a topic can get this name by renaming), holding one task.
When local time is UTC, the export re-imported into a project with the sentinel
alone gives a task whose topic name is the name of the sentinel, not
"unassigned": the tuples differ. -/
theorem csv_round_trip_topic_name_lost :
    (importCSV utcHost ⟨"Q".toList, [DEFAULT_TOPIC], []⟩ 0
      (buildCSV utcHost ⟨"P".toList, [DEFAULT_TOPIC, ⟨"x".toList, "unassigned".toList, []⟩],
        [⟨"1".toList, "x".toList, "T".toList, [], "2024-01-10".toList,
          "2024-01-12".toList⟩]⟩)).threw = false ∧
    (importCSV utcHost ⟨"Q".toList, [DEFAULT_TOPIC], []⟩ 0
      (buildCSV utcHost ⟨"P".toList, [DEFAULT_TOPIC, ⟨"x".toList, "unassigned".toList, []⟩],
        [⟨"1".toList, "x".toList, "T".toList, [], "2024-01-10".toList,
          "2024-01-12".toList⟩]⟩)).project.tasks.map
      (taskTuple (importCSV utcHost ⟨"Q".toList, [DEFAULT_TOPIC], []⟩ 0
        (buildCSV utcHost ⟨"P".toList, [DEFAULT_TOPIC, ⟨"x".toList, "unassigned".toList, []⟩],
          [⟨"1".toList, "x".toList, "T".toList, [], "2024-01-10".toList,
            "2024-01-12".toList⟩]⟩)).project.topics)
      = [("לא משויך".toList, "T".toList, "2024-01-10".toList, "2024-01-12".toList, [])] ∧
    ([⟨"1".toList, "x".toList, "T".toList, [], "2024-01-10".toList,
        "2024-01-12".toList⟩] : List Task).map
      (taskTuple [DEFAULT_TOPIC, ⟨"x".toList, "unassigned".toList, []⟩])
      = [("unassigned".toList, "T".toList, "2024-01-10".toList, "2024-01-12".toList, [])] ∧
    ¬ List.Perm
      [("לא משויך".toList, "T".toList, "2024-01-10".toList, "2024-01-12".toList, ([] : Str))]
      [("unassigned".toList, "T".toList, "2024-01-10".toList, "2024-01-12".toList, [])] := by
  refine ⟨by decide, by decide, by decide, ?_⟩
  rw [List.perm_singleton]
  decide

/-- C1 (as amended): when local time is UTC, for a project whose tasks have a
non-empty title and a title and description without white space at either end,
canonical start and end, and topic names (the name of the topic of the task, or
of the sentinel when the topic id is unknown) that are non-empty, without white
space at either end and, unless equal to the name of the sentinel, have a
non-empty slug other than "unassigned", two different such names never sharing
a slug: exporting with `buildCSV` and importing the text into a project with no
task and the sentinel topic alone ends without error and yields tasks whose
`(topic name, title, start, end, desc)` tuples are those of the tasks of the
original project, in the same order, hence the same multiset. -/
theorem csv_round_trip (rt : Runtime) (proj target : Project) (uuids : Nat)
    (hutc : rt.localTZA = 0)
    (htopics : target.topics = [DEFAULT_TOPIC]) (hempty : target.tasks = [])
    (htasks : ∀ t ∈ proj.tasks, t.title ≠ [] ∧ trim t.title = t.title ∧ trim t.desc = t.desc ∧
      isCanonicalDate t.start = true ∧ isCanonicalDate t.end_ = true)
    (hnames : ∀ t ∈ proj.tasks, topicNameOf proj.topics t.topicId ≠ [] ∧
      trim (topicNameOf proj.topics t.topicId) = topicNameOf proj.topics t.topicId ∧
      (topicNameOf proj.topics t.topicId ≠ DEFAULT_TOPIC.name →
        slugText rt (topicNameOf proj.topics t.topicId) ≠ [] ∧
        slugText rt (topicNameOf proj.topics t.topicId) ≠ DEFAULT_TOPIC.id))
    (hinj : ∀ t ∈ proj.tasks, ∀ t2 ∈ proj.tasks,
      topicNameOf proj.topics t.topicId ≠ DEFAULT_TOPIC.name →
      topicNameOf proj.topics t2.topicId ≠ DEFAULT_TOPIC.name →
      slugText rt (topicNameOf proj.topics t.topicId)
        = slugText rt (topicNameOf proj.topics t2.topicId) →
      topicNameOf proj.topics t.topicId = topicNameOf proj.topics t2.topicId) :
    (importCSV rt target uuids (buildCSV rt proj)).threw = false ∧
    (importCSV rt target uuids (buildCSV rt proj)).project.tasks.map
        (taskTuple (importCSV rt target uuids (buildCSV rt proj)).project.topics)
      = proj.tasks.map (taskTuple proj.topics) ∧
    (((importCSV rt target uuids (buildCSV rt proj)).project.tasks.map
        (taskTuple (importCSV rt target uuids (buildCSV rt proj)).project.topics)
        : List (Str × Str × Str × Str × Str)) : Multiset (Str × Str × Str × Str × Str))
      = ((proj.tasks.map (taskTuple proj.topics) : List (Str × Str × Str × Str × Str))
        : Multiset (Str × Str × Str × Str × Str)) := by
  -- the records read back from the export
  have hparse : parseCSV (buildCSV rt proj) = proj.tasks.map (fun t =>
      (⟨topicNameOf proj.topics t.topicId, t.title, t.start, t.end_, trim (durationCell rt t),
        t.desc⟩ : Row)) := by
    rw [parseCSV_buildCSV rt proj (fun t ht => by
      obtain ⟨h1, h2, -⟩ := htasks t ht
      rw [h2]; exact h1)]
    apply List.map_congr_left
    intro t ht
    obtain ⟨-, h2, h3, h4, h5⟩ := htasks t ht
    obtain ⟨-, n2, -⟩ := hnames t ht
    rw [n2, h2, strOr_nil, h3, trim_canonical h4, trim_canonical h5]
  -- the names that get a synthesized topic
  have hP1 : ∀ n, (n ≠ DEFAULT_TOPIC.name ∧ ∃ t ∈ proj.tasks, topicNameOf proj.topics t.topicId = n) →
      n ≠ DEFAULT_TOPIC.name ∧ slugText rt n ≠ [] ∧ slugText rt n ≠ DEFAULT_TOPIC.id := by
    rintro n ⟨hn, t, ht, rfl⟩
    obtain ⟨-, -, h3⟩ := hnames t ht
    exact ⟨hn, (h3 hn).1, (h3 hn).2⟩
  have hP2 : ∀ n n2,
      (n ≠ DEFAULT_TOPIC.name ∧ ∃ t ∈ proj.tasks, topicNameOf proj.topics t.topicId = n) →
      (n2 ≠ DEFAULT_TOPIC.name ∧ ∃ t ∈ proj.tasks, topicNameOf proj.topics t.topicId = n2) →
      slugText rt n = slugText rt n2 → n = n2 := by
    rintro n n2 ⟨hn, t, ht, rfl⟩ ⟨hn2, t2, ht2, rfl⟩ hs
    exact hinj t ht t2 ht2 hn hn2 hs
  have hrows : ∀ row ∈ proj.tasks.map (fun t =>
      (⟨topicNameOf proj.topics t.topicId, t.title, t.start, t.end_, trim (durationCell rt t),
        t.desc⟩ : Row)),
      row.title ≠ [] ∧ row.topic ≠ [] ∧
      (row.topic = DEFAULT_TOPIC.name ∨
        (row.topic ≠ DEFAULT_TOPIC.name ∧
          ∃ t ∈ proj.tasks, topicNameOf proj.topics t.topicId = row.topic)) ∧
      isCanonicalDate row.start = true ∧ isCanonicalDate row.end_ = true := by
    intro row hrow
    obtain ⟨t, ht, rfl⟩ := List.mem_map.mp hrow
    obtain ⟨h1, -, -, h4, h5⟩ := htasks t ht
    obtain ⟨n1, -, -⟩ := hnames t ht
    refine ⟨h1, n1, ?_, h4, h5⟩
    by_cases hd : topicNameOf proj.topics t.topicId = DEFAULT_TOPIC.name
    · exact Or.inl hd
    · exact Or.inr ⟨hd, t, ht, rfl⟩
  obtain ⟨seen, new, c1, c2, c3, -, c5, c6, c7, c8⟩ := importRows_exported rt hutc _ hP1 hP2 _
    ⟨target, JSMap.ofEntries (target.topics.map (fun t => (t.name, t.id))), uuids⟩ []
    (by simp [htopics, importedTopics]) (by simp [htopics, importedNameToId, JSMap.ofEntries,
      JSMap.set]) (by simp) List.nodup_nil hrows
  have hlist : (importCSV rt target uuids (buildCSV rt proj)).project.tasks.map
        (taskTuple (importCSV rt target uuids (buildCSV rt proj)).project.topics)
      = proj.tasks.map (taskTuple proj.topics) := by
    simp only [importCSV, applyImportedTasks, hparse, c7, c1, hempty, List.nil_append]
    rw [List.forall₂_map_right_iff] at c8
    apply map_eq_of_forall₂ _ _ _ _ _ c8
    rintro t task htask ⟨k1, k2, k3, k4, k5⟩
    have hn := c5 _ (List.mem_map_of_mem _ htask)
    simp only at hn k1 k2 k3 k4 k5
    simp only [taskTuple, k1, k2, k3, k4, k5,
      topicNameOf_imported rt _ hP1 hP2 seen c2 c3 _ hn]
  refine ⟨?_, hlist, congrArg _ hlist⟩
  simp only [importCSV, applyImportedTasks, hparse]
  exact c6

/-- C1 (witness): the amended statement at the example project, exported and
imported into the example empty project by a host whose local time is UTC. -/
theorem csv_round_trip_witness :
    (importCSV utcHost emptyProject 0 (buildCSV utcHost sampleProject)).threw = false ∧
    (importCSV utcHost emptyProject 0 (buildCSV utcHost sampleProject)).project.tasks.map
        (taskTuple (importCSV utcHost emptyProject 0
          (buildCSV utcHost sampleProject)).project.topics)
      = sampleProject.tasks.map (taskTuple sampleProject.topics) :=
  ⟨(csv_round_trip utcHost sampleProject emptyProject 0 rfl rfl rfl (by decide) (by decide)
      (by decide)).1,
   (csv_round_trip utcHost sampleProject emptyProject 0 rfl rfl rfl (by decide) (by decide)
      (by decide)).2.1⟩

/-! ## The date claims in every zone -/

theorem isoOfDay_dayOf {s : Str} (h : isCanonicalDate s = true) :
    s = isoOfDay (dayOf s) ∧ minCanonicalDay ≤ dayOf s ∧ dayOf s ≤ maxCanonicalDay := by
  unfold isCanonicalDate at h
  obtain ⟨z, hz⟩ := Option.isSome_iff_exists.mp h
  have := eq_isoOfDay_of_parse hz
  simp only [dayOf, hz, Option.getD_some]
  exact this

theorem dayOf_isoOfDay (z : Int) (h0 : minCanonicalDay ≤ z) (h1 : z ≤ maxCanonicalDay) :
    dayOf (isoOfDay z) = z := by
  simp [dayOf, parseCalendarDate_isoOfDay z h0 h1]

theorem zoneLag_bounds (rt : Runtime) : 0 ≤ zoneLag rt ∧ zoneLag rt ≤ 1 := by
  unfold zoneLag; split_ifs <;> omega

/-- The task of a row with a canonical start, no end and a positive duration,
in any zone: the start is the start of the row less the lag of the zone, the
end is `duration - 1` days after the start of the row less twice the lag. When
local time is UTC the lag is 0. -/
theorem importRow_duration_zone (rt : Runtime) (hz : zoneOk rt) (st : ImportState) (row : Row)
    (d : Int) (htitle : row.title ≠ []) (hstart : isCanonicalDate row.start = true)
    (hend : row.end_ = []) (hdur : parseIntValue row.duration_days = some d) (hpos : 0 < d)
    (hlo : minCanonicalDay ≤ dayOf row.start - 2 * zoneLag rt)
    (hhi : dayOf row.start + d - 1 ≤ maxCanonicalDay) :
    (importRow rt st row).2 = false ∧
    ∃ id topicId, (importRow rt st row).1.project.tasks = st.project.tasks ++
      [⟨id, topicId, row.title, row.desc, isoOfDay (dayOf row.start - zoneLag rt),
        isoOfDay (dayOf row.start + d - 1 - 2 * zoneLag rt)⟩] := by
  obtain ⟨hs, hs0, hs1⟩ := isoOfDay_dayOf hstart
  obtain ⟨l0, l1⟩ := zoneLag_bounds rt
  have hne := canonical_ne_nil hstart
  have hfin : numberIsFinite (some d) = true := by
    simp only [numberIsFinite, decide_eq_true_eq]
    have : d.natAbs < 4000000 := by
      simp only [minCanonicalDay, maxCanonicalDay] at *
      omega
    exact lt_trans this (by decide)
  have hres : rowResolvable row = true := by
    unfold rowResolvable
    rw [hdur, hfin]
    cases h1 : row.title with
    | nil => exact absurd h1 htitle
    | cons _ _ =>
      cases h2 : row.start with
      | nil => exact absurd h2 hne
      | cons _ _ => simp [hpos]
  have hre : resolveEnd rt row
      = some (isoOfDay (dayOf row.start + (d - 1) - zoneLag rt)) := by
    unfold resolveEnd
    simp only [hdur, hfin, hend, Option.getD_some, hpos, decide_True, Bool.and_true,
      List.isEmpty_nil]
    cases h2 : row.start with
    | nil => exact absurd h2 hne
    | cons c cs =>
      simp only [List.isEmpty_cons, Bool.not_false, if_true]
      rw [← h2, hs]
      rw [dayOf_isoOfDay _ hs0 hs1]
      exact addDays_isoOfDay rt hz _ _ hs0 hs1 (by omega) (by omega)
  have h1 : toISODate rt (DateArg.ofString row.start)
      = some (isoOfDay (dayOf row.start - zoneLag rt)) := by
    conv_lhs => rw [hs]
    exact toISODate_isoOfDay rt hz _ (by omega) hs1
  have h2 : toISODate rt (DateArg.ofString (isoOfDay (dayOf row.start + (d - 1) - zoneLag rt)))
      = some (isoOfDay (dayOf row.start + (d - 1) - zoneLag rt - zoneLag rt)) :=
    toISODate_isoOfDay rt hz _ (by omega) (by omega)
  obtain ⟨a1, a2, -⟩ := importRow_add rt st row _ _ _ hres hre h1 h2
  refine ⟨a1, rt.randomUUID (resolveTopic rt st row).1.uuids, (resolveTopic rt st row).2, ?_⟩
  rw [a2]
  have e : dayOf row.start + (d - 1) - zoneLag rt - zoneLag rt
      = dayOf row.start + d - 1 - 2 * zoneLag rt := by omega
  rw [e]

/-- The loop of `buildDATES` from a local midnight: one date per turn, the UTC
days of the successive local midnights. -/
theorem buildDATESLoop_spec (rt : Runtime) (n : Nat) (t : Int) (out : List Str)
    (hm : (t + rt.localTZA) % msPerDay = 0)
    (h0 : minCanonicalDay ≤ t / msPerDay) (h1 : t / msPerDay + n ≤ maxCanonicalDay + 1) :
    buildDATESLoop rt n (some t) (some (t + (n - 1) * msPerDay)) out
      = Outcome.done (out ++ (List.range n).map (fun i : Nat => isoOfDay (t / msPerDay + (i : Int)))) := by
  induction n generalizing t out with
  | zero =>
    simp only [buildDATESLoop, Nat.cast_zero, zero_sub, List.range_zero, List.map_nil,
      List.append_nil]
    rw [if_neg]
    simp only [msPerDay]
    omega
  | succ n ih =>
    have hle : t ≤ t + ((n + 1 : Nat) - 1) * msPerDay := by
      simp only [msPerDay]; push_cast; omega
    have hset : setHours0 rt (some t) = some t := by
      simp only [setHours0, localDay]
      have e : (t + rt.localTZA) / msPerDay * msPerDay - rt.localTZA = t := by
        simp only [msPerDay] at *; omega
      rw [e]
      unfold timeClip
      rw [if_pos]
      simp only [maxTime, msPerDay, minCanonicalDay, maxCanonicalDay] at *
      constructor <;> omega
    have hclip : timeClip (t + 1 * msPerDay) = some (t + msPerDay) := by
      rw [one_mul]
      unfold timeClip
      rw [if_pos]
      simp only [maxTime, msPerDay, minCanonicalDay, maxCanonicalDay] at *
      constructor <;> omega
    simp only [buildDATESLoop, if_pos hle, hset, setDate_getDate_add, hclip]
    have hnext := ih (t + msPerDay) (out ++ [(toISOString t).take 10])
      (by simp only [msPerDay] at *; omega)
      (by simp only [msPerDay] at *; omega)
      (by simp only [msPerDay] at *; push_cast at *; omega)
    have hend : t + msPerDay + ((n : Int) - 1) * msPerDay = t + (((n + 1 : Nat) : Int) - 1) * msPerDay := by
      push_cast; ring
    rw [hend] at hnext
    rw [hnext, take_toISOString t h0 (by push_cast at h1; omega)]
    simp only [List.append_assoc, List.singleton_append, Outcome.done.injEq,
      List.append_cancel_left_eq]
    rw [List.range_succ_eq_map]
    simp only [List.map_cons, Nat.cast_zero, add_zero, List.map_map, List.cons.injEq, true_and]
    apply List.map_congr_left
    intro i _
    simp only [Function.comp, msPerDay]
    congr 1
    push_cast
    omega

/-- What `buildDATES` returns for canonical bounds `min <= max`, in any zone: it
ends (the turns allowed are enough) with one date for each day from `min` to
`max`; the dates are those days less the lag of the zone. When local time is UTC
the list is `min`, `min + 1`, ..., `max`. -/
theorem buildDATES_zone (rt : Runtime) (hz : zoneOk rt) (a b : Int)
    (ha : minCanonicalDay ≤ a - zoneLag rt) (hab : a ≤ b) (hb : b ≤ maxCanonicalDay) :
    buildDATES rt (isoOfDay a) (isoOfDay b)
      = Outcome.done ((List.range (b - a + 1).toNat).map
          (fun i : Nat => isoOfDay (a - zoneLag rt + (i : Int)))) := by
  obtain ⟨l0, l1⟩ := zoneLag_bounds rt
  obtain ⟨ta, hta, hma, hda, -⟩ := parseISODate_isoOfDay rt hz a (by omega) (by omega)
  obtain ⟨tb, htb, hmb, hdb, -⟩ := parseISODate_isoOfDay rt hz b (by omega) hb
  have htb' : tb = ta + (((b - a + 1).toNat : Int) - 1) * msPerDay := by
    have : ((b - a + 1).toNat : Int) = b - a + 1 := Int.toNat_of_nonneg (by omega)
    rw [this]
    simp only [msPerDay] at *
    omega
  have hfuel : buildDATESFuel (some ta) (some tb) = (b - a + 1).toNat := by
    simp only [buildDATESFuel]
    congr 1
    simp only [msPerDay] at *
    omega
  unfold buildDATES
  simp only [hta, htb, hfuel]
  rw [htb', buildDATESLoop_spec rt _ ta [] hma (by omega) (by
    have : ((b - a + 1).toNat : Int) = b - a + 1 := Int.toNat_of_nonneg (by omega)
    omega)]
  simp only [List.nil_append, hda]

theorem foldl_min_spec (tasks : List Task) (f : Task → Int) (a : Int) :
    tasks.foldl (fun acc t => min acc (f t)) a ≤ a ∧
    (∀ t ∈ tasks, tasks.foldl (fun acc t => min acc (f t)) a ≤ f t) ∧
    (tasks.foldl (fun acc t => min acc (f t)) a = a ∨
      ∃ t ∈ tasks, tasks.foldl (fun acc t => min acc (f t)) a = f t) := by
  induction tasks generalizing a with
  | nil => simp
  | cons t ts ih =>
    obtain ⟨h1, h2, h3⟩ := ih (min a (f t))
    simp only [List.foldl_cons, List.mem_cons, forall_eq_or_imp, exists_eq_or_imp]
    refine ⟨by omega, ⟨by omega, h2⟩, ?_⟩
    rcases h3 with h | ⟨x, hx, h⟩
    · rcases min_choice a (f t) with hm | hm
      · left; rw [h, hm]
      · right; left; rw [h, hm]
    · right; right; exact ⟨x, hx, h⟩

theorem foldl_max_spec (tasks : List Task) (f : Task → Int) (a : Int) :
    a ≤ tasks.foldl (fun acc t => max acc (f t)) a ∧
    (∀ t ∈ tasks, f t ≤ tasks.foldl (fun acc t => max acc (f t)) a) ∧
    (tasks.foldl (fun acc t => max acc (f t)) a = a ∨
      ∃ t ∈ tasks, tasks.foldl (fun acc t => max acc (f t)) a = f t) := by
  induction tasks generalizing a with
  | nil => simp
  | cons t ts ih =>
    obtain ⟨h1, h2, h3⟩ := ih (max a (f t))
    simp only [List.foldl_cons, List.mem_cons, forall_eq_or_imp, exists_eq_or_imp]
    refine ⟨by omega, ⟨by omega, h2⟩, ?_⟩
    rcases h3 with h | ⟨x, hx, h⟩
    · rcases max_choice a (f t) with hm | hm
      · left; rw [h, hm]
      · right; left; rw [h, hm]
    · right; right; exact ⟨x, hx, h⟩

/-- The scan of `computeDateRange` over tasks with canonical dates keeps the
earliest start and the latest end. -/
theorem scanMinMax_canonical (tasks : List Task) (a b : Int)
    (hall : ∀ t ∈ tasks, isCanonicalDate t.start = true ∧ isCanonicalDate t.end_ = true)
    (ha0 : minCanonicalDay ≤ a) (ha1 : a ≤ maxCanonicalDay)
    (hb0 : minCanonicalDay ≤ b) (hb1 : b ≤ maxCanonicalDay) :
    scanMinMax tasks (isoOfDay a) (isoOfDay b)
      = (isoOfDay (tasks.foldl (fun acc t => min acc (dayOf t.start)) a),
         isoOfDay (tasks.foldl (fun acc t => max acc (dayOf t.end_)) b)) := by
  induction tasks generalizing a b with
  | nil => rfl
  | cons t ts ih =>
    obtain ⟨hs, he⟩ := hall t (List.mem_cons_self _ _)
    obtain ⟨es, s0, s1⟩ := isoOfDay_dayOf hs
    obtain ⟨ee, e0, e1⟩ := isoOfDay_dayOf he
    have hsne : t.start.isEmpty = false := by
      cases h : t.start with
      | nil => exact absurd h (canonical_ne_nil hs)
      | cons _ _ => rfl
    have hene : t.end_.isEmpty = false := by
      cases h : t.end_ with
      | nil => exact absurd h (canonical_ne_nil he)
      | cons _ _ => rfl
    have hmin : (if (!t.start.isEmpty && strLt t.start (isoOfDay a)) = true then t.start
        else isoOfDay a) = isoOfDay (min a (dayOf t.start)) := by
      simp only [hsne, Bool.not_false, Bool.true_and]
      have := strLt_isoOfDay (dayOf t.start) a s0 s1 ha0 ha1
      rw [← es] at this
      split_ifs with h
      · rw [min_eq_right (le_of_lt (this.mp h))]
        exact es
      · rw [min_eq_left (not_lt.mp (fun hc => h (this.mpr hc)))]
    have hmax : (if (!t.end_.isEmpty && strLt (isoOfDay b) t.end_) = true then t.end_
        else isoOfDay b) = isoOfDay (max b (dayOf t.end_)) := by
      simp only [hene, Bool.not_false, Bool.true_and]
      have := strLt_isoOfDay b (dayOf t.end_) hb0 hb1 e0 e1
      rw [← ee] at this
      split_ifs with h
      · rw [max_eq_right (le_of_lt (this.mp h))]
        exact ee
      · rw [max_eq_left (not_lt.mp (fun hc => h (this.mpr hc)))]
    have hstep := ih (min a (dayOf t.start)) (max b (dayOf t.end_))
      (fun x hx => hall x (List.mem_cons_of_mem _ hx))
      (le_min ha0 s0) (le_trans (min_le_left _ _) ha1)
      (le_trans hb0 (le_max_left _ _)) (max_le hb1 e1)
    simp only [scanMinMax, List.foldl_cons] at hstep ⊢
    rw [hmin, hmax]
    exact hstep

/-- The window of `computeDateRange` for tasks with canonical dates, in any
zone. With `lo` the earliest start and `hi` the latest end: `min` is `lo - 2`
less the lag of the zone; `max` is `hi + 2` less the lag, or, when the span
`hi - lo + 5` is below `minDaysToFill`, `lo - 3 + minDaysToFill` less twice the
lag. -/
theorem computeDateRange_zone (rt : Runtime) (hz : zoneOk rt) (p : Project) (t0 : Task)
    (ts : List Task) (now : Int) (viewportW pxDay : Nat) (htasks : p.tasks = t0 :: ts)
    (hall : ∀ t ∈ p.tasks, isCanonicalDate t.start = true ∧ isCanonicalDate t.end_ = true)
    (hrange : ∀ t ∈ p.tasks, minCanonicalDay + 3 ≤ dayOf t.start ∧
      dayOf t.end_ + 2 ≤ maxCanonicalDay ∧
      dayOf t.start + minDaysToFill viewportW pxDay ≤ maxCanonicalDay) :
    ∃ lo hi, (∃ t ∈ p.tasks, dayOf t.start = lo) ∧ (∀ t ∈ p.tasks, lo ≤ dayOf t.start) ∧
      (∃ t ∈ p.tasks, dayOf t.end_ = hi) ∧ (∀ t ∈ p.tasks, dayOf t.end_ ≤ hi) ∧
      computeDateRange rt (some p) now viewportW pxDay
        = some (isoOfDay (lo - 2 - zoneLag rt),
            isoOfDay (if hi - lo + 5 < minDaysToFill viewportW pxDay
              then lo - 3 + minDaysToFill viewportW pxDay - 2 * zoneLag rt
              else hi + 2 - zoneLag rt)) := by
  obtain ⟨l0, l1⟩ := zoneLag_bounds rt
  have hfill : 30 ≤ minDaysToFill viewportW pxDay := le_max_left _ _
  rw [htasks] at hall hrange
  obtain ⟨hs0, he0⟩ := hall t0 (List.mem_cons_self _ _)
  obtain ⟨es, s0, s1⟩ := isoOfDay_dayOf hs0
  obtain ⟨ee, e0, e1⟩ := isoOfDay_dayOf he0
  obtain ⟨m1, m2, m3⟩ := foldl_min_spec (t0 :: ts) (fun t => dayOf t.start) (dayOf t0.start)
  obtain ⟨x1, x2, x3⟩ := foldl_max_spec (t0 :: ts) (fun t => dayOf t.end_) (dayOf t0.end_)
  have hscan := scanMinMax_canonical (t0 :: ts) (dayOf t0.start) (dayOf t0.end_) hall s0 s1 e0 e1
  rw [← es, ← ee] at hscan
  generalize hlo : (t0 :: ts).foldl (fun acc t => min acc (dayOf t.start)) (dayOf t0.start) = lo
    at *
  generalize hhi : (t0 :: ts).foldl (fun acc t => max acc (dayOf t.end_)) (dayOf t0.end_) = hi
    at *
  have hloMem : ∃ t ∈ t0 :: ts, dayOf t.start = lo := by
    rcases m3 with h | ⟨t, ht, h⟩
    · exact ⟨t0, List.mem_cons_self _ _, h.symm⟩
    · exact ⟨t, ht, h.symm⟩
  have hhiMem : ∃ t ∈ t0 :: ts, dayOf t.end_ = hi := by
    rcases x3 with h | ⟨t, ht, h⟩
    · exact ⟨t0, List.mem_cons_self _ _, h.symm⟩
    · exact ⟨t, ht, h.symm⟩
  obtain ⟨tl, htl, hltl⟩ := hloMem
  obtain ⟨th, hth, hhth⟩ := hhiMem
  obtain ⟨r1, -, r3⟩ := hrange tl htl
  obtain ⟨-, q2, -⟩ := hrange th hth
  obtain ⟨hcl, -⟩ := hall tl htl
  obtain ⟨-, hch⟩ := hall th hth
  obtain ⟨-, cl0, cl1⟩ := isoOfDay_dayOf hcl
  obtain ⟨-, ch0, ch1⟩ := isoOfDay_dayOf hch
  rw [hltl] at r1 r3 cl0 cl1
  rw [hhth] at q2 ch0 ch1
  refine ⟨lo, hi, ?_, ?_, ?_, ?_, ?_⟩
  · rw [htasks]; exact ⟨tl, htl, hltl⟩
  · rw [htasks]; exact m2
  · rw [htasks]; exact ⟨th, hth, hhth⟩
  · rw [htasks]; exact x2
  · have hmin := addDays_isoOfDay rt hz lo (-2) cl0 cl1 (by omega) (by omega)
    have hmax := addDays_isoOfDay rt hz hi 2 ch0 ch1 (by omega) (by omega)
    have hdiff := diffDays_isoOfDay rt hz (lo + -2 - zoneLag rt) (hi + 2 - zoneLag rt)
      (by omega) (by omega) (by omega) (by omega)
    simp only [computeDateRange, htasks, Option.map_some', hscan, hmin, hmax, hdiff]
    have e1 : hi + 2 - zoneLag rt - (lo + -2 - zoneLag rt) + 1 = hi - lo + 5 := by omega
    rw [e1]
    split_ifs with hlt
    · have hext := addDays_isoOfDay rt hz (hi + 2 - zoneLag rt)
        (minDaysToFill viewportW pxDay - (hi - lo + 5)) (by omega) (by omega) (by omega)
        (by omega)
      rw [hext]
      simp only [Option.map_some', Option.some.injEq, Prod.mk.injEq]
      constructor
      · congr 1
      · congr 1
        omega
    · simp only [Option.some.injEq, Prod.mk.injEq]
      constructor
      · congr 1
      · trivial

/-- When local time is UTC, for tasks with canonical dates `computeDateRange`
returns `min` two days before the earliest start `lo` and a `max` at least two
days after the latest end `hi`, with an inclusive span `diffDays(min,max) + 1`
of at least `minDaysToFill`. -/
theorem computeDateRange_utc (rt : Runtime) (hutc : rt.localTZA = 0) (p : Project) (t0 : Task)
    (ts : List Task) (now : Int) (viewportW pxDay : Nat) (htasks : p.tasks = t0 :: ts)
    (hall : ∀ t ∈ p.tasks, isCanonicalDate t.start = true ∧ isCanonicalDate t.end_ = true)
    (hrange : ∀ t ∈ p.tasks, minCanonicalDay + 3 ≤ dayOf t.start ∧
      dayOf t.end_ + 2 ≤ maxCanonicalDay ∧
      dayOf t.start + minDaysToFill viewportW pxDay ≤ maxCanonicalDay) :
    ∃ lo hi top, (∃ t ∈ p.tasks, dayOf t.start = lo) ∧ (∀ t ∈ p.tasks, lo ≤ dayOf t.start) ∧
      (∃ t ∈ p.tasks, dayOf t.end_ = hi) ∧ (∀ t ∈ p.tasks, dayOf t.end_ ≤ hi) ∧
      computeDateRange rt (some p) now viewportW pxDay
        = some (isoOfDay (lo - 2), isoOfDay top) ∧
      hi + 2 ≤ top ∧
      diffDays rt (isoOfDay (lo - 2)) (isoOfDay top) = some (top - (lo - 2)) ∧
      minDaysToFill viewportW pxDay ≤ top - (lo - 2) + 1 := by
  have hlag : zoneLag rt = 0 := by simp [zoneLag, hutc]
  have hzone : zoneOk rt := by
    unfold zoneOk
    rw [hutc]
    decide
  obtain ⟨lo, hi, c1, c2, c3, c4, c5⟩ :=
    computeDateRange_zone rt hzone p t0 ts now viewportW pxDay htasks hall hrange
  rw [hlag] at c5
  obtain ⟨tl, htl, hltl⟩ := c1
  obtain ⟨th, hth, hhth⟩ := c3
  obtain ⟨r1, -, r3⟩ := hrange tl htl
  obtain ⟨-, q2, -⟩ := hrange th hth
  obtain ⟨-, hch⟩ := hall th hth
  obtain ⟨-, ch0, -⟩ := isoOfDay_dayOf hch
  rw [hltl] at r1 r3
  rw [hhth] at q2 ch0
  have hfill : 30 ≤ minDaysToFill viewportW pxDay := le_max_left _ _
  refine ⟨lo, hi, if hi - lo + 5 < minDaysToFill viewportW pxDay
      then lo - 3 + minDaysToFill viewportW pxDay else hi + 2,
    ⟨tl, htl, hltl⟩, c2, ⟨th, hth, hhth⟩, c4, ?_, ?_, ?_, ?_⟩
  · rw [c5]
    simp
  · split_ifs <;> omega
  · apply diffDays_isoOfDay rt hzone
    · omega
    · omega
    · split_ifs <;> omega
    · split_ifs <;> omega
  · split_ifs <;> omega

/-- When local time is UTC, for canonical dates `min <= max`, `buildDATES` ends
with the list of the calendar dates `min`, `min + 1 day`, ..., `max`: its length
is `diffDays(min,max) + 1`, its first element is `min`, its last element is
`max`, and its element `i` is `addDays(element 0, i)`. -/
theorem buildDATES_utc (rt : Runtime) (hutc : rt.localTZA = 0) (minISO maxISO : Str)
    (hmin : isCanonicalDate minISO = true) (hmax : isCanonicalDate maxISO = true)
    (hle : dayOf minISO ≤ dayOf maxISO) :
    ∃ dates, buildDATES rt minISO maxISO = Outcome.done dates ∧
      diffDays rt minISO maxISO = some ((dates.length : Int) - 1) ∧
      dates.head? = some minISO ∧ dates.getLast? = some maxISO ∧
      ∀ i : Nat, i < dates.length → ∃ x, dates[i]? = some x ∧ dates[0]? = some minISO ∧
        addDays rt minISO (i : Int) = some x ∧
        x = isoOfDay (dayOf minISO + (i : Int)) := by
  have hlag : zoneLag rt = 0 := by simp [zoneLag, hutc]
  have hzone : zoneOk rt := by
    unfold zoneOk
    rw [hutc]
    decide
  obtain ⟨ea, a0, a1⟩ := isoOfDay_dayOf hmin
  obtain ⟨eb, b0, b1⟩ := isoOfDay_dayOf hmax
  generalize dayOf minISO = a at *
  generalize dayOf maxISO = b at *
  subst ea eb
  have hn : (((b - a + 1).toNat : Nat) : Int) = b - a + 1 := Int.toNat_of_nonneg (by omega)
  have hpos : 0 < (b - a + 1).toNat := by omega
  have hb := buildDATES_zone rt hzone a b (by rw [hlag]; simpa using a0) hle b1
  simp only [hlag, sub_zero] at hb
  refine ⟨_, hb, ?_, ?_, ?_, ?_⟩
  · rw [diffDays_isoOfDay rt hzone a b a0 a1 b0 b1]
    simp only [List.length_map, List.length_range, hn]
    congr 1
    omega
  · obtain ⟨k, hk⟩ := Nat.exists_eq_succ_of_ne_zero (Nat.pos_iff_ne_zero.mp hpos)
    rw [hk, List.range_succ_eq_map]
    simp
  · obtain ⟨k, hk⟩ := Nat.exists_eq_succ_of_ne_zero (Nat.pos_iff_ne_zero.mp hpos)
    have hkb : a + (k : Int) = b := by
      have : ((k.succ : Nat) : Int) = b - a + 1 := by rw [← hk]; exact hn
      push_cast at this
      omega
    rw [hk, List.range_succ, List.map_append]
    simp [hkb]
  · intro i hi
    simp only [List.length_map, List.length_range] at hi
    refine ⟨isoOfDay (a + (i : Int)), ?_, ?_, ?_, rfl⟩
    · simp [List.getElem?_map, List.getElem?_range hi]
    · simp [List.getElem?_map, List.getElem?_range hpos]
    · have := addDays_isoOfDay rt hzone a (i : Int) a0 a1 (by rw [hlag]; omega)
        (by rw [hlag]; omega)
      rw [hlag] at this
      simpa using this

/-- Other ways the round trip changes the tuples, each at a one-task or two-task
project exported and imported into the example empty project. When local time
is UTC: a title with white space at its ends comes back trimmed; a task without
title is dropped; of two topic names with the same slug the second is replaced
by the first. Two hours east of UTC: the dates come back one day earlier. -/
theorem csv_round_trip_losses :
    (importCSV utcHost emptyProject 0 (buildCSV utcHost ⟨"P".toList, [DEFAULT_TOPIC],
      [⟨"1".toList, "unassigned".toList, " T ".toList, [], "2024-01-10".toList,
        "2024-01-12".toList⟩]⟩)).project.tasks.map (fun t => t.title) = ["T".toList] ∧
    (importCSV utcHost emptyProject 0 (buildCSV utcHost ⟨"P".toList, [DEFAULT_TOPIC],
      [⟨"1".toList, "unassigned".toList, [], [], "2024-01-10".toList,
        "2024-01-12".toList⟩]⟩)).project.tasks = [] ∧
    (importCSV utcHost emptyProject 0 (buildCSV utcHost ⟨"P".toList,
      [DEFAULT_TOPIC, ⟨"foo".toList, "Foo".toList, []⟩, ⟨"x".toList, "FOO".toList, []⟩],
      [⟨"1".toList, "foo".toList, "A".toList, [], "2024-01-10".toList, "2024-01-12".toList⟩,
       ⟨"2".toList, "x".toList, "B".toList, [], "2024-01-10".toList,
        "2024-01-12".toList⟩]⟩)).project.tasks.map
      (fun t => topicNameOf (importCSV utcHost emptyProject 0 (buildCSV utcHost ⟨"P".toList,
        [DEFAULT_TOPIC, ⟨"foo".toList, "Foo".toList, []⟩, ⟨"x".toList, "FOO".toList, []⟩],
        [⟨"1".toList, "foo".toList, "A".toList, [], "2024-01-10".toList, "2024-01-12".toList⟩,
         ⟨"2".toList, "x".toList, "B".toList, [], "2024-01-10".toList,
          "2024-01-12".toList⟩]⟩)).project.topics t.topicId)
      = ["Foo".toList, "Foo".toList] ∧
    (importCSV utcPlus2Host emptyProject 0 (buildCSV utcPlus2Host ⟨"P".toList, [DEFAULT_TOPIC],
      [⟨"1".toList, "unassigned".toList, "T".toList, [], "2024-01-10".toList,
        "2024-01-12".toList⟩]⟩)).project.tasks.map (fun t => (t.start, t.end_))
      = [("2024-01-09".toList, "2024-01-11".toList)] := by
  refine ⟨by decide, by decide, by decide, by decide⟩

/-- C4 (counterexample): a row with a title, the start 2024-01-10, no end and
the duration 200000000 days, which parses to a positive integer. The end it
gives lies beyond the range of `Date`, so `addDays` throws: the import ends with
an error and no task is added. -/
theorem applyImportedTasks_duration_overflow :
    rowResolvable ⟨[], "A".toList, "2024-01-10".toList, [], "200000000".toList, []⟩ = true ∧
    rowDatesValid utcHost ⟨[], "A".toList, "2024-01-10".toList, [], "200000000".toList, []⟩
      = false ∧
    (applyImportedTasks utcHost emptyProject 0
      [⟨[], "A".toList, "2024-01-10".toList, [], "200000000".toList, []⟩]).threw = true ∧
    isCanonicalDate "2024-01-10".toList = true ∧
    parseIntValue "200000000".toList = some 200000000 ∧
    (applyImportedTasks utcHost emptyProject 0
      [⟨[], "A".toList, "2024-01-10".toList, [], "200000000".toList, []⟩]).project.tasks
      = [] := by
  decide

/-- Two topics with the same id, which the data model excludes, share one group:
`buildTaskGroups` has one group per distinct topic id. -/
theorem buildTaskGroups_duplicate_topic_ids :
    (buildTaskGroups utcHost ⟨"P".toList,
      [DEFAULT_TOPIC, ⟨"a".toList, "A".toList, []⟩, ⟨"a".toList, "A2".toList, []⟩], []⟩).map
      Prod.fst = ["unassigned".toList, "a".toList] := by
  decide

/-! ## Week segments, duration and the default window, by zone -/

/-- C11 (the code at the failing input): `DATES` is 2024-01-07 (a Sunday),
2024-01-08 (a Monday), 2024-01-09 (a Tuesday). When local time is UTC the
segments are `[0,1)` of week 1 and `[1,3)` of week 2. Five hours west of UTC
they are `[0,2)` of week 1 and `[2,3)` of week 2: the first holds a Sunday and
the Monday after it, the second starts on the Tuesday. -/
theorem buildWEEKS_by_zone :
    buildWEEKS utcHost ["2024-01-07".toList, "2024-01-08".toList, "2024-01-09".toList]
      = [⟨some 1, 0, 1⟩, ⟨some 2, 1, 3⟩] ∧
    buildWEEKS utcMinus5Host ["2024-01-07".toList, "2024-01-08".toList, "2024-01-09".toList]
      = [⟨some 1, 0, 2⟩, ⟨some 2, 2, 3⟩] ∧
    weekDay (dayOf "2024-01-07".toList) = 0 ∧ weekDay (dayOf "2024-01-08".toList) = 1 ∧
    weekDay (dayOf "2024-01-09".toList) = 2 ∧
    isoWeekNumber (dayOf "2024-01-07".toList) = 1 ∧
    isoWeekNumber (dayOf "2024-01-08".toList) = 2 := by
  decide

/-- C15 (the code at the failing input): start 2024-01-10 and a duration of 3
days. When local time is UTC `addDays(start, 2)` is 2024-01-12 and `buildCSV`
writes the duration 3; two hours east of UTC `addDays(start, 2)` is 2024-01-11,
`diffDays(start, end) + 1` is 2 and `buildCSV` writes 2. -/
theorem duration_by_zone :
    addDays utcHost "2024-01-10".toList 2 = some "2024-01-12".toList ∧
    durationCell utcHost ⟨[], [], [], [], "2024-01-10".toList, "2024-01-12".toList⟩ = "3".toList ∧
    addDays utcPlus2Host "2024-01-10".toList 2 = some "2024-01-11".toList ∧
    diffDays utcPlus2Host "2024-01-10".toList "2024-01-11".toList = some 1 ∧
    durationCell utcPlus2Host ⟨[], [], [], [], "2024-01-10".toList, "2024-01-11".toList⟩
      = "2".toList := by
  decide

/-- C19 (the code at the failing input): no project, and `now` is
2024-01-10T10:00:00Z, so that today is 2024-01-10 in UTC and two hours east of
it. When local time is UTC the window is 2023-12-26 .. 2024-02-24; two hours
east of UTC it is 2023-12-25 .. 2024-02-23, from 16 days before today to 44
days after it. -/
theorem computeDateRange_empty_by_zone :
    dayOf "2024-01-10".toList * msPerDay + 36000000 = 1704880800000 ∧
    computeDateRange utcHost none 1704880800000 0 26
      = some ("2023-12-26".toList, "2024-02-24".toList) ∧
    computeDateRange utcPlus2Host none 1704880800000 0 26
      = some ("2023-12-25".toList, "2024-02-23".toList) ∧
    computeDateRange utcPlus2Host (some emptyProject) 1704880800000 0 26
      = some ("2023-12-25".toList, "2024-02-23".toList) := by
  decide

/-- C14 (the code at the failing input): local time is UTC and the project has
no task. A row with start 2024-01-12 and end 2024-01-10 is imported, without an
error, as a task with these dates, the end two days before the start. The task
form with the same dates adds no task. -/
theorem import_end_before_start :
    (applyImportedTasks utcHost emptyProject 0
      [⟨[], "A".toList, "2024-01-12".toList, "2024-01-10".toList, [], []⟩]).project.tasks
      = [⟨"uuid-0".toList, "unassigned".toList, "A".toList, [], "2024-01-12".toList,
          "2024-01-10".toList⟩] ∧
    (applyImportedTasks utcHost emptyProject 0
      [⟨[], "A".toList, "2024-01-12".toList, "2024-01-10".toList, [], []⟩]).threw = false ∧
    ¬ taskOrdered ⟨"uuid-0".toList, "unassigned".toList, "A".toList, [], "2024-01-12".toList,
      "2024-01-10".toList⟩ ∧
    (addTask utcHost emptyProject 0
      ⟨[], "A".toList, [], "2024-01-12".toList, "2024-01-10".toList, []⟩).1.tasks = [] := by
  decide

/-- Two hours east of UTC a row with start 2024-01-10 and a duration of 1 day is
imported as a task from 2024-01-09 to 2024-01-08, and the task form with the
same start and duration adds no task: the end it derives, 2024-01-09, is before
the start. -/
theorem duration_one_east_of_utc :
    (applyImportedTasks utcPlus2Host emptyProject 0
      [⟨[], "A".toList, "2024-01-10".toList, [], "1".toList, []⟩]).project.tasks
      = [⟨"uuid-0".toList, "unassigned".toList, "A".toList, [], "2024-01-09".toList,
          "2024-01-08".toList⟩] ∧
    formEnd utcPlus2Host ⟨[], "A".toList, [], "2024-01-10".toList, [], "1".toList⟩
      = some "2024-01-09".toList ∧
    (addTask utcPlus2Host emptyProject 0
      ⟨[], "A".toList, [], "2024-01-10".toList, [], "1".toList⟩).1.tasks = [] ∧
    (addTask utcHost emptyProject 0
      ⟨[], "A".toList, [], "2024-01-10".toList, [], "1".toList⟩).1.tasks
      = [⟨"uuid-0".toList, "unassigned".toList, "A".toList, [], "2024-01-10".toList,
          "2024-01-10".toList⟩] := by
  decide

/-- The week number of a date in the years 0000 to 0099: `Date.UTC` reads such a
year as 1900 + year, so `weekNum` numbers the week of the same day and month in
the twentieth century. When local time is UTC, the one-day window 0050-01-02, a
Sunday of ISO week 52, gets the week number 1 of Monday 1950-01-02. -/
theorem buildWEEKS_two_digit_year :
    buildWEEKS utcHost ["0050-01-02".toList] = [⟨some 1, 0, 1⟩] ∧
    weekDay (dayOf "0050-01-02".toList) = 0 ∧
    isoWeekNumber (dayOf "0050-01-02".toList) = 52 ∧
    weekDay (dayOf "1950-01-02".toList) = 1 ∧
    isoWeekNumber (dayOf "1950-01-02".toList) = 1 := by
  decide

/-! ## Editing a project -/

theorem updateFirst_length {α : Type} (p : α → Bool) (f : α → α) (l : List α) :
    (updateFirst p f l).length = l.length := by
  induction l with
  | nil => rfl
  | cons x xs ih =>
    unfold updateFirst
    split_ifs
    · simp
    · simp [ih]

/-- Every element of the list is found again after `updateFirst`, changed by `f`
or not. -/
theorem updateFirst_mem {α : Type} (p : α → Bool) (f : α → α) (l : List α) (x : α)
    (hx : x ∈ l) : x ∈ updateFirst p f l ∨ f x ∈ updateFirst p f l := by
  induction l with
  | nil => exact absurd hx (List.not_mem_nil _)
  | cons y ys ih =>
    unfold updateFirst
    rcases List.mem_cons.mp hx with h | h
    · subst h
      split_ifs
      · right; exact List.mem_cons_self _ _
      · left; exact List.mem_cons_self _ _
    · split_ifs
      · left; exact List.mem_cons_of_mem _ h
      · rcases ih h with h1 | h1
        · left; exact List.mem_cons_of_mem _ h1
        · right; exact List.mem_cons_of_mem _ h1

/-- Every element after `updateFirst` is an element of the list, changed by `f`
or not. -/
theorem mem_updateFirst {α : Type} (p : α → Bool) (f : α → α) (l : List α) (x : α)
    (hx : x ∈ updateFirst p f l) : x ∈ l ∨ ∃ y ∈ l, p y = true ∧ x = f y := by
  induction l with
  | nil => exact absurd hx (List.not_mem_nil _)
  | cons y ys ih =>
    unfold updateFirst at hx
    split_ifs at hx with hp
    · rcases List.mem_cons.mp hx with h | h
      · right; exact ⟨y, List.mem_cons_self _ _, hp, h⟩
      · left; exact List.mem_cons_of_mem _ h
    · rcases List.mem_cons.mp hx with h | h
      · left; rw [h]; exact List.mem_cons_self _ _
      · rcases ih h with h1 | ⟨z, hz, hpz, hxz⟩
        · left; exact List.mem_cons_of_mem _ h1
        · right; exact ⟨z, List.mem_cons_of_mem _ hz, hpz, hxz⟩

theorem topicById_some {project : Project} {id : Str} (h : ∃ t ∈ project.topics, t.id = id) :
    ∃ t, topicById project id = some t := by
  obtain ⟨t, ht, hid⟩ := h
  unfold topicById
  cases hf : project.topics.find? (fun t => t.id == id) with
  | some x => exact ⟨x, rfl⟩
  | none =>
    rw [List.find?_eq_none] at hf
    exact absurd (by simpa using hid) (hf t ht)

/-- With distinct ids, removing the topics of one id removes one topic. -/
theorem filter_id_split (topics : List Topic) (id : Str)
    (hnd : (topics.map (fun t => t.id)).Nodup) (hex : ∃ t ∈ topics, t.id = id) :
    ∃ pre t post, topics = pre ++ t :: post ∧ t.id = id ∧
      topics.filter (fun x => x.id != id) = pre ++ post := by
  induction topics with
  | nil => obtain ⟨t, ht, -⟩ := hex; exact absurd ht (List.not_mem_nil _)
  | cons a as ih =>
    rw [List.map_cons, List.nodup_cons] at hnd
    by_cases ha : a.id = id
    · refine ⟨[], a, as, rfl, ha, ?_⟩
      have hrest : as.filter (fun x => x.id != id) = as := by
        rw [List.filter_eq_self]
        intro x hx
        have : x.id ≠ id := by
          intro hxid
          exact hnd.1 (List.mem_map.mpr ⟨x, hx, by rw [hxid, ha]⟩)
        simpa using this
      rw [List.filter_cons]
      simp [ha, hrest]
    · have hex' : ∃ t ∈ as, t.id = id := by
        obtain ⟨t, ht, hid⟩ := hex
        rcases List.mem_cons.mp ht with h | h
        · subst h; exact absurd hid ha
        · exact ⟨t, h, hid⟩
      obtain ⟨pre, t, post, h1, h2, h3⟩ := ih hnd.2 hex'
      refine ⟨a :: pre, t, post, by rw [h1]; rfl, h2, ?_⟩
      rw [List.filter_cons]
      simp [ha, h3]

/-- C12: deleting, with confirmation, a topic that exists and is not the sentinel
keeps every task in its place with its id, title, description, start and end;
the `topicId` becomes "unassigned" for the tasks that had the deleted id and
stays what it was for the others. The topics left are the topics of another
id, in their order; when ids are distinct, exactly the one topic is removed. A
delete or an update request for the sentinel leaves the project as it was. -/
theorem deleteTopic_spec (project : Project) (id : Str) (hid : id ≠ DEFAULT_TOPIC.id)
    (hex : ∃ t ∈ project.topics, t.id = id) :
    List.Forall₂
      (fun t t1 : Task => t1.id = t.id ∧ t1.title = t.title ∧ t1.desc = t.desc ∧
        t1.start = t.start ∧ t1.end_ = t.end_ ∧
        t1.topicId = if t.topicId = id then DEFAULT_TOPIC.id else t.topicId)
      project.tasks (deleteTopic project id true).tasks ∧
    (∀ t ∈ project.tasks, t.topicId ≠ id → t ∈ (deleteTopic project id true).tasks) ∧
    (deleteTopic project id true).topics = project.topics.filter (fun x => x.id != id) ∧
    ((project.topics.map (fun t => t.id)).Nodup →
      ∃ pre t post, project.topics = pre ++ t :: post ∧ t.id = id ∧
        (deleteTopic project id true).topics = pre ++ post) ∧
    (∀ confirmed, deleteTopic project DEFAULT_TOPIC.id confirmed = project) ∧
    (∀ nameInput colorInput, updateTopic project DEFAULT_TOPIC.id nameInput colorInput
      = project) := by
  obtain ⟨t0, h0⟩ := topicById_some hex
  have hdel : deleteTopic project id true =
      { project with
        tasks := project.tasks.map
          (fun tsk => if tsk.topicId = id then { tsk with topicId := DEFAULT_TOPIC.id } else tsk)
        topics := project.topics.filter (fun x => x.id != id) } := by
    unfold deleteTopic
    rw [if_neg hid, h0]
    rfl
  rw [hdel]
  refine ⟨?_, ?_, rfl, ?_, ?_, ?_⟩
  · simp only
    rw [List.forall₂_map_right_iff]
    apply List.forall₂_same.mpr
    intro t _
    by_cases h : t.topicId = id <;> simp [h]
  · intro t ht hne
    simp only
    exact List.mem_map.mpr ⟨t, ht, by simp [hne]⟩
  · intro hnd
    exact filter_id_split project.topics id hnd hex
  · intro confirmed
    unfold deleteTopic
    rw [if_pos rfl]
  · intro nameInput colorInput
    unfold updateTopic
    cases topicById project DEFAULT_TOPIC.id with
    | none => rfl
    | some t => simp

/-- C12 (witness): deleting the topic "home" of the sample project. -/
theorem deleteTopic_spec_witness :
    "home".toList ≠ DEFAULT_TOPIC.id ∧ (∃ t ∈ sampleProject.topics, t.id = "home".toList) ∧
    (deleteTopic sampleProject "home".toList true).topics
      = sampleProject.topics.filter (fun x => x.id != "home".toList) :=
  ⟨by decide, by decide,
    (deleteTopic_spec sampleProject "home".toList (by decide) (by decide)).2.2.1⟩

/-- C18: with `totalW() = daysCount() * pxDay`, the cell of index 0 ends at the
right edge, `cellLeft(0) + pxDay = totalW()`, and the cell of the last index
starts at 0, `cellLeft(daysCount() - 1) = 0`. This holds for every list `DATES`
and every day width, so for a day count of at least 1 and a day width from 16
to 48. -/
theorem cellLeft_mirror (DATES : List Str) (pxDay : Int) :
    totalW DATES pxDay = daysCount DATES * pxDay ∧
    cellLeft DATES pxDay 0 + pxDay = totalW DATES pxDay ∧
    cellLeft DATES pxDay (daysCount DATES - 1) = 0 := by
  refine ⟨rfl, ?_, ?_⟩ <;> simp only [cellLeft, totalW, leftPx] <;> ring

/-! ## The sentinel topic -/

theorem hasSentinel_of_topics {p q : Project} (h : hasSentinel p) (hq : p.topics ⊆ q.topics) :
    hasSentinel q := by
  obtain ⟨t, ht, hid⟩ := h
  exact ⟨t, hq ht, hid⟩

theorem hasSentinel_normalizeProject (rt : Runtime) (p : StoredProject) (uuids : Nat) :
    hasSentinel (normalizeProject rt p uuids).1 := by
  unfold normalizeProject hasSentinel
  simp only
  by_cases hun : (p.topics.getD []).any (fun t => t.id == Stored.str DEFAULT_TOPIC.id) = true
  · rw [if_pos hun]
    obtain ⟨t, ht, hid⟩ := List.any_eq_true.mp hun
    have hid' : t.id = Stored.str DEFAULT_TOPIC.id := by simpa using hid
    refine ⟨_, List.mem_map_of_mem _ ht, ?_⟩
    simp only [hid']
    decide
  · rw [if_neg hun]
    refine ⟨_, List.mem_map_of_mem _ (List.mem_cons_self _ _), ?_⟩
    decide

theorem addTopic_topics (rt : Runtime) (project : Project) (uuids : Nat)
    (nameInput colorInput : Str) :
    project.topics ⊆ (addTopic rt project uuids nameInput colorInput).1.topics ∧
    (addTopic rt project uuids nameInput colorInput).1.tasks = project.tasks := by
  unfold addTopic
  simp only
  split_ifs
  · exact ⟨List.Subset.refl _, rfl⟩
  · exact ⟨List.Subset.refl _, rfl⟩
  · exact ⟨List.subset_append_left _ _, rfl⟩

theorem hasSentinel_updateTopic (project : Project) (id nameInput colorInput : Str)
    (h : hasSentinel project) : hasSentinel (updateTopic project id nameInput colorInput) := by
  unfold updateTopic
  cases topicById project id with
  | none => exact h
  | some t0 =>
    dsimp only
    by_cases hid : id = DEFAULT_TOPIC.id
    · rw [if_pos hid]; exact h
    · rw [if_neg hid]
      by_cases hn : (trim nameInput).isEmpty = true
      · rw [if_pos hn]; exact h
      · rw [if_neg hn]
        obtain ⟨t, ht, htid⟩ := h
        rcases updateFirst_mem (fun x => x.id == id)
          (fun x => { x with name := trim nameInput, color := strOr colorInput t0.color })
          project.topics t ht with h1 | h1
        · exact ⟨t, h1, htid⟩
        · exact ⟨_, h1, htid⟩

theorem hasSentinel_deleteTopic (project : Project) (id : Str) (confirmed : Bool)
    (h : hasSentinel project) : hasSentinel (deleteTopic project id confirmed) := by
  unfold deleteTopic
  by_cases hid : id = DEFAULT_TOPIC.id
  · rw [if_pos hid]; exact h
  · rw [if_neg hid]
    cases topicById project id with
    | none => exact h
    | some t0 =>
      dsimp only
      cases confirmed with
      | false => exact h
      | true =>
        obtain ⟨t, ht, htid⟩ := h
        refine ⟨t, ?_, htid⟩
        simp only [Bool.not_true, Bool.false_eq_true, if_false, List.mem_filter]
        refine ⟨ht, ?_⟩
        have : t.id ≠ id := by rw [htid]; exact fun e => hid e.symm
        simpa using this

theorem addTask_topics (rt : Runtime) (project : Project) (uuids : Nat) (f : TaskForm) :
    (addTask rt project uuids f).1.topics = project.topics := by
  unfold addTask
  simp only
  split_ifs
  · rfl
  · rfl
  · split
    · rfl
    · split_ifs <;> rfl

theorem updateTask_topics (rt : Runtime) (project : Project) (editingTaskId : Option Str)
    (f : TaskForm) : (updateTask rt project editingTaskId f).topics = project.topics := by
  unfold updateTask
  split
  · rfl
  · split_ifs
    · rfl
    · split
      · rfl
      · simp only
        split_ifs <;> rfl

theorem deleteTask_topics (project : Project) (taskId : Str) (confirmed : Bool) :
    (deleteTask project taskId confirmed).topics = project.topics := by
  unfold deleteTask
  split
  · rfl
  · split_ifs <;> rfl

theorem importCSV_topics (rt : Runtime) (project : Project) (uuids : Nat) (text : Str) :
    project.topics ⊆ (importCSV rt project uuids text).project.topics := by
  unfold importCSV applyImportedTasks
  exact (importRows_keeps rt (parseCSV text)
    ⟨project, JSMap.ofEntries (project.topics.map (fun t => (t.name, t.id))), uuids⟩).2.subset

theorem hasSentinel_applyOp (rt : Runtime) (project : Project) (uuids : Nat) (op : EditOp)
    (h : hasSentinel project) : hasSentinel (applyOp rt project uuids op).1 := by
  cases op with
  | addTopic n c => exact hasSentinel_of_topics h (addTopic_topics rt project uuids n c).1
  | updateTopic id n c => exact hasSentinel_updateTopic project id n c h
  | deleteTopic id c => exact hasSentinel_deleteTopic project id c h
  | addTask f =>
    exact hasSentinel_of_topics h (by
      show project.topics ⊆ (addTask rt project uuids f).1.topics
      rw [addTask_topics]; exact List.Subset.refl _)
  | updateTask e f =>
    exact hasSentinel_of_topics h (by
      show project.topics ⊆ (updateTask rt project e f).topics
      rw [updateTask_topics]; exact List.Subset.refl _)
  | deleteTask id c =>
    exact hasSentinel_of_topics h (by
      show project.topics ⊆ (deleteTask project id c).topics
      rw [deleteTask_topics]; exact List.Subset.refl _)
  | importCSV text => exact hasSentinel_of_topics h (importCSV_topics rt project uuids text)

theorem hasSentinel_applyOps (rt : Runtime) (ops : List EditOp) (st : Project × Nat)
    (h : hasSentinel st.1) : hasSentinel (applyOps rt st ops).1 := by
  induction ops generalizing st with
  | nil => exact h
  | cons op ops ih => exact ih _ (hasSentinel_applyOp rt st.1 st.2 op h)

/-- C13: the topics of `normalizeProject(p)` hold a topic with the id
"unassigned", for every stored document; each operation that changes the
project (add, update, delete topic; add, update, delete task; CSV import, also
one that ends with an error) keeps such a topic in a project that holds one; so
after loading a document and any sequence of operations the topic is there and
the list of topics is not empty. -/
theorem sentinel_invariant (rt : Runtime) :
    (∀ (p : StoredProject) (uuids : Nat), hasSentinel (normalizeProject rt p uuids).1) ∧
    (∀ (project : Project) (uuids : Nat) (op : EditOp), hasSentinel project →
      hasSentinel (applyOp rt project uuids op).1 ∧ (applyOp rt project uuids op).1.topics ≠ []) ∧
    (∀ (p : StoredProject) (uuids : Nat) (ops : List EditOp),
      hasSentinel (applyOps rt (normalizeProject rt p uuids) ops).1 ∧
      (applyOps rt (normalizeProject rt p uuids) ops).1.topics ≠ []) := by
  have hne : ∀ q : Project, hasSentinel q → q.topics ≠ [] := by
    intro q hq
    obtain ⟨t, ht, -⟩ := hq
    exact List.ne_nil_of_mem ht
  refine ⟨hasSentinel_normalizeProject rt, ?_, ?_⟩
  · intro project uuids op h
    exact ⟨hasSentinel_applyOp rt project uuids op h, hne _ (hasSentinel_applyOp rt project uuids op h)⟩
  · intro p uuids ops
    have := hasSentinel_applyOps rt ops _ (hasSentinel_normalizeProject rt p uuids)
    exact ⟨this, hne _ this⟩

/-- C13 (witness): deleting the topic "home" of the sample project. -/
theorem sentinel_invariant_witness :
    hasSentinel sampleProject ∧
    hasSentinel (applyOp utcHost sampleProject 0 (EditOp.deleteTopic "home".toList true)).1 ∧
    (applyOp utcHost sampleProject 0 (EditOp.deleteTopic "home".toList true)).1.topics ≠ [] :=
  ⟨by decide,
    (sentinel_invariant utcHost).2.1 sampleProject 0 (EditOp.deleteTopic "home".toList true)
      (by decide)⟩

/-! ## `parseCSV` on escaped fields -/

/-- Under the canonical header, a row of six cells is read as the record of its
trimmed cells. -/
theorem rowOfCells_columns (a b c d e f : Str) :
    rowOfCells CSV_COLUMNS [a, b, c, d, e, f]
      = ⟨trim a, trim b, trim c, trim d, trim e, trim f⟩ := by
  have k1 : headerIndex CSV_COLUMNS "topic".toList = some 0 := by decide
  have k2 : headerIndex CSV_COLUMNS "title".toList = some 1 := by decide
  have k3 : headerIndex CSV_COLUMNS "start".toList = some 2 := by decide
  have k4 : headerIndex CSV_COLUMNS "end".toList = some 3 := by decide
  have k5 : headerIndex CSV_COLUMNS "duration_days".toList = some 4 := by decide
  have k6 : headerIndex CSV_COLUMNS "desc".toList = some 5 := by decide
  have n1 : headerIndex CSV_COLUMNS "נושא".toList = none := by decide
  have n2 : headerIndex CSV_COLUMNS "כותרת".toList = none := by decide
  have n3 : headerIndex CSV_COLUMNS "תאריך התחלה".toList = none := by decide
  have n4 : headerIndex CSV_COLUMNS "תאריך סיום".toList = none := by decide
  have n5 : headerIndex CSV_COLUMNS "משך (ימים)".toList = none := by decide
  have n6 : headerIndex CSV_COLUMNS "תיאור".toList = none := by decide
  simp only [rowOfCells, cellOf, getCell, k1, k2, k3, k4, k5, k6, n1, n2, n3, n4, n5, n6,
    strOr_nil, List.getD_cons_zero, List.getD_cons_succ]

/-- The cells read in a text of two lines of escaped fields. -/
theorem csvCells_two_lines (h : Str) (hs : List Str) (a : Str) (as : List Str) :
    csvCells (join [','] ((h :: hs).map csvEscape) ++ '\n' :: join [','] ((a :: as).map csvEscape))
      = [h :: hs, a :: as] := by
  have := scanCSV_lines (h, hs) [(a, as)] [] []
  simp only [List.map_cons, List.map_nil, join, List.nil_append, List.append_assoc,
    List.singleton_append] at this
  unfold csvCells
  simp only [List.map_cons]
  exact this

/-- C20: for six strings of which at least one is not blank, `parseCSV` of the
canonical header line, a line feed and the six strings, each through
`csvEscape`, joined by commas, is exactly one record whose fields are the six
strings trimmed; the strings may hold commas, double quotes, carriage returns
and line feeds. -/
theorem parseCSV_csvEscape (a b c d e f : Str)
    (hnb : trim a ≠ [] ∨ trim b ≠ [] ∨ trim c ≠ [] ∨ trim d ≠ [] ∨ trim e ≠ [] ∨ trim f ≠ []) :
    parseCSV (join [','] CSV_COLUMNS ++ '\n' :: join [','] ([a, b, c, d, e, f].map csvEscape))
      = [⟨trim a, trim b, trim c, trim d, trim e, trim f⟩] := by
  have hcols : join [','] CSV_COLUMNS
      = join [','] (("topic".toList :: ["title".toList, "start".toList, "end".toList,
          "duration_days".toList, "desc".toList]).map csvEscape) := by decide
  have hcells := csvCells_two_lines "topic".toList ["title".toList, "start".toList,
    "end".toList, "duration_days".toList, "desc".toList] a [b, c, d, e, f]
  rw [← hcols] at hcells
  unfold parseCSV
  rw [hcells, dropBlankTail_of_all]
  · simp only [List.map_cons, List.map_nil]
    rw [show ["topic".toList, "title".toList, "start".toList, "end".toList,
      "duration_days".toList, "desc".toList] = CSV_COLUMNS from rfl, rowOfCells_columns]
  · intro r hr
    simp only [List.mem_cons, List.mem_singleton, List.not_mem_nil, or_false] at hr
    rcases hr with h | h
    · subst h; decide
    · subst h
      simp only [isBlankRow, List.all_cons, List.all_nil, Bool.and_true, Bool.and_eq_false_iff]
      have key : ∀ x : Str, trim x ≠ [] → (trim x).isEmpty = false := by
        intro x hx
        cases hq : trim x with
        | nil => exact absurd hq hx
        | cons _ _ => rfl
      rcases hnb with h | h | h | h | h | h
      · left; exact key _ h
      · right; left; exact key _ h
      · right; right; left; exact key _ h
      · right; right; right; left; exact key _ h
      · right; right; right; right; left; exact key _ h
      · right; right; right; right; right; exact key _ h

/-- C20 (witness): a topic with a comma, a title with quotes, a description of
two lines with a carriage return, and padded dates. -/
theorem parseCSV_csvEscape_witness :
    (trim "a, b".toList ≠ [] ∨ trim "say \"hi\"".toList ≠ [] ∨ trim " 2024-01-10".toList ≠ [] ∨
      trim "2024-01-12 ".toList ≠ [] ∨ trim [] ≠ [] ∨ trim "one\r\ntwo".toList ≠ []) ∧
    parseCSV (join [','] CSV_COLUMNS ++ '\n' :: join [',']
        (["a, b".toList, "say \"hi\"".toList, " 2024-01-10".toList, "2024-01-12 ".toList, [],
          "one\r\ntwo".toList].map csvEscape))
      = [⟨trim "a, b".toList, trim "say \"hi\"".toList, trim " 2024-01-10".toList,
          trim "2024-01-12 ".toList, trim [], trim "one\r\ntwo".toList⟩] :=
  ⟨by decide, parseCSV_csvEscape _ _ _ _ _ _ (by decide)⟩

/-! ## Line endings and blank rows -/

/-- The loop of `parseCSV` may be run in two parts when the second part does not
start with a quote. -/
theorem scanCSV_append : ∀ (l rest : Str) (st : ScanState), rest.head? ≠ some '"' →
    scanCSV (l ++ rest) st = scanCSV rest (scanCSV l st)
  | [], rest, st, _ => rfl
  | [c], rest, st, h => by
    rw [List.singleton_append, scanCSV_cons _ _ _ (fun hc => h hc.2.2)]
    rfl
  | c :: c2 :: cs, rest, st, h => by
    rw [List.cons_append, List.cons_append, scanCSV, scanCSV]
    split_ifs
    · exact scanCSV_append cs rest _ h
    · exact scanCSV_append (c2 :: cs) rest _ h

theorem scanStep_inQuotes (c : Char) (st : ScanState) :
    (scanStep c st).inQuotes = if c = '"' then !st.inQuotes else st.inQuotes := by
  unfold scanStep
  cases hq : st.inQuotes <;> by_cases hc : c = '"' <;> simp [hc]
  all_goals split_ifs <;> simp [hq]

/-- The loop ends inside quotes exactly when it started outside and the text
holds an odd number of quotes, or started inside and the number is even. -/
theorem scanCSV_inQuotes : ∀ (l : Str) (st : ScanState),
    (scanCSV l st).inQuotes = xor st.inQuotes (decide (l.count '"' % 2 = 1))
  | [], st => by simp [scanCSV]
  | [c], st => by
    rw [scanCSV, scanStep_inQuotes]
    by_cases hc : c = '"'
    · subst hc; cases st.inQuotes <;> simp
    · have : List.count '"' [c] = 0 := by
        simp [List.count_cons, hc, Ne.symm hc]
      cases st.inQuotes <;> simp [hc, this]
  | c :: c2 :: cs, st => by
    rw [scanCSV]
    split_ifs with h
    · obtain ⟨hq, rfl, rfl⟩ := h
      rw [scanCSV_inQuotes cs]
      simp only [List.count_cons_self, hq]
      congr 2
      simp only [eq_iff_iff]
      omega
    · rw [scanCSV_inQuotes (c2 :: cs), scanStep_inQuotes]
      by_cases hc : c = '"'
      · subst hc
        simp only [if_true, List.count_cons_self]
        rcases Nat.mod_two_eq_zero_or_one (List.count '"' (c2 :: cs)) with h0 | h0
        · have h1 : (List.count '"' (c2 :: cs) + 1) % 2 = 1 := by omega
          cases st.inQuotes <;> simp [h0, h1]
        · have h1 : (List.count '"' (c2 :: cs) + 1) % 2 = 0 := by omega
          cases st.inQuotes <;> simp [h0, h1]
      · have : List.count '"' (c :: c2 :: cs) = List.count '"' (c2 :: cs) := by
          rw [List.count_cons_of_ne (Ne.symm hc)]
        rw [this, if_neg hc]

theorem trim_of_all_space (f : Str) (hf : ∀ c ∈ f, isJsSpace c = true) : trim f = [] := by
  have : trimStart f = [] := by
    unfold trimStart
    rw [List.dropWhile_eq_nil_iff]
    exact hf
  unfold trim
  rw [this]
  rfl

theorem isBlankRow_append (r : List Str) (f : Str) :
    isBlankRow (r ++ [f]) = (isBlankRow r && (trim f).isEmpty) := by
  simp [isBlankRow, List.all_append]

/-- Outside quotes, a text of commas and white space adds blank cells and blank
rows only. -/
theorem scanCSV_blank (w : Str) (hw : ∀ c ∈ w, c = ',' ∨ isJsSpace c = true) :
    ∀ (f : Str) (r : List Str) (rows : List (List Str)), (∀ c ∈ f, isJsSpace c = true) →
      isBlankRow r = true →
      ∃ f1 r1 B, scanCSV w ⟨f, r, rows, false⟩ = ⟨f1, r1, rows ++ B, false⟩ ∧
        (∀ c ∈ f1, isJsSpace c = true) ∧ isBlankRow r1 = true ∧ ∀ b ∈ B, isBlankRow b = true := by
  induction w with
  | nil =>
    intro f r rows hf hr
    exact ⟨f, r, [], by simp [scanCSV], hf, hr, by simp⟩
  | cons c t ih =>
    intro f r rows hf hr
    have ht : ∀ c ∈ t, c = ',' ∨ isJsSpace c = true := fun x hx => hw x (List.mem_cons_of_mem _ hx)
    have hc := hw c (List.mem_cons_self _ _)
    have hcq : c ≠ '"' := by
      rintro rfl
      rcases hc with h | h
      · exact absurd h (by decide)
      · exact absurd h (by decide)
    rw [scanCSV_cons _ _ _ (by simp)]
    have hblank : isBlankRow (r ++ [f]) = true := by
      rw [isBlankRow_append, hr, trim_of_all_space f hf]; rfl
    simp only [scanStep, Bool.false_eq_true, if_false, if_neg hcq]
    by_cases h1 : c = ','
    · rw [if_pos h1]
      exact ih ht [] (r ++ [f]) rows (by simp) hblank
    · rw [if_neg h1]
      have hsp : isJsSpace c = true := by
        rcases hc with h | h
        · exact absurd h h1
        · exact h
      by_cases h2 : c = '\n'
      · rw [if_pos h2]
        obtain ⟨f1, r1, B, e, p1, p2, p3⟩ := ih ht [] [] (rows ++ [r ++ [f]]) (by simp) rfl
        refine ⟨f1, r1, (r ++ [f]) :: B, ?_, p1, p2, ?_⟩
        · rw [e]; simp
        · intro b hb
          rcases List.mem_cons.mp hb with h | h
          · rw [h]; exact hblank
          · exact p3 b h
      · rw [if_neg h2]
        by_cases h3 : c = '\r'
        · rw [if_pos h3]
          exact ih ht f r rows hf hr
        · rw [if_neg h3]
          refine ih ht (f ++ [c]) r rows ?_ hr
          intro x hx
          rcases List.mem_append.mp hx with h | h
          · exact hf x h
          · rw [List.mem_singleton.mp h]; exact hsp

theorem dropBlankTail_append_blank (X B : List (List Str)) (hB : ∀ b ∈ B, isBlankRow b = true) :
    dropBlankTail (X ++ B) = dropBlankTail X := by
  unfold dropBlankTail
  congr 1
  rw [List.reverse_append]
  have : ∀ (R : List (List Str)), (∀ b ∈ R, isBlankRow b = true) →
      List.dropWhile isBlankRow (R ++ X.reverse) = List.dropWhile isBlankRow X.reverse := by
    intro R hR
    induction R with
    | nil => rfl
    | cons a R ih =>
      rw [List.cons_append, List.dropWhile_cons, hR a (List.mem_cons_self _ _)]
      exact ih (fun b hb => hR b (List.mem_cons_of_mem _ hb))
  exact this B.reverse (fun b hb => hB b (List.mem_reverse.mp hb))

/-- After a text that ends outside quotes, a line feed and then commas and white
space add blank rows only: `parseCSV` reads the same records. -/
theorem parseCSV_append_blank (X w : Str) (hX : Even (X.count '"'))
    (hw : ∀ c ∈ w, c = ',' ∨ isJsSpace c = true) :
    parseCSV (X ++ '\n' :: w) = parseCSV X ∧ parseCSV (X ++ '\r' :: '\n' :: w) = parseCSV X := by
  have hq : (scanCSV X ⟨[], [], [], false⟩).inQuotes = false := by
    rw [scanCSV_inQuotes]
    have : X.count '"' % 2 = 0 := Nat.even_iff.mp hX
    simp [this]
  have key : ∃ B1, csvCells (X ++ '\n' :: w) = csvCells X ++ B1 ∧
      ∀ b ∈ B1, isBlankRow b = true := by
    unfold csvCells
    simp only
    rw [scanCSV_append X ('\n' :: w) _ (by simp)]
    generalize scanCSV X ⟨[], [], [], false⟩ = s at hq ⊢
    obtain ⟨f, r, rows, q⟩ := s
    simp only at hq
    subst hq
    rw [scanCSV_cons _ _ _ (by simp)]
    simp only [scanStep, Bool.false_eq_true, if_false,
      (by decide : ¬ (('\n' : Char) = '"')), (by decide : ¬ (('\n' : Char) = ',')), if_true]
    obtain ⟨f1, r1, B, e, p1, p2, p3⟩ :=
      scanCSV_blank w hw [] [] (rows ++ [r ++ [f]]) (by simp) rfl
    rw [e]
    refine ⟨B ++ [r1 ++ [f1]], by simp, ?_⟩
    intro b hb
    rcases List.mem_append.mp hb with h | h
    · exact p3 b h
    · rw [List.mem_singleton.mp h, isBlankRow_append, p2, trim_of_all_space f1 p1]; rfl
  obtain ⟨B1, key1, key2⟩ := key
  have h1 : parseCSV (X ++ '\n' :: w) = parseCSV X := by
    unfold parseCSV
    rw [key1, dropBlankTail_append_blank _ _ key2]
  refine ⟨h1, ?_⟩
  have hcr : csvCells (X ++ '\r' :: '\n' :: w) = csvCells (X ++ '\n' :: w) := by
    unfold csvCells
    simp only
    rw [scanCSV_append X ('\r' :: '\n' :: w) _ (by simp), scanCSV_append X ('\n' :: w) _ (by simp)]
    generalize scanCSV X ⟨[], [], [], false⟩ = s at hq ⊢
    obtain ⟨f, r, rows, q⟩ := s
    simp only at hq
    subst hq
    rw [scanCSV_cons '\r' _ _ (by simp)]
    rfl
  unfold parseCSV at h1 ⊢
  rw [hcr]
  exact h1

/-- Between rows that end outside quotes, `"\r\n"` is read as `"\n"` is. -/
theorem scanCSV_join_crlf : ∀ (lines : List Str) (rest : Str) (st : ScanState),
    st.inQuotes = false → rest.head? ≠ some '"' → (∀ l ∈ lines, Even (l.count '"')) →
    scanCSV (join ['\r', '\n'] lines ++ rest) st = scanCSV (join ['\n'] lines ++ rest) st
  | [], _, _, _, _, _ => rfl
  | [_], _, _, _, _, _ => rfl
  | a :: b :: ls, rest, st, hq, hrest, hl => by
    have ha : (scanCSV a st).inQuotes = false := by
      rw [scanCSV_inQuotes, hq]
      have : a.count '"' % 2 = 0 := Nat.even_iff.mp (hl a (List.mem_cons_self _ _))
      simp [this]
    have hl' : ∀ l ∈ b :: ls, Even (l.count '"') := fun l h => hl l (List.mem_cons_of_mem _ h)
    simp only [join, List.append_assoc, List.cons_append, List.nil_append]
    rw [scanCSV_append a _ _ (by simp), scanCSV_append a _ _ (by simp)]
    generalize scanCSV a st = s at ha ⊢
    obtain ⟨f, r, rows, q⟩ := s
    simp only at ha
    subst ha
    rw [scanCSV_cons '\r' _ _ (by simp)]
    have e : scanStep '\r' ⟨f, r, rows, false⟩ = ⟨f, r, rows, false⟩ := rfl
    rw [e, scanCSV_cons '\n' _ _ (by simp), scanCSV_cons '\n' _ _ (by simp)]
    exact scanCSV_join_crlf (b :: ls) rest _ rfl hrest hl'

theorem count_quote_join (sep : Str) (hsep : sep.count '"' = 0) : ∀ (lines : List Str),
    (∀ l ∈ lines, Even (l.count '"')) → Even ((join sep lines).count '"')
  | [], _ => by simp [join]
  | [a], h => h a (List.mem_cons_self _ _)
  | a :: b :: ls, h => by
    simp only [join, List.count_append, hsep, Nat.add_zero]
    exact Even.add (h a (List.mem_cons_self _ _))
      (count_quote_join sep hsep (b :: ls) (fun l hl => h l (List.mem_cons_of_mem _ hl)))

/-- C17: the rows `lines` of a text each hold an even number of quotes, so that
no row ends inside a quoted field. Then `parseCSV` returns the same records for
the rows separated by `"\r\n"` as for the rows separated by `"\n"`, and the same
again for either text followed by its line ending and then any text `w` of
commas and white space: a last line ending alone, or any number of blank
rows. -/
theorem parseCSV_line_endings (lines : List Str) (w : Str)
    (hlines : ∀ l ∈ lines, Even (l.count '"'))
    (hw : ∀ c ∈ w, c = ',' ∨ isJsSpace c = true) :
    parseCSV (join ['\r', '\n'] lines) = parseCSV (join ['\n'] lines) ∧
    parseCSV (join ['\n'] lines ++ '\n' :: w) = parseCSV (join ['\n'] lines) ∧
    parseCSV (join ['\r', '\n'] lines ++ '\r' :: '\n' :: w) = parseCSV (join ['\n'] lines) := by
  have hcells : ∀ rest : Str, rest.head? ≠ some '"' →
      csvCells (join ['\r', '\n'] lines ++ rest) = csvCells (join ['\n'] lines ++ rest) := by
    intro rest hrest
    unfold csvCells
    simp only
    rw [scanCSV_join_crlf lines rest _ rfl hrest hlines]
  have hlf := parseCSV_append_blank (join ['\n'] lines) w
    (count_quote_join ['\n'] (by decide) lines hlines) hw
  refine ⟨?_, hlf.1, ?_⟩
  · have := hcells [] (by simp)
    simp only [List.append_nil] at this
    unfold parseCSV
    rw [this]
  · have := hcells ('\r' :: '\n' :: w) (by simp)
    unfold parseCSV at hlf ⊢
    rw [this]
    exact hlf.2

/-- C17 (witness): a header and two rows, one with a quoted comma and a doubled
quote; the tail is an empty row, a row of one space and a row of commas. -/
theorem parseCSV_line_endings_witness :
    (∀ l ∈ ["title,start,end".toList, "\"a, \"\"b\"\"\",2024-01-10,2024-01-12".toList,
        "c,2024-02-01,2024-02-02".toList], Even (l.count '"')) ∧
    (∀ c ∈ "\r\n \n,,".toList, c = ',' ∨ isJsSpace c = true) ∧
    parseCSV (join ['\r', '\n'] ["title,start,end".toList,
        "\"a, \"\"b\"\"\",2024-01-10,2024-01-12".toList, "c,2024-02-01,2024-02-02".toList] ++
        '\r' :: '\n' :: "\r\n \n,,".toList)
      = parseCSV (join ['\n'] ["title,start,end".toList,
        "\"a, \"\"b\"\"\",2024-01-10,2024-01-12".toList, "c,2024-02-01,2024-02-02".toList]) :=
  ⟨by decide, by decide,
    (parseCSV_line_endings _ _ (by decide) (by decide)).2.2⟩

/-! ## Header recognition -/

theorem dropWhile_append_of_all {α : Type} (p : α → Bool) (l x : List α)
    (hl : ∀ c ∈ l, p c = true) : (l ++ x).dropWhile p = x.dropWhile p := by
  induction l with
  | nil => rfl
  | cons a l ih =>
    rw [List.cons_append, List.dropWhile_cons, hl a (List.mem_cons_self _ _)]
    exact ih (fun c hc => hl c (List.mem_cons_of_mem _ hc))

/-- White space around a text that neither starts nor ends with white space is
trimmed away. -/
theorem trim_padded (l s r : Str) (hl : ∀ c ∈ l, isJsSpace c = true)
    (hr : ∀ c ∈ r, isJsSpace c = true) (hh : s.head?.map isJsSpace = some false)
    (ht : s.getLast?.map isJsSpace = some false) : trim (l ++ s ++ r) = s := by
  have h1 : trimStart (l ++ s ++ r) = s ++ r := by
    unfold trimStart
    rw [List.append_assoc, dropWhile_append_of_all _ _ _ hl]
    cases s with
    | nil => simp at hh
    | cons a s =>
      simp only [List.head?_cons, Option.map_some', Option.some.injEq] at hh
      rw [List.cons_append, List.dropWhile_cons, hh]
      rfl
  unfold trim
  rw [h1]
  unfold trimEnd
  rw [List.reverse_append, dropWhile_append_of_all _ _ _ (fun c hc => hr c (List.mem_reverse.mp hc))]
  have h2 : s.reverse.head?.map isJsSpace = some false := by
    rw [List.head?_reverse]; exact ht
  cases hrev : s.reverse with
  | nil => rw [hrev] at h2; simp at h2
  | cons a t =>
    rw [hrev] at h2
    simp only [List.head?_cons, Option.map_some', Option.some.injEq] at h2
    rw [List.dropWhile_cons, h2]
    simp only [Bool.false_eq_true, if_false]
    rw [← hrev, List.reverse_reverse]

/-- The `idx[key]` over the first `n` columns of the header. -/
theorem headerIndex_foldl_succ (header : List Str) (key : Str) (n : Nat) :
    (List.range (n + 1)).foldl
        (fun found j => if trim (header.getD j []) == key then some j else found) none
      = if trim (header.getD n []) == key then some n
        else (List.range n).foldl
          (fun found j => if trim (header.getD j []) == key then some j else found) none := by
  rw [List.range_succ, List.foldl_append]
  rfl

/-- The `idx[key]` is the one column whose trimmed header is `key`. -/
theorem headerIndex_unique (header : List Str) (key : Str) (j : Nat) (hj : j < header.length)
    (hkey : trim (header.getD j []) = key)
    (huniq : ∀ i, i < header.length → trim (header.getD i []) = key → i = j) :
    headerIndex header key = some j := by
  unfold headerIndex
  have : ∀ n, n ≤ header.length →
      (List.range n).foldl
        (fun found i => if trim (header.getD i []) == key then some i else found) none
        = if j < n then some j else none := by
    intro n
    induction n with
    | zero => intro _; rfl
    | succ n ih =>
      intro hn
      rw [headerIndex_foldl_succ, ih (by omega)]
      by_cases hm : trim (header.getD n []) = key
      · have := huniq n (by omega) hm
        subst this
        have hb : (trim (header.getD n []) == key) = true := by rw [hm]; exact beq_self_eq_true _
        rw [hb]
        simp
      · have hne : n ≠ j := fun e => hm (e ▸ hkey)
        have hb : (trim (header.getD n []) == key) = false := by simpa using hm
        rw [hb]
        simp only [Bool.false_eq_true, if_false]
        by_cases hlt : j < n
        · rw [if_pos hlt, if_pos (by omega)]
        · rw [if_neg hlt, if_neg (by omega)]
  rw [this header.length (le_refl _), if_pos hj]

/-- The `idx[key]` is undefined when no trimmed header is `key`. -/
theorem headerIndex_none (header : List Str) (key : Str)
    (hno : ∀ i, i < header.length → trim (header.getD i []) ≠ key) :
    headerIndex header key = none := by
  unfold headerIndex
  have : ∀ n, n ≤ header.length →
      (List.range n).foldl
        (fun found i => if trim (header.getD i []) == key then some i else found) none
        = none := by
    intro n
    induction n with
    | zero => intro _; rfl
    | succ n ih =>
      intro hn
      rw [headerIndex_foldl_succ, ih (by omega)]
      have hb : (trim (header.getD n []) == key) = false := by simpa using hno n (by omega)
      rw [hb]
      rfl
  exact this header.length (le_refl _)

/-- The twelve names of the columns are distinct. -/
theorem column_names_distinct :
    ∀ a < 6, ∀ b < 6, ∀ h : Bool,
      ((if h then HEBREW_COLUMNS.getD a [] else CSV_COLUMNS.getD a []) = CSV_COLUMNS.getD b [] →
        h = false ∧ a = b) ∧
      ((if h then HEBREW_COLUMNS.getD a [] else CSV_COLUMNS.getD a []) = HEBREW_COLUMNS.getD b [] →
        h = true ∧ a = b) := by
  decide

/-- No name of a column starts or ends with white space. -/
theorem column_names_trimmed :
    ∀ a < 6, ∀ h : Bool,
      (if h then HEBREW_COLUMNS.getD a [] else CSV_COLUMNS.getD a []).head?.map isJsSpace
        = some false ∧
      (if h then HEBREW_COLUMNS.getD a [] else CSV_COLUMNS.getD a []).getLast?.map isJsSpace
        = some false := by
  decide

/-- Under a header that names the six columns once each, in any order and either
language, the cell of column `k` of a row permuted the same way is found. -/
theorem cellOf_permuted (cols : List HeaderColumn)
    (hperm : (cols.map (fun c => c.column)).Perm (List.range 6))
    (hpad : ∀ c ∈ cols, (∀ x ∈ c.padLeft, isJsSpace x = true) ∧
      ∀ x ∈ c.padRight, isJsSpace x = true)
    (r : List Str) (k : Nat) (hk : k < 6) :
    cellOf (cols.map HeaderColumn.cell) (permuteRow cols r) (CSV_COLUMNS.getD k [])
      (HEBREW_COLUMNS.getD k []) = trim (r.getD k []) := by
  have hcol : ∀ c ∈ cols, c.column < 6 := by
    intro c hc
    have : c.column ∈ List.range 6 :=
      hperm.subset (List.mem_map_of_mem (fun c => c.column) hc)
    exact List.mem_range.mp this
  have hlen : (cols.map HeaderColumn.cell).length = cols.length := List.length_map _ _
  have hget : ∀ i (hi : i < cols.length),
      (cols.map HeaderColumn.cell).getD i [] = (cols.get ⟨i, hi⟩).cell := by
    intro i hi
    rw [List.getD_eq_getElem _ _ (by rw [hlen]; exact hi), List.getElem_map]
    rfl
  have htrim : ∀ i (hi : i < cols.length),
      trim ((cols.map HeaderColumn.cell).getD i []) = (cols.get ⟨i, hi⟩).name := by
    intro i hi
    rw [hget i hi]
    have hmem : cols.get ⟨i, hi⟩ ∈ cols := List.get_mem _ _ _
    obtain ⟨p1, p2⟩ := hpad _ hmem
    have := column_names_trimmed _ (hcol _ hmem) (cols.get ⟨i, hi⟩).hebrew
    exact trim_padded _ _ _ p1 p2 this.1 this.2
  have hrow : ∀ i (hi : i < cols.length),
      (permuteRow cols r).getD i [] = r.getD (cols.get ⟨i, hi⟩).column [] := by
    intro i hi
    unfold permuteRow
    rw [List.getD_eq_getElem _ _ (by rw [List.length_map]; exact hi), List.getElem_map]
    rfl
  have hnd : (cols.map (fun c => c.column)).Nodup := hperm.nodup_iff.mpr (List.nodup_range 6)
  have hkmem : k ∈ cols.map (fun c => c.column) := hperm.mem_iff.mpr (List.mem_range.mpr hk)
  obtain ⟨c, hc, hck⟩ := List.mem_map.mp hkmem
  obtain ⟨j, hj, hjc⟩ := List.mem_iff_getElem.mp hc
  have hjk : (cols.get ⟨j, hj⟩).column = k := by
    show cols[j].column = k
    rw [hjc]; exact hck
  have hinj : ∀ i (hi : i < cols.length), (cols.get ⟨i, hi⟩).column = k → i = j := by
    intro i hi hik
    have hi2 : i < (cols.map (fun c => c.column)).length := by rw [List.length_map]; exact hi
    have hj2 : j < (cols.map (fun c => c.column)).length := by rw [List.length_map]; exact hj
    have h1 : (cols.map (fun c => c.column))[i] = (cols.map (fun c => c.column))[j] := by
      rw [List.getElem_map, List.getElem_map]
      exact hik.trans hjk.symm
    exact (hnd.getElem_inj_iff).mp h1
  have hname : (cols.get ⟨j, hj⟩).name =
      if (cols.get ⟨j, hj⟩).hebrew then HEBREW_COLUMNS.getD k [] else CSV_COLUMNS.getD k [] := by
    unfold HeaderColumn.name
    rw [hjk]
  have hen : ∀ i (hi : i < cols.length), (cols.get ⟨i, hi⟩).name = CSV_COLUMNS.getD k [] →
      (cols.get ⟨i, hi⟩).hebrew = false ∧ i = j := by
    intro i hi h
    have := (column_names_distinct _ (hcol _ (List.get_mem _ _ _)) k hk
      (cols.get ⟨i, hi⟩).hebrew).1 h
    exact ⟨this.1, hinj i hi this.2⟩
  have hhe : ∀ i (hi : i < cols.length), (cols.get ⟨i, hi⟩).name = HEBREW_COLUMNS.getD k [] →
      (cols.get ⟨i, hi⟩).hebrew = true ∧ i = j := by
    intro i hi h
    have := (column_names_distinct _ (hcol _ (List.get_mem _ _ _)) k hk
      (cols.get ⟨i, hi⟩).hebrew).2 h
    exact ⟨this.1, hinj i hi this.2⟩
  unfold cellOf getCell
  cases hheb : (cols.get ⟨j, hj⟩).hebrew with
  | false =>
    rw [hheb] at hname
    simp only [Bool.false_eq_true, if_false] at hname
    have e1 : headerIndex (cols.map HeaderColumn.cell) (CSV_COLUMNS.getD k []) = some j := by
      apply headerIndex_unique _ _ j (by rw [hlen]; exact hj)
      · rw [htrim j hj, hname]
      · intro i hi h
        rw [hlen] at hi
        rw [htrim i hi] at h
        exact (hen i hi h).2
    have e2 : headerIndex (cols.map HeaderColumn.cell) (HEBREW_COLUMNS.getD k []) = none := by
      apply headerIndex_none
      intro i hi h
      rw [hlen] at hi
      rw [htrim i hi] at h
      obtain ⟨h1, h2⟩ := hhe i hi h
      subst h2
      rw [hheb] at h1
      exact absurd h1 (by decide)
    rw [e1, e2]
    simp only
    rw [hrow j hj, hjk, strOr_nil, strOr_nil]
  | true =>
    rw [hheb] at hname
    simp only [if_true] at hname
    have e1 : headerIndex (cols.map HeaderColumn.cell) (HEBREW_COLUMNS.getD k []) = some j := by
      apply headerIndex_unique _ _ j (by rw [hlen]; exact hj)
      · rw [htrim j hj, hname]
      · intro i hi h
        rw [hlen] at hi
        rw [htrim i hi] at h
        exact (hhe i hi h).2
    have e2 : headerIndex (cols.map HeaderColumn.cell) (CSV_COLUMNS.getD k []) = none := by
      apply headerIndex_none
      intro i hi h
      rw [hlen] at hi
      rw [htrim i hi] at h
      obtain ⟨h1, h2⟩ := hen i hi h
      subst h2
      rw [hheb] at h1
      exact absurd h1 (by decide)
    rw [e1, e2]
    simp only
    rw [hrow j hj, hjk, strOr_nil]
    rfl

/-- Under the canonical header, any row is read as the record of its first six
cells, trimmed; a cell that is missing is empty. -/
theorem rowOfCells_columns_getD (r : List Str) :
    rowOfCells CSV_COLUMNS r
      = ⟨trim (r.getD 0 []), trim (r.getD 1 []), trim (r.getD 2 []), trim (r.getD 3 []),
          trim (r.getD 4 []), trim (r.getD 5 [])⟩ := by
  have k1 : headerIndex CSV_COLUMNS "topic".toList = some 0 := by decide
  have k2 : headerIndex CSV_COLUMNS "title".toList = some 1 := by decide
  have k3 : headerIndex CSV_COLUMNS "start".toList = some 2 := by decide
  have k4 : headerIndex CSV_COLUMNS "end".toList = some 3 := by decide
  have k5 : headerIndex CSV_COLUMNS "duration_days".toList = some 4 := by decide
  have k6 : headerIndex CSV_COLUMNS "desc".toList = some 5 := by decide
  have n1 : headerIndex CSV_COLUMNS "נושא".toList = none := by decide
  have n2 : headerIndex CSV_COLUMNS "כותרת".toList = none := by decide
  have n3 : headerIndex CSV_COLUMNS "תאריך התחלה".toList = none := by decide
  have n4 : headerIndex CSV_COLUMNS "תאריך סיום".toList = none := by decide
  have n5 : headerIndex CSV_COLUMNS "משך (ימים)".toList = none := by decide
  have n6 : headerIndex CSV_COLUMNS "תיאור".toList = none := by decide
  simp only [rowOfCells, cellOf, getCell, k1, k2, k3, k4, k5, k6, n1, n2, n3, n4, n5, n6,
    strOr_nil]

/-- Under a header that names the six columns once each, in any order and either
language, a row permuted the same way is read as under the canonical header. -/
theorem rowOfCells_permuted (cols : List HeaderColumn)
    (hperm : (cols.map (fun c => c.column)).Perm (List.range 6))
    (hpad : ∀ c ∈ cols, (∀ x ∈ c.padLeft, isJsSpace x = true) ∧
      ∀ x ∈ c.padRight, isJsSpace x = true)
    (r : List Str) :
    rowOfCells (cols.map HeaderColumn.cell) (permuteRow cols r) = rowOfCells CSV_COLUMNS r := by
  rw [rowOfCells_columns_getD]
  have h0 := cellOf_permuted cols hperm hpad r 0 (by decide)
  have h1 := cellOf_permuted cols hperm hpad r 1 (by decide)
  have h2 := cellOf_permuted cols hperm hpad r 2 (by decide)
  have h3 := cellOf_permuted cols hperm hpad r 3 (by decide)
  have h4 := cellOf_permuted cols hperm hpad r 4 (by decide)
  have h5 := cellOf_permuted cols hperm hpad r 5 (by decide)
  unfold rowOfCells
  exact congr (congr (congr (congr (congr (congrArg Row.mk h0) h1) h2) h3) h4) h5

/-- C16: `text0` has the canonical English header and the data rows `rows`;
`text` has a header that names the six columns once each, in any order, each in
English or in Hebrew, with any white space around the name, and the same data
rows with their cells in the order of that header. Then `parseCSV` returns the
same records for both. (The rows of a text are those `parseCSV` reads, after
the blank rows at the end are dropped.) -/
theorem parseCSV_header_order (cols : List HeaderColumn) (rows : List (List Str))
    (text0 text : Str)
    (hperm : (cols.map (fun c => c.column)).Perm (List.range 6))
    (hpad : ∀ c ∈ cols, (∀ x ∈ c.padLeft, isJsSpace x = true) ∧
      ∀ x ∈ c.padRight, isJsSpace x = true)
    (h0 : dropBlankTail (csvCells text0) = CSV_COLUMNS :: rows)
    (h1 : dropBlankTail (csvCells text)
      = cols.map HeaderColumn.cell :: rows.map (permuteRow cols)) :
    parseCSV text = parseCSV text0 := by
  unfold parseCSV
  rw [h0, h1]
  simp only [List.map_map]
  apply List.map_congr_left
  intro r _
  exact rowOfCells_permuted cols hperm hpad r

/-- C16 (witness): the columns in the order start, title, desc, topic, end,
duration_days, with start and topic named in Hebrew and white space around two
of the names. -/
theorem parseCSV_header_order_witness :
    ((([⟨2, true, " ".toList, " ".toList⟩, ⟨1, false, [], []⟩, ⟨5, false, [], []⟩,
        ⟨0, true, [], []⟩, ⟨3, false, [], []⟩, ⟨4, false, " ".toList, []⟩] :
        List HeaderColumn).map (fun c => c.column)).Perm (List.range 6)) ∧
    dropBlankTail (csvCells
        "topic,title,start,end,duration_days,desc\nT,\"A, B\",2024-01-10,2024-01-12,3,d\n".toList)
      = CSV_COLUMNS :: [["T".toList, "A, B".toList, "2024-01-10".toList, "2024-01-12".toList, "3".toList,
        "d".toList]] ∧
    dropBlankTail (csvCells
        " תאריך התחלה ,title,desc,נושא,end, duration_days\r\n2024-01-10,\"A, B\",d,T,2024-01-12,3\r\n".toList)
      = ([⟨2, true, " ".toList, " ".toList⟩, ⟨1, false, [], []⟩, ⟨5, false, [], []⟩,
        ⟨0, true, [], []⟩, ⟨3, false, [], []⟩, ⟨4, false, " ".toList, []⟩] :
          List HeaderColumn).map HeaderColumn.cell ::
        ([["T".toList, "A, B".toList, "2024-01-10".toList, "2024-01-12".toList, "3".toList,
        "d".toList]]).map (permuteRow
          [⟨2, true, " ".toList, " ".toList⟩, ⟨1, false, [], []⟩, ⟨5, false, [], []⟩,
        ⟨0, true, [], []⟩, ⟨3, false, [], []⟩, ⟨4, false, " ".toList, []⟩]) ∧
    parseCSV
        " תאריך התחלה ,title,desc,נושא,end, duration_days\r\n2024-01-10,\"A, B\",d,T,2024-01-12,3\r\n".toList
      = parseCSV
        "topic,title,start,end,duration_days,desc\nT,\"A, B\",2024-01-10,2024-01-12,3,d\n".toList :=
  ⟨by decide, by decide, by decide,
    parseCSV_header_order
      [⟨2, true, " ".toList, " ".toList⟩, ⟨1, false, [], []⟩, ⟨5, false, [], []⟩,
        ⟨0, true, [], []⟩, ⟨3, false, [], []⟩, ⟨4, false, " ".toList, []⟩]
      [["T".toList, "A, B".toList, "2024-01-10".toList, "2024-01-12".toList, "3".toList,
        "d".toList]]
      _ _ (by decide) (by decide) (by decide) (by decide)⟩

/-! ## The order of the dates of a task -/

theorem isCanonicalDate_isoOfDay (z : Int) (h0 : minCanonicalDay ≤ z) (h1 : z ≤ maxCanonicalDay) :
    isCanonicalDate (isoOfDay z) = true := by
  simp [isCanonicalDate, parseCalendarDate_isoOfDay z h0 h1]

/-- The comparison of `parseISODate(a) < parseISODate(b)` on canonical dates is
the comparison of the days, in every zone. -/
theorem dateLt_parseISODate (rt : Runtime) (hz : zoneOk rt) (a b : Int)
    (ha0 : minCanonicalDay ≤ a) (ha1 : a ≤ maxCanonicalDay) (hb0 : minCanonicalDay ≤ b)
    (hb1 : b ≤ maxCanonicalDay) :
    dateLt (parseISODate rt (isoOfDay a)) (parseISODate rt (isoOfDay b)) = decide (a < b) := by
  obtain ⟨s, hs, hsm, hsd, -⟩ := parseISODate_isoOfDay rt hz a ha0 ha1
  obtain ⟨e, he, hem, hed, -⟩ := parseISODate_isoOfDay rt hz b hb0 hb1
  rw [hs, he]
  simp only [dateLt, decide_eq_decide]
  simp only [msPerDay] at *
  omega

theorem dateLt_canonical (rt : Runtime) (hz : zoneOk rt) {a b : Str}
    (ha : isCanonicalDate a = true) (hb : isCanonicalDate b = true) :
    dateLt (parseISODate rt a) (parseISODate rt b) = decide (dayOf a < dayOf b) := by
  obtain ⟨ea, a0, a1⟩ := isoOfDay_dayOf ha
  obtain ⟨eb, b0, b1⟩ := isoOfDay_dayOf hb
  have := dateLt_parseISODate rt hz (dayOf a) (dayOf b) a0 a1 b0 b1
  rw [← ea, ← eb] at this
  exact this

/-- The `end` that the task form derives from a duration is a canonical date. -/
theorem formEnd_canonical (rt : Runtime) (hz : zoneOk rt) (f : TaskForm) (end1 : Str)
    (hstart : isCanonicalDate f.taskStart = true)
    (hend : f.taskEnd = [] ∨ isCanonicalDate f.taskEnd = true)
    (hlo : minCanonicalDay ≤ dayOf f.taskStart - zoneLag rt)
    (hdur : ∀ d, parseIntValue f.taskDuration = some d →
      dayOf f.taskStart + d - 1 ≤ maxCanonicalDay)
    (h : formEnd rt f = some end1) (hne : end1 ≠ []) : isCanonicalDate end1 = true := by
  obtain ⟨es, s0, s1⟩ := isoOfDay_dayOf hstart
  obtain ⟨l0, l1⟩ := zoneLag_bounds rt
  unfold formEnd at h
  simp only at h
  split_ifs at h with hc
  · simp only [Bool.and_eq_true, decide_eq_true_eq] at hc
    obtain ⟨⟨-, hfin⟩, hpos⟩ := hc
    cases hd : parseIntValue f.taskDuration with
    | none => rw [hd] at hfin; exact absurd hfin (by simp [numberIsFinite])
    | some d =>
      rw [hd] at h hpos
      simp only [Option.getD_some] at h hpos
      have hhi := hdur d hd
      rw [es, addDays_isoOfDay rt hz (dayOf f.taskStart) (d - 1) s0 s1 (by omega) (by omega)] at h
      simp only [Option.some.injEq] at h
      rw [← h]
      exact isCanonicalDate_isoOfDay _ (by omega) (by omega)
  · simp only [Option.some.injEq] at h
    rw [← h]
    rcases hend with h1 | h1
    · exact absurd (h ▸ h1) hne
    · exact h1

/-- Adding a task with the form keeps the ends of all tasks on or after their
starts, in every zone: the dates of the form are canonical dates or empty. -/
theorem addTask_keeps_order (rt : Runtime) (hz : zoneOk rt) (project : Project) (uuids : Nat)
    (f : TaskForm) (hinv : ∀ t ∈ project.tasks, taskOrdered t)
    (hstart : f.taskStart = [] ∨ isCanonicalDate f.taskStart = true)
    (hend : f.taskEnd = [] ∨ isCanonicalDate f.taskEnd = true)
    (hlo : minCanonicalDay ≤ dayOf f.taskStart - zoneLag rt)
    (hdur : ∀ d, parseIntValue f.taskDuration = some d →
      dayOf f.taskStart + d - 1 ≤ maxCanonicalDay) :
    ∀ t ∈ (addTask rt project uuids f).1.tasks, taskOrdered t := by
  unfold addTask
  dsimp only
  by_cases h1 : (trim f.taskTitle).isEmpty = true
  · rw [if_pos h1]; exact hinv
  rw [if_neg h1]
  by_cases h2 : f.taskStart.isEmpty = true
  · rw [if_pos h2]; exact hinv
  rw [if_neg h2]
  have hs : isCanonicalDate f.taskStart = true := by
    rcases hstart with h | h
    · rw [h] at h2; exact absurd rfl h2
    · exact h
  cases hfe : formEnd rt f with
  | none => exact hinv
  | some end1 =>
    dsimp only
    by_cases h3 : end1.isEmpty = true
    · rw [if_pos h3]; exact hinv
    rw [if_neg h3]
    have hne : end1 ≠ [] := by
      intro e; rw [e] at h3; exact h3 rfl
    have he := formEnd_canonical rt hz f end1 hs hend hlo hdur hfe hne
    rw [dateLt_canonical rt hz he hs]
    by_cases h4 : dayOf end1 < dayOf f.taskStart
    · simp only [h4, decide_True, if_true]; exact hinv
    · simp only [h4, decide_False, Bool.false_eq_true, if_false]
      intro t ht
      rcases List.mem_append.mp ht with h | h
      · exact hinv t h
      · rw [List.mem_singleton.mp h]
        exact ⟨hs, he, by simp only; omega⟩

/-- Updating a task with the form keeps the ends of all tasks on or after their
starts, in every zone: the dates of the form are canonical dates or empty. -/
theorem updateTask_keeps_order (rt : Runtime) (hz : zoneOk rt) (project : Project)
    (editingTaskId : Option Str) (f : TaskForm) (hinv : ∀ t ∈ project.tasks, taskOrdered t)
    (hstart : f.taskStart = [] ∨ isCanonicalDate f.taskStart = true)
    (hend : f.taskEnd = [] ∨ isCanonicalDate f.taskEnd = true) :
    ∀ t ∈ (updateTask rt project editingTaskId f).tasks, taskOrdered t := by
  unfold updateTask
  cases editingTaskId with
  | none => exact hinv
  | some tid =>
    dsimp only
    by_cases h0 : tid.isEmpty = true
    · rw [if_pos h0]; exact hinv
    rw [if_neg h0]
    cases List.find? (fun x => x.id == tid) project.tasks with
    | none => exact hinv
    | some t0 =>
      dsimp only
      by_cases h1 : ((trim f.taskTitle).isEmpty || f.taskStart.isEmpty || f.taskEnd.isEmpty) = true
      · rw [if_pos h1]; exact hinv
      rw [if_neg h1]
      simp only [Bool.or_eq_true, not_or, Bool.not_eq_true] at h1
      obtain ⟨⟨-, h2⟩, h3⟩ := h1
      have hs : isCanonicalDate f.taskStart = true := by
        rcases hstart with h | h
        · rw [h] at h2; exact absurd h2 (by decide)
        · exact h
      have he : isCanonicalDate f.taskEnd = true := by
        rcases hend with h | h
        · rw [h] at h3; exact absurd h3 (by decide)
        · exact h
      rw [dateLt_canonical rt hz he hs]
      by_cases h4 : dayOf f.taskEnd < dayOf f.taskStart
      · simp only [h4, decide_True, if_true]; exact hinv
      · simp only [h4, decide_False, Bool.false_eq_true, if_false]
        intro t ht
        rcases mem_updateFirst _ _ _ _ ht with h | ⟨y, -, -, hty⟩
        · exact hinv t h
        · rw [hty]
          exact ⟨hs, he, by simp only; omega⟩

theorem forall₂_exists_right {α β : Type} {R : α → β → Prop} {l1 : List α} {l2 : List β}
    (h : List.Forall₂ R l1 l2) : ∀ a ∈ l1, ∃ b ∈ l2, R a b := by
  induction h with
  | nil => intro a ha; exact absurd ha (List.not_mem_nil _)
  | cons hab _ ih =>
    intro a ha
    rcases List.mem_cons.mp ha with h | h
    · subst h; exact ⟨_, List.mem_cons_self _ _, hab⟩
    · obtain ⟨b, hb, hr⟩ := ih a h
      exact ⟨b, List.mem_cons_of_mem _ hb, hr⟩

/-- When local time is UTC, the end that import works out for a resolvable row
with a canonical start and an end that is a canonical date not before the
start, or no end and a duration: a canonical date not before the start. -/
theorem resolveEnd_ordered (rt : Runtime) (hutc : rt.localTZA = 0) (row : Row)
    (hres : rowResolvable row = true) (hstart : isCanonicalDate row.start = true)
    (hend : (isCanonicalDate row.end_ = true ∧ dayOf row.start ≤ dayOf row.end_) ∨
      (row.end_ = [] ∧ ∀ d, parseIntValue row.duration_days = some d →
        dayOf row.start + d - 1 ≤ maxCanonicalDay)) :
    ∃ e, resolveEnd rt row = some e ∧ isCanonicalDate e = true ∧ dayOf row.start ≤ dayOf e := by
  have hlag : zoneLag rt = 0 := by simp [zoneLag, hutc]
  have hz : zoneOk rt := by unfold zoneOk; rw [hutc]; decide
  obtain ⟨es, s0, s1⟩ := isoOfDay_dayOf hstart
  rcases hend with ⟨he, hle⟩ | ⟨he, hd⟩
  · refine ⟨row.end_, ?_, he, hle⟩
    have hne := canonical_ne_nil he
    unfold resolveEnd
    cases h : row.end_ with
    | nil => exact absurd h hne
    | cons _ _ => simp
  · unfold rowResolvable at hres
    rw [he] at hres
    simp only [List.isEmpty_nil, Bool.not_true, Bool.false_or, Bool.and_eq_true,
      decide_eq_true_eq] at hres
    obtain ⟨-, hfin, hpos⟩ := hres
    cases hdv : parseIntValue row.duration_days with
    | none => rw [hdv] at hfin; exact absurd hfin (by simp [numberIsFinite])
    | some d =>
      rw [hdv] at hfin hpos
      simp only [Option.getD_some] at hpos
      have hhi := hd d hdv
      have hadd := addDays_isoOfDay rt hz (dayOf row.start) (d - 1) s0 s1
        (by rw [hlag]; omega) (by rw [hlag]; omega)
      rw [← es, hlag] at hadd
      refine ⟨isoOfDay (dayOf row.start + (d - 1) - 0), ?_, ?_, ?_⟩
      · unfold resolveEnd
        have hsne : row.start.isEmpty = false := by
          cases h : row.start with
          | nil => exact absurd h (canonical_ne_nil hstart)
          | cons _ _ => rfl
        simp only [hdv, hfin, he, hsne, Option.getD_some, hpos, decide_True, Bool.and_true,
          List.isEmpty_nil, Bool.not_false, if_true]
        exact hadd
      · exact isCanonicalDate_isoOfDay _ (by omega) (by omega)
      · rw [dayOf_isoOfDay _ (by omega) (by omega)]
        omega

/-- When local time is UTC, import keeps the ends of all tasks on or after their
starts if every row that becomes a task has a canonical start and either an end
that is a canonical date on or after the start, or no end and a duration. -/
theorem applyImportedTasks_keeps_order (rt : Runtime) (hutc : rt.localTZA = 0)
    (project : Project) (uuids : Nat) (rows : List Row)
    (hinv : ∀ t ∈ project.tasks, taskOrdered t)
    (hrows : ∀ row ∈ rows, rowResolvable row = true → isCanonicalDate row.start = true ∧
      ((isCanonicalDate row.end_ = true ∧ dayOf row.start ≤ dayOf row.end_) ∨
        (row.end_ = [] ∧ ∀ d, parseIntValue row.duration_days = some d →
          dayOf row.start + d - 1 ≤ maxCanonicalDay))) :
    (applyImportedTasks rt project uuids rows).threw = false ∧
    ∀ t ∈ (applyImportedTasks rt project uuids rows).project.tasks, taskOrdered t := by
  have hv : ∀ row ∈ rows, rowResolvable row = true →
      ∃ e s2 e2, resolveEnd rt row = some e ∧
        toISODate rt (DateArg.ofString row.start) = some s2 ∧
        toISODate rt (DateArg.ofString e) = some e2 := by
    intro row hrow hres
    obtain ⟨hs, he⟩ := hrows row hrow hres
    obtain ⟨e, h1, h2, -⟩ := resolveEnd_ordered rt hutc row hres hs he
    exact ⟨e, row.start, e, h1, toISODate_canonical_utc rt hutc hs,
      toISODate_canonical_utc rt hutc h2⟩
  obtain ⟨h1, new, h2, h3⟩ := importRows_appends rt rows
    ⟨project, JSMap.ofEntries (project.topics.map (fun t => (t.name, t.id))), uuids⟩ hv
  refine ⟨h1, ?_⟩
  intro t ht
  have ht' : t ∈ project.tasks ++ new := by
    unfold applyImportedTasks at ht
    simp only at ht
    rw [h2] at ht
    exact ht
  rcases List.mem_append.mp ht' with h | h
  · exact hinv t h
  · obtain ⟨row, hrow, -, -, hts, e, hte, htee⟩ := forall₂_exists_right h3 t h
    obtain ⟨hrow1, hrow2⟩ := List.mem_filter.mp hrow
    obtain ⟨hs, he⟩ := hrows row hrow1 hrow2
    obtain ⟨e2, k1, k2, k3⟩ := resolveEnd_ordered rt hutc row hrow2 hs he
    rw [k1] at hte
    simp only [Option.some.injEq] at hte
    subst hte
    rw [toISODate_canonical_utc rt hutc hs] at hts
    rw [toISODate_canonical_utc rt hutc k2] at htee
    simp only [Option.some.injEq] at hts htee
    refine ⟨by rw [← hts]; exact hs, by rw [← htee]; exact k2, ?_⟩
    rw [← hts, ← htee]
    exact k3

/-! ## Duration and the default window in every zone -/

/-- The end derived from a canonical start and a duration of `d` days, and the
duration read back from the two dates, in any zone: the end is `d - 1` days
after the start less the lag of the zone, and `diffDays(start, end) + 1`, which
`buildCSV` writes, is `d` less the lag. When local time is UTC the lag is 0. -/
theorem duration_zone (rt : Runtime) (hz : zoneOk rt) (z d : Int) (hd : 0 < d)
    (h0 : minCanonicalDay ≤ z - zoneLag rt) (h1 : z + d - 1 ≤ maxCanonicalDay)
    (id topicId title desc : Str) :
    addDays rt (isoOfDay z) (d - 1) = some (isoOfDay (z + (d - 1) - zoneLag rt)) ∧
    diffDays rt (isoOfDay z) (isoOfDay (z + (d - 1) - zoneLag rt)) = some (d - 1 - zoneLag rt) ∧
    durationCell rt ⟨id, topicId, title, desc, isoOfDay z, isoOfDay (z + (d - 1) - zoneLag rt)⟩
      = intToStr (d - zoneLag rt) := by
  obtain ⟨l0, l1⟩ := zoneLag_bounds rt
  have hadd := addDays_isoOfDay rt hz z (d - 1) (by omega) (by omega) (by omega) (by omega)
  have hdiff := diffDays_isoOfDay rt hz z (z + (d - 1) - zoneLag rt) (by omega) (by omega)
    (by omega) (by omega)
  have e : z + (d - 1) - zoneLag rt - z = d - 1 - zoneLag rt := by omega
  rw [e] at hdiff
  refine ⟨hadd, hdiff, ?_⟩
  have n1 := canonical_ne_nil (isCanonicalDate_isoOfDay z (by omega) (by omega))
  have n2 := canonical_ne_nil
    (isCanonicalDate_isoOfDay (z + (d - 1) - zoneLag rt) (by omega) (by omega))
  unfold durationCell
  simp only [hdiff]
  have k1 : (isoOfDay z).isEmpty = false := by
    cases h : isoOfDay z with
    | nil => exact absurd h n1
    | cons _ _ => rfl
  have k2 : (isoOfDay (z + (d - 1) - zoneLag rt)).isEmpty = false := by
    cases h : isoOfDay (z + (d - 1) - zoneLag rt) with
    | nil => exact absurd h n2
    | cons _ _ => rfl
  rw [k1, k2]
  simp only [Bool.not_false, Bool.and_self, if_true]
  congr 1
  omega

/-- When local time is UTC, a task from a canonical start to `addDays(start, d - 1)`
has `diffDays(start, end) + 1 = d`, and `buildCSV` writes `d`. -/
theorem duration_utc (rt : Runtime) (hutc : rt.localTZA = 0) (z d : Int) (hd : 0 < d)
    (h0 : minCanonicalDay ≤ z) (h1 : z + d - 1 ≤ maxCanonicalDay) (id topicId title desc : Str) :
    addDays rt (isoOfDay z) (d - 1) = some (isoOfDay (z + (d - 1))) ∧
    diffDays rt (isoOfDay z) (isoOfDay (z + (d - 1))) = some (d - 1) ∧
    durationCell rt ⟨id, topicId, title, desc, isoOfDay z, isoOfDay (z + (d - 1))⟩
      = intToStr d := by
  have hlag : zoneLag rt = 0 := by simp [zoneLag, hutc]
  have hz : zoneOk rt := by unfold zoneOk; rw [hutc]; decide
  have := duration_zone rt hz z d hd (by rw [hlag]; omega) h1 id topicId title desc
  rw [hlag] at this
  simpa using this

theorem eastLag_bounds (rt : Runtime) : 0 ≤ eastLag rt ∧ eastLag rt ≤ 1 := by
  unfold eastLag; split_ifs <;> omega

/-- The window of a project without tasks, in any zone: with today the local
date of `now`, `min` is 15 days before today and `max` 45 days after it, each
less one day east of UTC; `diffDays(min, max)` is 60. -/
theorem computeDateRange_empty_zone (rt : Runtime) (hz : zoneOk rt) (project : Option Project)
    (hempty : ∀ p, project = some p → p.tasks = []) (now : Int) (viewportW pxDay : Nat)
    (h0 : minCanonicalDay + 16 ≤ localDay rt now) (h1 : localDay rt now + 45 ≤ maxCanonicalDay) :
    computeDateRange rt project now viewportW pxDay
      = some (isoOfDay (localDay rt now - 15 - eastLag rt),
          isoOfDay (localDay rt now + 45 - eastLag rt)) ∧
    diffDays rt (isoOfDay (localDay rt now - 15 - eastLag rt))
      (isoOfDay (localDay rt now + 45 - eastLag rt)) = some 60 := by
  obtain ⟨e0, e1⟩ := eastLag_bounds rt
  have hdiff := diffDays_isoOfDay rt hz (localDay rt now - 15 - eastLag rt)
    (localDay rt now + 45 - eastLag rt) (by omega) (by omega) (by omega) (by omega)
  have e : localDay rt now + 45 - eastLag rt - (localDay rt now - 15 - eastLag rt) = 60 := by
    omega
  rw [e] at hdiff
  refine ⟨?_, hdiff⟩
  have hbranch : computeDateRange rt project now viewportW pxDay =
      (let today := setHours0 rt (some now)
       let start := setDate rt today ((getDate rt today).map (fun x => x - 15))
       let end1 := setDate rt today ((getDate rt today).map (fun x => x + 45))
       match toISODate rt (DateArg.ofDate start), toISODate rt (DateArg.ofDate end1) with
       | some min, some max => some (min, max)
       | _, _ => none) := by
    unfold computeDateRange
    cases project with
    | none => rfl
    | some p =>
      have := hempty p rfl
      simp only [Option.map_some', this]
      try rfl
  rw [hbranch]
  obtain ⟨hz0, hz1⟩ := hz
  set L := localDay rt now with hL
  simp only [minCanonicalDay, maxCanonicalDay] at h0 h1
  have htoday : setHours0 rt (some now) = some (L * msPerDay - rt.localTZA) := by
    simp only [setHours0, ← hL]
    unfold timeClip
    rw [if_pos]
    simp only [maxTime, msPerDay] at *
    constructor <;> omega
  have hsub : (fun x : Int => x - 15) = (fun x : Int => x + (-15)) := by
    funext x; omega
  simp only [htoday, hsub, setDate_getDate_add]
  have hc1 : timeClip (L * msPerDay - rt.localTZA + -15 * msPerDay)
      = some (L * msPerDay - rt.localTZA + -15 * msPerDay) := by
    unfold timeClip
    rw [if_pos]
    simp only [maxTime, msPerDay] at *
    constructor <;> omega
  have hc2 : timeClip (L * msPerDay - rt.localTZA + 45 * msPerDay)
      = some (L * msPerDay - rt.localTZA + 45 * msPerDay) := by
    unfold timeClip
    rw [if_pos]
    simp only [maxTime, msPerDay] at *
    constructor <;> omega
  have hd1 : (L * msPerDay - rt.localTZA + -15 * msPerDay) / msPerDay = L - 15 - eastLag rt := by
    simp only [eastLag, msPerDay] at *
    split_ifs <;> omega
  have hd2 : (L * msPerDay - rt.localTZA + 45 * msPerDay) / msPerDay = L + 45 - eastLag rt := by
    simp only [eastLag, msPerDay] at *
    split_ifs <;> omega
  rw [hc1, hc2]
  rw [toISODate_ofDate_midnight rt _ (by simp only [msPerDay] at *; omega)
      (by rw [hd1]; simp only [minCanonicalDay]; omega)
      (by rw [hd1]; simp only [maxCanonicalDay]; omega),
    toISODate_ofDate_midnight rt _ (by simp only [msPerDay] at *; omega)
      (by rw [hd2]; simp only [minCanonicalDay]; omega)
      (by rw [hd2]; simp only [maxCanonicalDay]; omega), hd1, hd2]

/-- At UTC and west of it, the window of a project without tasks runs from 15
days before today to 45 days after it. -/
theorem computeDateRange_empty_utc (rt : Runtime) (hz : zoneOk rt) (hwest : rt.localTZA ≤ 0)
    (project : Option Project) (hempty : ∀ p, project = some p → p.tasks = []) (now : Int)
    (viewportW pxDay : Nat) (h0 : minCanonicalDay + 16 ≤ localDay rt now)
    (h1 : localDay rt now + 45 ≤ maxCanonicalDay) :
    computeDateRange rt project now viewportW pxDay
      = some (isoOfDay (localDay rt now - 15), isoOfDay (localDay rt now + 45)) := by
  have hlag : eastLag rt = 0 := by unfold eastLag; rw [if_neg (by omega)]
  have := (computeDateRange_empty_zone rt hz project hempty now viewportW pxDay h0 h1).1
  rw [hlag] at this
  simpa using this

/-- What keeps the order of the dates of a task, in a zone at a fixed offset of
less than a day from UTC: in a project whose tasks all have their end on or
after their start, adding a task and updating a task with the form, whose dates
are canonical dates or empty and in range, leave every task with its end on or
after its start. Import compares no dates: when local time is UTC it leaves
every task so if each row that becomes a task has a canonical start and either
an end that is a canonical date on or after the start, or no end and a
duration. -/
theorem task_order_kept (rt : Runtime) (hz : zoneOk rt) (project : Project) (uuids : Nat)
    (hinv : ∀ t ∈ project.tasks, taskOrdered t) :
    (∀ f : TaskForm, (f.taskStart = [] ∨ isCanonicalDate f.taskStart = true) →
      (f.taskEnd = [] ∨ isCanonicalDate f.taskEnd = true) →
      minCanonicalDay ≤ dayOf f.taskStart - zoneLag rt →
      (∀ d, parseIntValue f.taskDuration = some d →
        dayOf f.taskStart + d - 1 ≤ maxCanonicalDay) →
      ∀ t ∈ (addTask rt project uuids f).1.tasks, taskOrdered t) ∧
    (∀ (editingTaskId : Option Str) (f : TaskForm),
      (f.taskStart = [] ∨ isCanonicalDate f.taskStart = true) →
      (f.taskEnd = [] ∨ isCanonicalDate f.taskEnd = true) →
      ∀ t ∈ (updateTask rt project editingTaskId f).tasks, taskOrdered t) ∧
    (rt.localTZA = 0 → ∀ rows : List Row,
      (∀ row ∈ rows, rowResolvable row = true → isCanonicalDate row.start = true ∧
        ((isCanonicalDate row.end_ = true ∧ dayOf row.start ≤ dayOf row.end_) ∨
          (row.end_ = [] ∧ ∀ d, parseIntValue row.duration_days = some d →
            dayOf row.start + d - 1 ≤ maxCanonicalDay))) →
      (applyImportedTasks rt project uuids rows).threw = false ∧
      ∀ t ∈ (applyImportedTasks rt project uuids rows).project.tasks, taskOrdered t) :=
  ⟨fun f h1 h2 h3 h4 => addTask_keeps_order rt hz project uuids f hinv h1 h2 h3 h4,
    fun e f h1 h2 => updateTask_keeps_order rt hz project e f hinv h1 h2,
    fun hutc rows hrows => applyImportedTasks_keeps_order rt hutc project uuids rows hinv hrows⟩

/-- An example of it: two hours east of UTC, a task from 2024-03-01 with a
duration of 3 days is added to the sample project with the form. -/
theorem task_order_kept_witness :
    zoneOk utcPlus2Host ∧ (∀ t ∈ sampleProject.tasks, taskOrdered t) ∧
    ∀ t ∈ (addTask utcPlus2Host sampleProject 0
      ⟨"home".toList, "New".toList, [], "2024-03-01".toList, [], "3".toList⟩).1.tasks,
      taskOrdered t :=
  ⟨by decide, by decide,
    (task_order_kept utcPlus2Host (by decide) sampleProject 0 (by decide)).1
      ⟨"home".toList, "New".toList, [], "2024-03-01".toList, [], "3".toList⟩
      (by decide) (by decide) (by decide)
      (fun d h => by
        have h3 : parseIntValue "3".toList = some 3 := by decide
        rw [show (⟨"home".toList, "New".toList, [], "2024-03-01".toList, [], "3".toList⟩ :
          TaskForm).taskDuration = "3".toList from rfl, h3] at h
        cases h
        decide)⟩

/-! ## Rows of an import that add no task -/

theorem JSMap.keys_set {β : Type} (m : JSMap β) (k : Str) (v : β) (x : Str) :
    x ∈ (JSMap.set m k v).map Prod.fst ↔ x ∈ m.map Prod.fst ∨ x = k := by
  induction m with
  | nil => simp [JSMap.set]
  | cons e m ih =>
    simp only [JSMap.set]
    by_cases he : (e.1 == k) = true
    · rw [if_pos he]
      have hek : e.1 = k := by simpa using he
      simp only [List.map_cons, List.mem_cons, hek]
      tauto
    · rw [if_neg he]
      simp only [List.map_cons, List.mem_cons, ih]
      tauto

theorem JSMap.keys_ofEntries {β : Type} (l : List (Str × β)) (x : Str) :
    x ∈ (JSMap.ofEntries l).map Prod.fst ↔ x ∈ l.map Prod.fst := by
  unfold JSMap.ofEntries
  suffices h : ∀ g : JSMap β,
      (x ∈ (l.foldl (fun m e => JSMap.set m e.1 e.2) g).map Prod.fst ↔
        x ∈ g.map Prod.fst ∨ x ∈ l.map Prod.fst) by
    have h0 := h []
    simp only [List.map_nil, List.not_mem_nil, false_or] at h0
    exact h0
  induction l with
  | nil =>
    intro g
    simp only [List.foldl_nil, List.map_nil, List.not_mem_nil, or_false]
  | cons e l ih =>
    intro g
    simp only [List.foldl_cons, ih, JSMap.keys_set, List.map_cons, List.mem_cons]
    tauto

/-- A row without a title leaves the state of the import as it found it. -/
theorem importRow_no_title (rt : Runtime) (st : ImportState) (row : Row) (h : row.title = []) :
    importRow rt st row = (st, false) := by
  unfold importRow
  rw [if_pos (by rw [h]; rfl)]

/-- A row without a title can be taken out of a batch. -/
theorem importRows_no_title (rt : Runtime) (before after : List Row) (row : Row)
    (h : row.title = []) (st : ImportState) :
    importRows rt st (before ++ row :: after) = importRows rt st (before ++ after) := by
  induction before generalizing st with
  | nil =>
    simp only [List.nil_append]
    rw [importRows_cons, importRow_no_title rt st row h]
    simp
  | cons r before ih =>
    simp only [List.cons_append]
    rw [importRows_cons, importRows_cons rt st r (before ++ after), ih]

/-- The topic part of a row whose topic name is new and whose slug is no id of
the project: one topic is appended. -/
theorem resolveTopic_new (rt : Runtime) (st : ImportState) (row : Row)
    (htopic : row.topic ≠ []) (hname : row.topic ∉ st.nameToId.map Prod.fst)
    (hid : ∀ t ∈ st.project.topics, t.id ≠ (slugId rt row.topic st.uuids).1) :
    (resolveTopic rt st row).1.project.topics =
      st.project.topics ++
        [⟨(slugId rt row.topic st.uuids).1, row.topic, randomColorFromName row.topic⟩] := by
  unfold resolveTopic
  have h1 : row.topic.isEmpty = false := by
    cases hrt : row.topic with
    | nil => exact absurd hrt htopic
    | cons a b => rfl
  have h2 : st.nameToId.has row.topic = false := by
    rw [← Bool.not_eq_true, JSMap.has_iff]
    exact hname
  have h3 : st.project.topics.any (fun t => t.id == (slugId rt row.topic st.uuids).1) = false := by
    rw [← Bool.not_eq_true, List.any_eq_true]
    rintro ⟨t, ht, he⟩
    exact hid t ht (by simpa using he)
  simp only [h1, h2, h3, Bool.false_eq_true, if_false]

/-- A row with a title and no start adds no task and throws no error; its topic
part is all it does. -/
theorem importRow_no_start (rt : Runtime) (st : ImportState) (row : Row)
    (htitle : row.title ≠ []) (hstart : row.start = []) :
    importRow rt st row = ((resolveTopic rt st row).1, false) := by
  unfold importRow
  have h1 : row.title.isEmpty = false := by
    cases hrt : row.title with
    | nil => exact absurd hrt htitle
    | cons a b => rfl
  have h2 : resolveEnd rt row = some row.end_ := by
    unfold resolveEnd
    simp [hstart]
  simp only [h1, h2, hstart, Bool.false_eq_true, if_false]
  rfl

/-- C21: a row that is skipped can still change the project. There is a project
and a row with a title, a topic name that is no name and no id of a topic of the
project, and no start, for which `applyImportedTasks` adds no task and appends a
new topic to `project.topics`. In general, for every project and every row with
a title, no start, and a topic name that is not empty, is no name of a topic of
the project and whose `slugId` is no id of one, `applyImportedTasks` throws no
error, leaves `project.tasks` as it was and appends to `project.topics` the
topic with that `slugId`, that name and the colour `randomColorFromName` gives
it. For every row without a title the project is left as it was, no error is
thrown and no UUID is drawn; such a row can be taken out of any batch of rows
without a change to the outcome. -/
theorem skipped_row_adds_topic :
    (∃ (project : Project) (row : Row), row.title ≠ [] ∧ row.start = [] ∧
      (∀ t ∈ project.topics, t.name ≠ row.topic ∧ t.id ≠ row.topic) ∧
      (applyImportedTasks utcHost project 0 [row]).threw = false ∧
      (applyImportedTasks utcHost project 0 [row]).project.tasks = project.tasks ∧
      (applyImportedTasks utcHost project 0 [row]).project.topics
        = project.topics ++ [⟨"garden".toList, row.topic, randomColorFromName row.topic⟩] ∧
      (applyImportedTasks utcHost project 0 [row]).project.topics ≠ project.topics) ∧
    (∀ (rt : Runtime) (project : Project) (uuids : Nat) (row : Row),
      row.title ≠ [] → row.start = [] → row.topic ≠ [] →
      (∀ t ∈ project.topics, t.name ≠ row.topic) →
      (∀ t ∈ project.topics, t.id ≠ (slugId rt row.topic uuids).1) →
      (applyImportedTasks rt project uuids [row]).threw = false ∧
      (applyImportedTasks rt project uuids [row]).project.tasks = project.tasks ∧
      (applyImportedTasks rt project uuids [row]).project.topics
        = project.topics ++
          [⟨(slugId rt row.topic uuids).1, row.topic, randomColorFromName row.topic⟩]) ∧
    (∀ (rt : Runtime) (project : Project) (uuids : Nat) (row : Row), row.title = [] →
      (applyImportedTasks rt project uuids [row]).project = project ∧
      (applyImportedTasks rt project uuids [row]).threw = false ∧
      (applyImportedTasks rt project uuids [row]).uuids = uuids ∧
      ∀ before after : List Row,
        applyImportedTasks rt project uuids (before ++ row :: after)
          = applyImportedTasks rt project uuids (before ++ after)) := by
  refine ⟨⟨sampleProject, ⟨"Garden".toList, "Dig".toList, [], "2024-01-12".toList, "3".toList,
    []⟩, by decide, rfl, by decide, by decide, by decide, by decide, by decide⟩, ?_, ?_⟩
  · intro rt project uuids row htitle hstart htopic hname hid
    have hrow : importRows rt
        ⟨project, JSMap.ofEntries (project.topics.map (fun t => (t.name, t.id))), uuids⟩ [row]
        = ((resolveTopic rt
            ⟨project, JSMap.ofEntries (project.topics.map (fun t => (t.name, t.id))), uuids⟩
            row).1, false) := by
      rw [importRows_cons, importRow_no_start rt _ row htitle hstart]
      simp [importRows]
    have hkeys : row.topic ∉ (JSMap.ofEntries
        (project.topics.map (fun t => (t.name, t.id)))).map Prod.fst := by
      rw [JSMap.keys_ofEntries]
      simp only [List.map_map, List.mem_map, Function.comp, not_exists, not_and]
      intro t ht
      exact hname t ht
    simp only [applyImportedTasks, hrow]
    refine ⟨trivial, ?_, ?_⟩
    · exact resolveTopic_tasks rt _ row
    · exact resolveTopic_new rt _ row htopic hkeys hid
  · intro rt project uuids row htitle
    refine ⟨?_, ?_, ?_, ?_⟩
    · simp only [applyImportedTasks]
      rw [importRows_cons, importRow_no_title rt _ row htitle]
      simp [importRows]
    · simp only [applyImportedTasks]
      rw [importRows_cons, importRow_no_title rt _ row htitle]
      simp [importRows]
    · simp only [applyImportedTasks]
      rw [importRows_cons, importRow_no_title rt _ row htitle]
      simp [importRows]
    · intro before after
      simp only [applyImportedTasks]
      rw [importRows_no_title rt before after row htitle]

/-- C21 (witness): the sample project, whose topics are the sentinel, Work Items
and Home, and a row with the title Dig, the topic Garden and no start: the
topic `garden` is appended and no task is added. A row without title, with the
same topic, changes nothing. -/
theorem skipped_row_adds_topic_witness :
    ((applyImportedTasks utcHost sampleProject 0
        [⟨"Garden".toList, "Dig".toList, [], "2024-01-12".toList, "3".toList, []⟩]).threw = false ∧
      (applyImportedTasks utcHost sampleProject 0
        [⟨"Garden".toList, "Dig".toList, [], "2024-01-12".toList, "3".toList, []⟩]).project.tasks
        = sampleProject.tasks ∧
      (applyImportedTasks utcHost sampleProject 0
        [⟨"Garden".toList, "Dig".toList, [], "2024-01-12".toList, "3".toList, []⟩]).project.topics
        = sampleProject.topics ++
          [⟨(slugId utcHost "Garden".toList 0).1, "Garden".toList,
            randomColorFromName "Garden".toList⟩]) ∧
    (applyImportedTasks utcHost sampleProject 0
        [⟨"Garden".toList, [], "2024-01-10".toList, "2024-01-12".toList, [], []⟩]).project
      = sampleProject :=
  ⟨skipped_row_adds_topic.2.1 utcHost sampleProject 0
      ⟨"Garden".toList, "Dig".toList, [], "2024-01-12".toList, "3".toList, []⟩
      (by decide) rfl (by decide) (by decide) (by decide),
    (skipped_row_adds_topic.2.2 utcHost sampleProject 0
      ⟨"Garden".toList, [], "2024-01-10".toList, "2024-01-12".toList, [], []⟩ rfl).1⟩

/-! ## Week segments in every zone -/

theorem daysFromCivil_add_day (y m d k : Int) :
    daysFromCivil y m (d + k) = daysFromCivil y m d + k := by
  simp only [daysFromCivil]
  omega

theorem year_ge_of_day_ge (z : Int) (h : daysFromCivil 100 1 1 ≤ z) :
    100 ≤ (civilFromDays z).1 := by
  obtain ⟨v1, v2, v3, v4⟩ := civilFromDays_valid z
  have hv4 := le_trans v4 (daysInMonth_le _ _)
  have hz := daysFromCivil_civilFromDays z
  by_contra hlt
  have key := (daysFromCivil_lt_iff (civilFromDays z).1 (civilFromDays z).2.1 (civilFromDays z).2.2
    100 1 1 v1 v2 v3 v4 (by decide) (by decide) (by decide) (by decide)).mpr (by omega)
  omega

theorem year_start_le (z : Int) : daysFromCivil (civilFromDays z).1 1 1 ≤ z := by
  obtain ⟨v1, v2, v3, v4⟩ := civilFromDays_valid z
  have hz := daysFromCivil_civilFromDays z
  by_contra hlt
  have h1 : 1 ≤ daysInMonth (civilFromDays z).1 1 := by
    simp only [daysInMonth]
    norm_num
  have key := (daysFromCivil_lt_iff (civilFromDays z).1 (civilFromDays z).2.1 (civilFromDays z).2.2
    (civilFromDays z).1 1 1 v1 v2 v3 v4 (by decide) (by decide) (by decide) h1).mp (by omega)
  omega

theorem dateUTC_civil (l : Int) (hy : 100 ≤ (civilFromDays l).1) (h0 : -100000000 < l)
    (h1 : l < 100000000 - 1) :
    dateUTC (some (civilFromDays l).1) (some ((civilFromDays l).2.1 - 1))
      (some (civilFromDays l).2.2) = some (l * msPerDay) := by
  obtain ⟨v1, v2, v3, v4⟩ := civilFromDays_valid l
  have hz := daysFromCivil_civilFromDays l
  simp only [dateUTC]
  rw [if_neg (by omega)]
  have e1 : (civilFromDays l).1 + ((civilFromDays l).2.1 - 1) / 12 = (civilFromDays l).1 := by
    omega
  have e2 : ((civilFromDays l).2.1 - 1) % 12 + 1 = (civilFromDays l).2.1 := by omega
  rw [e1, e2, hz]
  have := timeClip_of_day l 0 h0 h1 (by simp [msPerDay]) (by simp [msPerDay])
  simpa using this

theorem mul_msPerDay_div (l : Int) : l * msPerDay / msPerDay = l :=
  Int.mul_ediv_cancel l (by decide)

theorem mul_msPerDay_mod (l : Int) : l * msPerDay % msPerDay = 0 :=
  Int.mul_emod_left l msPerDay

/-- The `weekNum` of `buildWEEKS` is the ISO 8601 week number of the local date,
for dates from 0100-01-04 on. -/
theorem weekNum_local (rt : Runtime) (t : Int) (h0 : daysFromCivil 100 1 4 ≤ localDay rt t)
    (h1 : localDay rt t ≤ maxCanonicalDay) :
    weekNum rt (some t) = some (isoWeekNumber (localDay rt t)) := by
  generalize hl : localDay rt t = l at h0 h1 ⊢
  have c1 : daysFromCivil 100 1 1 = -683003 := by decide
  have c4 : daysFromCivil 100 1 4 = -683000 := by decide
  simp only [maxCanonicalDay] at h1
  rw [c4] at h0
  have hy : 100 ≤ (civilFromDays l).1 := year_ge_of_day_ge l (by omega)
  have hd := dateUTC_civil l hy (by omega) (by omega)
  simp only [weekNum, getFullYear, getMonth, getDate, hl, hd, getUTCDay, getUTCDate,
    mul_msPerDay_div, Option.map_some']
  generalize hk : (if weekDay l = 0 then 7 else weekDay l) = dayNum
  have hk1 : dayNum = (l + 3) % 7 + 1 := by
    rw [← hk]
    simp only [weekDay]
    split_ifs <;> omega
  have hset : setUTCDate (some (l * msPerDay)) (some ((civilFromDays l).2.2 + 4 - dayNum))
      = some ((l + 4 - dayNum) * msPerDay) := by
    simp only [setUTCDate, mul_msPerDay_div, mul_msPerDay_mod]
    have e : (civilFromDays l).2.2 + 4 - dayNum = (civilFromDays l).2.2 + (4 - dayNum) := by omega
    rw [e, daysFromCivil_add_day, daysFromCivil_civilFromDays]
    have := timeClip_of_day (l + (4 - dayNum)) 0 (by omega) (by omega) (by simp [msPerDay])
      (by simp [msPerDay])
    have e2 : l + (4 - dayNum) = l + 4 - dayNum := by omega
    rw [e2] at this ⊢
    rw [this, add_zero]
  rw [hset]
  simp only [getUTCFullYear, mul_msPerDay_div]
  have hY : 100 ≤ (civilFromDays (l + 4 - dayNum)).1 := year_ge_of_day_ge _ (by omega)
  have hJ1 := year_start_le (l + 4 - dayNum)
  have hJ0 : daysFromCivil 100 1 1 ≤ daysFromCivil (civilFromDays (l + 4 - dayNum)).1 1 1 := by
    by_contra hlt
    have hm : 1 ≤ daysInMonth (civilFromDays (l + 4 - dayNum)).1 1 := by
      simp only [daysInMonth]
      norm_num
    have key := (daysFromCivil_lt_iff (civilFromDays (l + 4 - dayNum)).1 1 1 100 1 1
      (by decide) (by decide) (by decide) hm (by decide) (by decide) (by decide)
      (by decide)).mp (by omega)
    omega
  have hJ4 := daysFromCivil_add_day (civilFromDays (l + 4 - dayNum)).1 1 1 3
  have hstart : dateUTC (some (civilFromDays (l + 4 - dayNum)).1) (some 0) (some 1)
      = some (daysFromCivil (civilFromDays (l + 4 - dayNum)).1 1 1 * msPerDay) := by
    simp only [dateUTC]
    rw [if_neg (by omega)]
    have := timeClip_of_day (daysFromCivil (civilFromDays (l + 4 - dayNum)).1 1 1) 0 (by omega)
      (by omega) (by simp [msPerDay]) (by simp [msPerDay])
    simpa using this
  rw [hstart]
  simp only [isoWeekNumber, isoWeekYear, isoWeek1Monday, isoWeekMonday, ceilDiv]
  have eT : l - (l + 3) % 7 + 3 = l + 4 - dayNum := by omega
  rw [eT]
  have e4 : daysFromCivil (civilFromDays (l + 4 - dayNum)).1 1 4
      = daysFromCivil (civilFromDays (l + 4 - dayNum)).1 1 1 + 3 := by
    simpa using hJ4
  rw [e4]
  generalize daysFromCivil (civilFromDays (l + 4 - dayNum)).1 1 1 = J at *
  simp only [msPerDay]
  congr 1
  omega

theorem westLag_bounds (rt : Runtime) : 0 ≤ westLag rt ∧ westLag rt ≤ 1 := by
  unfold westLag; split_ifs <;> omega

/-- The local date of the `Date` that `parseISODate` returns for a canonical
date: the date itself, and the day before it west of UTC. -/
theorem parseISODate_localDay (rt : Runtime) (hz : zoneOk rt) (z : Int)
    (h0 : minCanonicalDay ≤ z) (h1 : z ≤ maxCanonicalDay) :
    ∃ t, parseISODate rt (isoOfDay z) = some t ∧ localDay rt t = z - westLag rt := by
  obtain ⟨t, ht, hm, hd, -⟩ := parseISODate_isoOfDay rt hz z h0 h1
  refine ⟨t, ht, ?_⟩
  obtain ⟨hz0, hz1⟩ := hz
  simp only [localDay, westLag, zoneLag, msPerDay] at *
  split_ifs at hd ⊢ <;> omega

/-- One turn of the loop of `buildWEEKS` on a canonical date. -/
theorem weekStep_day (rt : Runtime) (hz : zoneOk rt) (z : Int) (h0 : daysFromCivil 100 1 5 ≤ z)
    (h1 : z ≤ maxCanonicalDay) (st : WeekScan) (i : Nat) :
    weekStep rt st i (isoOfDay z) =
      if i = 0 then ⟨st.segs, 0, some (isoWeekNumber (z - westLag rt))⟩
      else if weekDay (z - westLag rt) = 1 then
        ⟨st.segs ++ [⟨st.curWeek, st.segStart, i⟩], i, some (isoWeekNumber (z - westLag rt))⟩
      else st := by
  have c5 : daysFromCivil 100 1 5 = -682999 := by decide
  have c4 : daysFromCivil 100 1 4 = -683000 := by decide
  rw [c5] at h0
  obtain ⟨w0, w1⟩ := westLag_bounds rt
  obtain ⟨t, ht, hloc⟩ := parseISODate_localDay rt hz z (by simp only [minCanonicalDay]; omega) h1
  have hw := weekNum_local rt t (by rw [hloc, c4]; omega)
    (by rw [hloc]; simp only [maxCanonicalDay] at h1 ⊢; omega)
  rw [hloc] at hw
  simp only [weekStep, ht, hw, getDay, hloc]
  by_cases hi : i = 0
  · rw [if_pos hi, if_pos hi]
  · rw [if_neg hi, if_neg hi]
    by_cases hm : weekDay (z - westLag rt) = 1
    · rw [if_pos hm, if_pos (by rw [hm]; rfl)]
    · rw [if_neg hm, if_neg]
      intro h
      apply hm
      simpa using h

theorem segChain_snoc (l : List WeekSeg) (a b : Nat) (s : WeekSeg) (h : segChain l a b)
    (hs : s.start = b) : segChain (l ++ [s]) a s.end_ := by
  induction l generalizing a with
  | nil =>
    simp only [segChain] at h
    simp only [List.nil_append, segChain]
    exact ⟨by rw [hs, h], trivial⟩
  | cons x l ih =>
    simp only [segChain] at h
    simp only [List.cons_append, segChain]
    exact ⟨h.1, ih _ h.2⟩

theorem buildWEEKSLoop_cons (rt : Runtime) (date : Str) (rest : List Str) (i : Nat)
    (st : WeekScan) :
    buildWEEKSLoop rt (date :: rest) i st = buildWEEKSLoop rt rest (i + 1) (weekStep rt st i date) :=
  rfl

/-- The open segment of the loop, one day later, when that day is no Monday. -/
theorem weekSegOk_extend (l : Int) (w : Option Int) (a i : Nat)
    (h : weekSegOk l ⟨w, a, i⟩) (hm : weekDay (l + (i : Int)) ≠ 1) :
    weekSegOk l ⟨w, a, i + 1⟩ := by
  obtain ⟨p1, p2, p3, p4, p5⟩ := h
  simp only at p1 p2 p3 p4 p5
  refine ⟨by simp only; omega, p2, ?_, p4, ?_⟩
  · intro j hj1 hj2
    simp only at hj1 hj2
    by_cases hji : j = i
    · rw [hji]; exact hm
    · exact p3 j hj1 (by omega)
  · intro j hj1 hj2
    simp only at hj1 hj2 ⊢
    by_cases hji : j = i
    · have hprev := p5 (i - 1) (by omega) (by omega)
      rw [hji, ← hprev]
      have hc : ((i - 1 : Nat) : Int) = (i : Int) - 1 := by omega
      rw [hc]
      simp only [weekDay, isoWeekMonday] at hm ⊢
      omega
    · exact p5 j hj1 (by omega)

/-- A segment that starts on a Monday, of one day. -/
theorem weekSegOk_monday (l : Int) (i : Nat) (hm : weekDay (l + (i : Int)) = 1) :
    weekSegOk l ⟨some (isoWeekNumber (l + (i : Int))), i, i + 1⟩ := by
  refine ⟨by simp only; omega, fun _ => hm, ?_, rfl, ?_⟩
  · intro j hj1 hj2
    simp only at hj1 hj2
    omega
  · intro j hj1 hj2
    simp only at hj1 hj2 ⊢
    have : j = i := by omega
    rw [this]

/-- The loop of `buildWEEKS` over the days at the indices `i` to `i + k - 1`
keeps the segments as the claim describes them. -/
theorem buildWEEKSLoop_spec (rt : Runtime) (hz : zoneOk rt) (z : Int)
    (h0 : daysFromCivil 100 1 5 ≤ z) (k : Nat) :
    ∀ (i : Nat) (st : WeekScan), 1 ≤ i → z + ((i + k : Nat) : Int) ≤ maxCanonicalDay + 1 →
      segChain st.segs 0 st.segStart → (∀ s ∈ st.segs, weekSegOk (z - westLag rt) s) →
      weekSegOk (z - westLag rt) ⟨st.curWeek, st.segStart, i⟩ →
      segChain (buildWEEKSLoop rt
          ((List.range' i k).map (fun j : Nat => isoOfDay (z + (j : Int)))) i st).segs 0
        (buildWEEKSLoop rt
          ((List.range' i k).map (fun j : Nat => isoOfDay (z + (j : Int)))) i st).segStart ∧
      (∀ s ∈ (buildWEEKSLoop rt
          ((List.range' i k).map (fun j : Nat => isoOfDay (z + (j : Int)))) i st).segs,
        weekSegOk (z - westLag rt) s) ∧
      weekSegOk (z - westLag rt)
        ⟨(buildWEEKSLoop rt
            ((List.range' i k).map (fun j : Nat => isoOfDay (z + (j : Int)))) i st).curWeek,
          (buildWEEKSLoop rt
            ((List.range' i k).map (fun j : Nat => isoOfDay (z + (j : Int)))) i st).segStart,
          i + k⟩ := by
  induction k with
  | zero =>
    intro i st _ _ hc hs ho
    simp only [List.range'_zero, List.map_nil, buildWEEKSLoop, Nat.add_zero]
    exact ⟨hc, hs, ho⟩
  | succ k ih =>
    intro i st hi hb hc hs ho
    have c5 : daysFromCivil 100 1 5 = -682999 := by decide
    have hstep := weekStep_day rt hz (z + (i : Int)) (by rw [c5] at h0 ⊢; omega)
      (by push_cast at hb; omega) st i
    rw [if_neg (by omega)] at hstep
    simp only [List.range'_succ, List.map_cons, buildWEEKSLoop_cons]
    have e : z + (i : Int) - westLag rt = z - westLag rt + (i : Int) := by omega
    rw [e] at hstep
    have hik : i + (k + 1) = (i + 1) + k := by omega
    rw [hik]
    by_cases hm : weekDay (z - westLag rt + (i : Int)) = 1
    · rw [if_pos hm] at hstep
      rw [hstep]
      apply ih (i + 1) _ (by omega) (by rw [← hik]; exact hb)
      · exact segChain_snoc st.segs 0 st.segStart ⟨st.curWeek, st.segStart, i⟩ hc rfl
      · intro s hs1
        rcases List.mem_append.mp hs1 with h | h
        · exact hs s h
        · rw [List.mem_singleton.mp h]
          exact ho
      · exact weekSegOk_monday (z - westLag rt) i hm
    · rw [if_neg hm] at hstep
      rw [hstep]
      exact ih (i + 1) st (by omega) (by rw [← hik]; exact hb) hc hs
        (weekSegOk_extend (z - westLag rt) st.curWeek st.segStart i ho hm)

theorem consecutiveDays_succ (z : Int) (k : Nat) :
    consecutiveDays z (k + 1)
      = isoOfDay z :: (List.range' 1 k).map (fun j : Nat => isoOfDay (z + (j : Int))) := by
  simp only [consecutiveDays, List.range_eq_range', List.range'_succ, List.map_cons,
    Nat.cast_zero, add_zero, Nat.zero_add]

theorem consecutiveDays_length (z : Int) (n : Nat) : (consecutiveDays z n).length = n := by
  simp only [consecutiveDays, List.length_map, List.length_range]

/-- Week segments in every zone: for a window of `n` consecutive calendar
days from day `z` on, not before 0100-01-05, the segments of `buildWEEKS` follow
one another from index 0 to index `n`, and each of them is as the claim says
for the days that `buildWEEKS` sees, which are the days of the window, and the
days before them west of UTC: it is not empty, it starts on a Monday unless it
is the first, it has no Monday strictly inside, its week is the ISO week number
of its first day and all its days are of that ISO week. A window of one day
has one segment. -/
theorem buildWEEKS_zone (rt : Runtime) (hz : zoneOk rt) (z : Int) (n : Nat) (hn : 0 < n)
    (h0 : daysFromCivil 100 1 5 ≤ z) (h1 : z + (n : Int) ≤ maxCanonicalDay + 1) :
    segChain (buildWEEKS rt (consecutiveDays z n)) 0 n ∧
    (∀ s ∈ buildWEEKS rt (consecutiveDays z n), weekSegOk (z - westLag rt) s) ∧
    (n = 1 → buildWEEKS rt (consecutiveDays z n)
      = [⟨some (isoWeekNumber (z - westLag rt)), 0, 1⟩]) := by
  obtain ⟨k, rfl⟩ : ∃ k, n = k + 1 := ⟨n - 1, by omega⟩
  have c5 : daysFromCivil 100 1 5 = -682999 := by decide
  have hstep := weekStep_day rt hz z h0 (by push_cast at h1; omega) ⟨[], 0, none⟩ 0
  rw [if_pos rfl] at hstep
  have hbuild : buildWEEKS rt (consecutiveDays z (k + 1)) =
      (buildWEEKSLoop rt ((List.range' 1 k).map (fun j : Nat => isoOfDay (z + (j : Int)))) 1
          ⟨[], 0, some (isoWeekNumber (z - westLag rt))⟩).segs ++
        [⟨(buildWEEKSLoop rt ((List.range' 1 k).map (fun j : Nat => isoOfDay (z + (j : Int)))) 1
            ⟨[], 0, some (isoWeekNumber (z - westLag rt))⟩).curWeek,
          (buildWEEKSLoop rt ((List.range' 1 k).map (fun j : Nat => isoOfDay (z + (j : Int)))) 1
            ⟨[], 0, some (isoWeekNumber (z - westLag rt))⟩).segStart, k + 1⟩] := by
    unfold buildWEEKS
    rw [if_neg (by rw [consecutiveDays_length]; omega), consecutiveDays_length]
    simp only [consecutiveDays_succ, buildWEEKSLoop_cons, hstep]
  have hopen : weekSegOk (z - westLag rt) ⟨some (isoWeekNumber (z - westLag rt)), 0, 1⟩ := by
    refine ⟨by simp only; omega, fun h => absurd rfl h, ?_, ?_, ?_⟩
    · intro j hj1 hj2
      simp only at hj1 hj2
      omega
    · simp only [Nat.cast_zero, add_zero]
    · intro j hj1 hj2
      simp only at hj1 hj2 ⊢
      have : j = 0 := by omega
      rw [this]
  obtain ⟨r1, r2, r3⟩ := buildWEEKSLoop_spec rt hz z h0 k 1
    ⟨[], 0, some (isoWeekNumber (z - westLag rt))⟩ (le_refl 1)
    (by push_cast at h1 ⊢; omega) rfl (fun s hs => absurd hs (List.not_mem_nil s)) hopen
  rw [hbuild]
  refine ⟨?_, ?_, ?_⟩
  · have := segChain_snoc _ 0 _ ⟨(buildWEEKSLoop rt
        ((List.range' 1 k).map (fun j : Nat => isoOfDay (z + (j : Int)))) 1
        ⟨[], 0, some (isoWeekNumber (z - westLag rt))⟩).curWeek,
      (buildWEEKSLoop rt ((List.range' 1 k).map (fun j : Nat => isoOfDay (z + (j : Int)))) 1
        ⟨[], 0, some (isoWeekNumber (z - westLag rt))⟩).segStart, k + 1⟩ r1 rfl
    exact this
  · intro s hs
    rcases List.mem_append.mp hs with h | h
    · exact r2 s h
    · rw [List.mem_singleton.mp h, Nat.add_comm k 1]
      exact r3
  · intro hk
    have hk0 : k = 0 := by omega
    subst hk0
    simp only [List.range'_zero, List.map_nil, buildWEEKSLoop, List.nil_append, Nat.zero_add]

/-- Week segments when local time is UTC or east of it: the claim, for
windows not before 0100-01-05. -/
theorem buildWEEKS_utc (rt : Runtime) (hz : zoneOk rt) (hutc : 0 ≤ rt.localTZA) (z : Int)
    (n : Nat) (hn : 0 < n) (h0 : daysFromCivil 100 1 5 ≤ z)
    (h1 : z + (n : Int) ≤ maxCanonicalDay + 1) :
    segChain (buildWEEKS rt (consecutiveDays z n)) 0 n ∧
    (∀ s ∈ buildWEEKS rt (consecutiveDays z n), weekSegOk z s) ∧
    (n = 1 → buildWEEKS rt (consecutiveDays z n) = [⟨some (isoWeekNumber z), 0, 1⟩]) := by
  have hw : westLag rt = 0 := by
    unfold westLag
    rw [if_neg (by omega)]
  have := buildWEEKS_zone rt hz z n hn h0 h1
  rw [hw, sub_zero] at this
  exact this

/-- The segments of the window 2024-01-07 .. 2024-01-09 two hours east of UTC
are as the claim says. -/
theorem buildWEEKS_utc_witness :
    zoneOk utcPlus2Host ∧
    consecutiveDays (dayOf "2024-01-07".toList) 3
      = ["2024-01-07".toList, "2024-01-08".toList, "2024-01-09".toList] ∧
    segChain (buildWEEKS utcPlus2Host (consecutiveDays (dayOf "2024-01-07".toList) 3)) 0 3 ∧
    ∀ s ∈ buildWEEKS utcPlus2Host (consecutiveDays (dayOf "2024-01-07".toList) 3),
      weekSegOk (dayOf "2024-01-07".toList) s :=
  ⟨by decide, by decide,
    (buildWEEKS_utc utcPlus2Host (by decide) (by decide) (dayOf "2024-01-07".toList) 3
      (by decide) (by decide) (by decide)).1,
    (buildWEEKS_utc utcPlus2Host (by decide) (by decide) (dayOf "2024-01-07".toList) 3
      (by decide) (by decide) (by decide)).2.1⟩

/-! ## `applyImportedTasks` on rows whose dates are in range -/

/-- In a zone at a fixed offset from UTC, `resolveEnd` and `toISODate` throw no
error on a resolvable row whose dates are in range. -/
theorem rowDatesValid_of_inRange (rt : Runtime) (hz : zoneOk rt) (row : Row)
    (hres : rowResolvable row = true) (hin : rowDatesInRange row = true) :
    ∃ e s2 e2, resolveEnd rt row = some e ∧
      toISODate rt (DateArg.ofString row.start) = some s2 ∧
      toISODate rt (DateArg.ofString e) = some e2 := by
  have c1 : daysFromCivil 1 1 1 = -719162 := by decide
  obtain ⟨l0, l1⟩ := zoneLag_bounds rt
  unfold rowDatesInRange at hin
  simp only [Bool.and_eq_true, decide_eq_true_eq] at hin
  obtain ⟨⟨hstart, hlo⟩, hend⟩ := hin
  rw [c1] at hlo
  obtain ⟨es, s0, s1⟩ := isoOfDay_dayOf hstart
  simp only [minCanonicalDay, maxCanonicalDay] at s0 s1
  have hs2 := toISODate_isoOfDay rt hz (dayOf row.start)
    (by simp only [minCanonicalDay]; omega) (by simp only [maxCanonicalDay]; omega)
  rw [← es] at hs2
  by_cases he : row.end_.isEmpty = true
  · rw [if_pos he] at hend
    simp only [decide_eq_true_eq] at hend
    have he0 : row.end_ = [] := List.isEmpty_iff.mp he
    unfold rowResolvable at hres
    rw [he0] at hres
    simp only [List.isEmpty_nil, Bool.not_true, Bool.false_or, Bool.and_eq_true,
      decide_eq_true_eq] at hres
    obtain ⟨-, hfin, hpos⟩ := hres
    cases hdv : parseIntValue row.duration_days with
    | none => rw [hdv] at hfin; exact absurd hfin (by simp [numberIsFinite])
    | some d =>
      rw [hdv] at hfin hpos hend
      simp only [Option.getD_some, maxCanonicalDay] at hpos hend
      have hadd := addDays_isoOfDay rt hz (dayOf row.start) (d - 1)
        (by simp only [minCanonicalDay]; omega) (by simp only [maxCanonicalDay]; omega)
        (by simp only [minCanonicalDay]; omega) (by simp only [maxCanonicalDay]; omega)
      rw [← es] at hadd
      have he2 := toISODate_isoOfDay rt hz (dayOf row.start + (d - 1) - zoneLag rt)
        (by simp only [minCanonicalDay]; omega) (by simp only [maxCanonicalDay]; omega)
      refine ⟨_, _, _, ?_, hs2, he2⟩
      unfold resolveEnd
      have hsne : row.start.isEmpty = false := by
        cases h : row.start with
        | nil => exact absurd h (canonical_ne_nil hstart)
        | cons _ _ => rfl
      simp only [hdv, hfin, he0, hsne, Option.getD_some, hpos, decide_True, Bool.and_true,
        List.isEmpty_nil, Bool.not_false, if_true]
      exact hadd
  · rw [if_neg he] at hend
    simp only [Bool.and_eq_true, decide_eq_true_eq] at hend
    obtain ⟨hend1, hlo2⟩ := hend
    rw [c1] at hlo2
    obtain ⟨ee, e0, e1⟩ := isoOfDay_dayOf hend1
    simp only [minCanonicalDay, maxCanonicalDay] at e0 e1
    have he2 := toISODate_isoOfDay rt hz (dayOf row.end_)
      (by simp only [minCanonicalDay]; omega) (by simp only [maxCanonicalDay]; omega)
    rw [← ee] at he2
    refine ⟨row.end_, _, _, ?_, hs2, he2⟩
    unfold resolveEnd
    have hne : row.end_.isEmpty = false := by simpa using he
    simp only [hne, Bool.and_false, Bool.false_and, Bool.false_eq_true, if_false]

/-- C4 (as amended): in a zone at a fixed offset of less than a day from UTC,
for rows whose dates are in range wherever the row is resolvable (a canonical
start of the years 0001 to 9999, and an end that is such a date too or, without
an end, a duration that does not carry the end past 9999-12-31),
`applyImportedTasks` ends without error and appends to the tasks of the
project, which stay as they were, exactly one task for each resolvable row, in
row order: a row with a title, a start, and an end or a `duration_days` that
parses to a positive integer. Every other row adds no task and raises no error.
The task of a row has its title and description and its normalised start and
end. -/
theorem applyImportedTasks_in_range (rt : Runtime) (hz : zoneOk rt) (project : Project)
    (uuids : Nat) (rows : List Row)
    (hrows : ∀ row ∈ rows, rowResolvable row = true → rowDatesInRange row = true) :
    (applyImportedTasks rt project uuids rows).threw = false ∧
    ∃ new, (applyImportedTasks rt project uuids rows).project.tasks = project.tasks ++ new ∧
      new.length = (rows.filter rowResolvable).length ∧
      List.Forall₂ (fun (t : Task) (row : Row) =>
        t.title = row.title ∧ t.desc = row.desc ∧
        toISODate rt (DateArg.ofString row.start) = some t.start ∧
        ∃ e, resolveEnd rt row = some e ∧ toISODate rt (DateArg.ofString e) = some t.end_)
        new (rows.filter rowResolvable) := by
  obtain ⟨h1, new, h2, h3⟩ := importRows_appends rt rows
    ⟨project, JSMap.ofEntries (project.topics.map (fun t => (t.name, t.id))), uuids⟩
    (fun row hrow hres => rowDatesValid_of_inRange rt hz row hres (hrows row hrow hres))
  exact ⟨h1, new, h2, h3.length_eq, h3⟩

/-- C4 (witness): two hours east of UTC, five rows, of which the first (with an
end) and the second (with a duration) are resolvable; the others lack a title,
a start, or both an end and a duration, and one of them has a start that is no
date. Two tasks are added. -/
theorem applyImportedTasks_in_range_witness :
    zoneOk utcPlus2Host ∧
    (∀ row ∈ [(⟨[], "A".toList, "2024-01-10".toList, "2024-01-12".toList, [], []⟩ : Row),
        ⟨"X".toList, "B".toList, "2024-02-27".toList, [], "4".toList, "d".toList⟩,
        ⟨[], [], "2024-01-10".toList, "2024-01-12".toList, [], []⟩,
        ⟨[], "C".toList, [], "2024-01-12".toList, "3".toList, []⟩,
        ⟨[], "D".toList, "not a date".toList, [], "0".toList, []⟩],
      rowResolvable row = true → rowDatesInRange row = true) ∧
    (applyImportedTasks utcPlus2Host ⟨"P".toList, [DEFAULT_TOPIC], []⟩ 0
      [(⟨[], "A".toList, "2024-01-10".toList, "2024-01-12".toList, [], []⟩ : Row),
        ⟨"X".toList, "B".toList, "2024-02-27".toList, [], "4".toList, "d".toList⟩,
        ⟨[], [], "2024-01-10".toList, "2024-01-12".toList, [], []⟩,
        ⟨[], "C".toList, [], "2024-01-12".toList, "3".toList, []⟩,
        ⟨[], "D".toList, "not a date".toList, [], "0".toList, []⟩]).threw = false ∧
    (applyImportedTasks utcPlus2Host ⟨"P".toList, [DEFAULT_TOPIC], []⟩ 0
      [(⟨[], "A".toList, "2024-01-10".toList, "2024-01-12".toList, [], []⟩ : Row),
        ⟨"X".toList, "B".toList, "2024-02-27".toList, [], "4".toList, "d".toList⟩,
        ⟨[], [], "2024-01-10".toList, "2024-01-12".toList, [], []⟩,
        ⟨[], "C".toList, [], "2024-01-12".toList, "3".toList, []⟩,
        ⟨[], "D".toList, "not a date".toList, [], "0".toList, []⟩]).project.tasks.length = 2 :=
  ⟨by decide, by decide,
    (applyImportedTasks_in_range utcPlus2Host (by decide) ⟨"P".toList, [DEFAULT_TOPIC], []⟩ 0 _
      (by decide)).1,
    by decide⟩

end Gantt
